import Mathlib

/-!
Verification of the tslox tree-walking interpreter against its
natural-language specification.  The definitions below are shallow
embeddings of the TypeScript sources (Scanner, Parser, Resolver,
Environment, Interpreter, Function, Class).  JavaScript strings are
modelled as `List Char`, JS `Map` insertion-ordered maps as association
lists, object reference identity as explicit numeric ids, and the
mutable environment / instance heaps as lists indexed by those ids.
Host IEEE-754 doubles are modelled by `ℚ` inside the evaluator (no claim
proved here depends on rounding); the number-formatting claims are
settled against a dedicated sign/magnitude model of integral doubles.
-/

namespace TsLox

/-- Token kinds, translated from the `TokenType` enum of the scanner source. -/
inductive TokenType where
  | LEFT_PAREN | RIGHT_PAREN | LEFT_BRACE | RIGHT_BRACE
  | COMMA | DOT | MINUS | PLUS | SEMICOLON | SLASH | STAR
  | BANG | BANG_EQUAL | EQUAL | EQUAL_EQUAL
  | GREATER | GREATER_EQUAL | LESS | LESS_EQUAL
  | IDENTIFIER | STRING | NUMBER
  | AND | CLASS | ELSE | FALSE | FUN | FOR | IF | NIL | OR
  | PRINT | RETURN | SUPER | THIS | TRUE | VAR | WHILE
  | EOF
  deriving DecidableEq, Repr

/-- Literal payload of a token or of a `Literal` expression.  In the source
this is the untyped `unknown` slot holding `null`, a boolean, a JS number or
a string; the numeric case is modelled exactly by `ℚ`. -/
inductive LoxLit where
  | lnil
  | lbool (b : Bool)
  | lnum (q : ℚ)
  | lstr (s : String)
  deriving DecidableEq, Repr

/-- Tokens, translated from the `Token` class of the scanner source. -/
structure Token where
  type : TokenType
  lexeme : String
  literal : LoxLit
  line : Nat
  deriving DecidableEq, Repr

/-- Scanner diagnostics, one constructor per distinct message the scanner can
report through `Lox.error(line, message)`. -/
inductive ScanErr where
  | unexpectedCharacter (line : Nat)
  | unterminatedString (line : Nat)
  deriving DecidableEq, Repr

/-- The `"\0"` sentinel the scanner substitutes for out-of-range reads. -/
def nulChar : Char := Char.ofNat 0

/-- Scanner state: `#source`, `#tokens`, `#start`, `#current`, `#line`, plus
the stream of reported errors. -/
structure ScanState where
  source : List Char
  tokens : List Token := []
  start : Nat := 0
  current : Nat := 0
  line : Nat := 1
  errors : List ScanErr := []
  deriving Repr

/-- `get #done() { return this.#current >= this.#source.length; }` -/
def ScanState.done (st : ScanState) : Bool := st.source.length ≤ st.current

/-- `#peek(lookahead = 0)` from the scanner source. -/
def ScanState.peekAt (st : ScanState) (lookahead : Nat) : Char :=
  if st.done then nulChar else st.source.getD (st.current + lookahead) nulChar

/-- `#peek()` with the default lookahead. -/
def ScanState.peek (st : ScanState) : Char := st.peekAt 0

/-- `#advance()`: returns `source[current++]`, substituting `"\0"` past the end. -/
def ScanState.advance (st : ScanState) : Char × ScanState :=
  (st.source.getD st.current nulChar, { st with current := st.current + 1 })

/-- `#match(expected)` from the scanner source. -/
def ScanState.matchChar (st : ScanState) (expected : Char) : Bool × ScanState :=
  if st.done then (false, st)
  else if st.source.getD st.current nulChar ≠ expected then (false, st)
  else (true, { st with current := st.current + 1 })

/-- `#add(type, literal)`: pushes a token for `source.substring(start, current)`. -/
def ScanState.addTok (st : ScanState) (type : TokenType) (literal : LoxLit) : ScanState :=
  let text := String.mk ((st.source.drop st.start).take (st.current - st.start))
  { st with tokens := st.tokens ++ [⟨type, text, literal, st.line⟩] }

/-- `isDigit` from the scanner source (`"0" <= c && c <= "9"`). -/
def isDigit (c : Char) : Bool := 48 ≤ c.toNat && c.toNat ≤ 57

/-- `isAlpha` from the scanner source. -/
def isAlpha (c : Char) : Bool :=
  (97 ≤ c.toNat && c.toNat ≤ 122) || (65 ≤ c.toNat && c.toNat ≤ 90) || c = '_'

/-- `isAlphaNumeric` from the scanner source. -/
def isAlphaNumeric (c : Char) : Bool := isAlpha c || isDigit c

/-- The comment loop `while (this.#peek() !== "\n" && !this.#done) this.#advance();`.
When the scanner is done, `#peek()` returns `"\0" ≠ "\n"` and the `!done`
conjunct stops the loop, so the guard is equivalent to `¬done ∧ peek ≠ '\n'`. -/
def skipComment (st : ScanState) : ScanState :=
  if h : st.current < st.source.length ∧ st.peek ≠ '\n' then
    skipComment (st.advance).2
  else st
termination_by st.source.length - st.current
decreasing_by simp [ScanState.advance]; omega

/-- The string-consuming loop of `#string()`, incrementing `#line` on embedded
newlines.  As with `skipComment`, the source guard `peek ≠ '"' && !done` is
equivalent to `¬done ∧ peek ≠ '"'`. -/
def stringBody (st : ScanState) : ScanState :=
  if h : st.current < st.source.length ∧ st.peek ≠ '"' then
    let st' := if st.peek = '\n' then { st with line := st.line + 1 } else st
    stringBody (st'.advance).2
  else st
termination_by st.source.length - st.current
decreasing_by
  simp only [ScanState.advance]
  split <;> simp <;> omega

/-- `#string()` from the scanner source: consume the body; report
"Unterminated string." when the input ran out, otherwise consume the closing
quote and emit a STRING token whose literal is `substring(start+1, current-1)`. -/
def scanString (st : ScanState) : ScanState :=
  let st1 := stringBody st
  if st1.done then { st1 with errors := st1.errors ++ [.unterminatedString st1.line] }
  else
    let st2 := (st1.advance).2
    let value := String.mk ((st2.source.drop (st2.start + 1)).take (st2.current - 1 - (st2.start + 1)))
    st2.addTok .STRING (.lstr value)

/-- The digit run `while (isDigit(this.#peek())) this.#advance();`.  Past the
end `#peek()` is `"\0"`, which is not a digit, so the extra bound conjunct is
equivalent to the source guard. -/
def digitsLoop (st : ScanState) : ScanState :=
  if h : st.current < st.source.length ∧ isDigit st.peek then
    digitsLoop (st.advance).2
  else st
termination_by st.source.length - st.current
decreasing_by simp [ScanState.advance]; omega

/-- `a * 10 + digit` accumulation for a run of decimal digit characters. -/
def natOfDigits (ds : List Char) : Nat := ds.foldl (fun a c => a * 10 + (c.toNat - 48)) 0

/-- The value `Number(lexeme)` computes on a scanner-accepted numeric lexeme
(digits, optionally a dot and more digits), taken exactly in `ℚ`; the host
double would round this to the nearest binary64. -/
def numValue (cs : List Char) : ℚ :=
  match cs.splitOn '.' with
  | [w] => (natOfDigits w : ℚ)
  | [w, f] => (natOfDigits w : ℚ) + (natOfDigits f : ℚ) / ((10 : ℚ) ^ f.length)
  | _ => 0

/-- `#number()` from the scanner source. -/
def scanNumber (st : ScanState) : ScanState :=
  let st1 := digitsLoop st
  let st2 :=
    if st1.peek = '.' ∧ isDigit (st1.peekAt 1) then digitsLoop (st1.advance).2 else st1
  st2.addTok .NUMBER (.lnum (numValue ((st2.source.drop st2.start).take (st2.current - st2.start))))

/-- The static `Scanner.keywords` table with the `|| IDENTIFIER` fallback. -/
def keywordType (s : String) : TokenType :=
  if s = "and" then .AND
  else if s = "class" then .CLASS
  else if s = "else" then .ELSE
  else if s = "false" then .FALSE
  else if s = "for" then .FOR
  else if s = "fun" then .FUN
  else if s = "if" then .IF
  else if s = "nil" then .NIL
  else if s = "or" then .OR
  else if s = "print" then .PRINT
  else if s = "return" then .RETURN
  else if s = "super" then .SUPER
  else if s = "this" then .THIS
  else if s = "true" then .TRUE
  else if s = "var" then .VAR
  else if s = "while" then .WHILE
  else .IDENTIFIER

/-- The alphanumeric run of `#identifier()`. -/
def alnumLoop (st : ScanState) : ScanState :=
  if h : st.current < st.source.length ∧ isAlphaNumeric st.peek then
    alnumLoop (st.advance).2
  else st
termination_by st.source.length - st.current
decreasing_by simp [ScanState.advance]; omega

/-- `#identifier()` from the scanner source. -/
def scanIdentifier (st : ScanState) : ScanState :=
  let st1 := alnumLoop st
  let text := String.mk ((st1.source.drop st1.start).take (st1.current - st1.start))
  st1.addTok (keywordType text) .lnil

/-- `#scanToken()` from the scanner source: its first action is `#advance()`. -/
def scanToken (st : ScanState) : ScanState :=
  let (c, st1) := st.advance
  match c with
  | '(' => st1.addTok .LEFT_PAREN .lnil
  | ')' => st1.addTok .RIGHT_PAREN .lnil
  | '{' => st1.addTok .LEFT_BRACE .lnil
  | '}' => st1.addTok .RIGHT_BRACE .lnil
  | ',' => st1.addTok .COMMA .lnil
  | '.' => st1.addTok .DOT .lnil
  | '-' => st1.addTok .MINUS .lnil
  | '+' => st1.addTok .PLUS .lnil
  | ';' => st1.addTok .SEMICOLON .lnil
  | '*' => st1.addTok .STAR .lnil
  | '!' =>
    let (m, st2) := st1.matchChar '='
    st2.addTok (if m then .BANG_EQUAL else .BANG) .lnil
  | '=' =>
    let (m, st2) := st1.matchChar '='
    st2.addTok (if m then .EQUAL_EQUAL else .EQUAL) .lnil
  | '<' =>
    let (m, st2) := st1.matchChar '='
    st2.addTok (if m then .LESS_EQUAL else .LESS) .lnil
  | '>' =>
    let (m, st2) := st1.matchChar '='
    st2.addTok (if m then .GREATER_EQUAL else .GREATER) .lnil
  | '/' =>
    let (m, st2) := st1.matchChar '/'
    if m then skipComment st2 else st2.addTok .SLASH .lnil
  | ' ' => st1
  | '\r' => st1
  | '\t' => st1
  | '\n' => { st1 with line := st1.line + 1 }
  | '"' => scanString st1
  | c' =>
    if isDigit c' then scanNumber st1
    else if isAlpha c' then scanIdentifier st1
    else { st1 with errors := st1.errors ++ [.unexpectedCharacter st1.line] }

/-- The comment loop preserves the source and never moves the cursor backwards. -/
theorem skipComment_spec (st : ScanState) :
    (skipComment st).source = st.source ∧ st.current ≤ (skipComment st).current := by
  rw [skipComment]
  split
  · have ih := skipComment_spec (st.advance).2
    simp only [ScanState.advance] at ih ⊢
    exact ⟨ih.1, by omega⟩
  · exact ⟨rfl, Nat.le_refl _⟩
termination_by st.source.length - st.current
decreasing_by simp [ScanState.advance]; omega

/-- The string-body loop preserves the source and never moves the cursor backwards. -/
theorem stringBody_spec (st : ScanState) :
    (stringBody st).source = st.source ∧ st.current ≤ (stringBody st).current := by
  rw [stringBody]
  split
  · split
    · have ih := stringBody_spec ({ st with line := st.line + 1 }.advance).2
      simp only [ScanState.advance] at ih ⊢
      exact ⟨ih.1, by omega⟩
    · have ih := stringBody_spec (st.advance).2
      simp only [ScanState.advance] at ih ⊢
      exact ⟨ih.1, by omega⟩
  · exact ⟨rfl, Nat.le_refl _⟩
termination_by st.source.length - st.current
decreasing_by
  all_goals simp [ScanState.advance]; omega

/-- The digit loop preserves the source and never moves the cursor backwards. -/
theorem digitsLoop_spec (st : ScanState) :
    (digitsLoop st).source = st.source ∧ st.current ≤ (digitsLoop st).current := by
  rw [digitsLoop]
  split
  · have ih := digitsLoop_spec (st.advance).2
    simp only [ScanState.advance] at ih ⊢
    exact ⟨ih.1, by omega⟩
  · exact ⟨rfl, Nat.le_refl _⟩
termination_by st.source.length - st.current
decreasing_by simp [ScanState.advance]; omega

/-- The identifier loop preserves the source and never moves the cursor backwards. -/
theorem alnumLoop_spec (st : ScanState) :
    (alnumLoop st).source = st.source ∧ st.current ≤ (alnumLoop st).current := by
  rw [alnumLoop]
  split
  · have ih := alnumLoop_spec (st.advance).2
    simp only [ScanState.advance] at ih ⊢
    exact ⟨ih.1, by omega⟩
  · exact ⟨rfl, Nat.le_refl _⟩
termination_by st.source.length - st.current
decreasing_by simp [ScanState.advance]; omega

/-- `#string()` preserves the source and never moves the cursor backwards. -/
theorem scanString_spec (st : ScanState) :
    (scanString st).source = st.source ∧ st.current ≤ (scanString st).current := by
  have h := stringBody_spec st
  unfold scanString
  dsimp only
  split
  · simpa using h
  · simp only [ScanState.advance, ScanState.addTok]
    exact ⟨h.1, by omega⟩

/-- `#number()` preserves the source and never moves the cursor backwards. -/
theorem scanNumber_spec (st : ScanState) :
    (scanNumber st).source = st.source ∧ st.current ≤ (scanNumber st).current := by
  have h1 := digitsLoop_spec st
  unfold scanNumber
  dsimp only
  split
  · have h2 := digitsLoop_spec ((digitsLoop st).advance).2
    simp only [ScanState.advance, ScanState.addTok] at h2 ⊢
    exact ⟨h2.1.trans h1.1, by omega⟩
  · simp only [ScanState.addTok]
    exact ⟨h1.1, h1.2⟩

/-- `#identifier()` preserves the source and never moves the cursor backwards. -/
theorem scanIdentifier_spec (st : ScanState) :
    (scanIdentifier st).source = st.source ∧ st.current ≤ (scanIdentifier st).current := by
  have h := alnumLoop_spec st
  unfold scanIdentifier
  simp only [ScanState.addTok]
  exact ⟨h.1, h.2⟩

/-- `#scanToken()` preserves the source and strictly advances the cursor: its
first action is `#advance()`, and every later step only moves forwards. -/
theorem scanToken_spec (st : ScanState) :
    (scanToken st).source = st.source ∧ st.current < (scanToken st).current := by
  unfold scanToken
  simp only [ScanState.advance]
  split
  case _ => exact ⟨rfl, by simp [ScanState.addTok]⟩
  case _ => exact ⟨rfl, by simp [ScanState.addTok]⟩
  case _ => exact ⟨rfl, by simp [ScanState.addTok]⟩
  case _ => exact ⟨rfl, by simp [ScanState.addTok]⟩
  case _ => exact ⟨rfl, by simp [ScanState.addTok]⟩
  case _ => exact ⟨rfl, by simp [ScanState.addTok]⟩
  case _ => exact ⟨rfl, by simp [ScanState.addTok]⟩
  case _ => exact ⟨rfl, by simp [ScanState.addTok]⟩
  case _ => exact ⟨rfl, by simp [ScanState.addTok]⟩
  case _ => exact ⟨rfl, by simp [ScanState.addTok]⟩
  case _ =>
    simp only [ScanState.matchChar, ScanState.done]
    split <;> [skip; split] <;> (refine ⟨rfl, ?_⟩) <;> simp [ScanState.addTok] <;> omega
  case _ =>
    simp only [ScanState.matchChar, ScanState.done]
    split <;> [skip; split] <;> (refine ⟨rfl, ?_⟩) <;> simp [ScanState.addTok] <;> omega
  case _ =>
    simp only [ScanState.matchChar, ScanState.done]
    split <;> [skip; split] <;> (refine ⟨rfl, ?_⟩) <;> simp [ScanState.addTok] <;> omega
  case _ =>
    simp only [ScanState.matchChar, ScanState.done]
    split <;> [skip; split] <;> (refine ⟨rfl, ?_⟩) <;> simp [ScanState.addTok] <;> omega
  case _ =>
    simp only [ScanState.matchChar, ScanState.done]
    split
    · exact ⟨rfl, by simp [ScanState.addTok]⟩
    · split
      · exact ⟨rfl, by simp [ScanState.addTok]⟩
      · have h := skipComment_spec { st with current := st.current + 1 + 1 }
        exact ⟨h.1, Nat.lt_of_lt_of_le (Nat.lt_of_lt_of_le (Nat.lt_succ_self _) (Nat.le_succ _)) h.2⟩
  case _ => exact ⟨rfl, by simp⟩
  case _ => exact ⟨rfl, by simp⟩
  case _ => exact ⟨rfl, by simp⟩
  case _ => exact ⟨rfl, by simp⟩
  case _ =>
    have h := scanString_spec { st with current := st.current + 1 }
    exact ⟨h.1, Nat.lt_of_lt_of_le (Nat.lt_succ_self _) h.2⟩
  case _ =>
    split
    · have h := scanNumber_spec { st with current := st.current + 1 }
      exact ⟨h.1, Nat.lt_of_lt_of_le (Nat.lt_succ_self _) h.2⟩
    · split
      · have h := scanIdentifier_spec { st with current := st.current + 1 }
        exact ⟨h.1, Nat.lt_of_lt_of_le (Nat.lt_succ_self _) h.2⟩
      · exact ⟨rfl, by simp⟩

/-- `scanTokens`'s scan loop: while not at end of input, reset `#start` to the
cursor and scan one token.  Termination is by `scanToken_spec`: each iteration
strictly increases the cursor towards the fixed source length. -/
def scanLoop (st : ScanState) : ScanState :=
  if h : st.current < st.source.length then
    scanLoop (scanToken { st with start := st.current })
  else st
termination_by st.source.length - st.current
decreasing_by
  have h1 : (scanToken { st with start := st.current }).source = st.source :=
    (scanToken_spec { st with start := st.current }).1
  have h2 : st.current < (scanToken { st with start := st.current }).current :=
    (scanToken_spec { st with start := st.current }).2
  rw [h1]
  omega

/-- `Scanner.scanTokens()`: run the scan loop over the whole source, then push
the final EOF token. -/
def scanTokens (source : List Char) : List Token :=
  let st := scanLoop { source := source }
  st.tokens ++ [⟨.EOF, "", .lnil, st.line⟩]

/-- C10: `Scanner.scanTokens` terminates for every finite source string —
`scanLoop` is well-founded on `source.length - current` precisely because
every `#scanToken` call strictly increases the cursor (its first action is
`#advance()`), which is the first conjunct — and the returned token list
always has the EOF token as its last element (second conjunct). -/
theorem c10_scanTokens_terminates_and_ends_with_eof :
    (∀ st : ScanState, st.current < (scanToken st).current) ∧
    (∀ src : List Char, ∃ l, (scanTokens src).getLast? =
      some ⟨TokenType.EOF, "", LoxLit.lnil, l⟩) := by
  refine ⟨fun st => (scanToken_spec st).2, fun src => ⟨(scanLoop { source := src }).line, ?_⟩⟩
  unfold scanTokens
  simp

/-- Expression AST, translated from `Expr.ts` (inheritance-era shard).  The
`id` field on `Assign` / `Super` / `This` / `Variable` nodes makes the JS
object reference identity explicit; the resolver's `locals` side-table is
keyed by it (spec §9 sanctions storing a stable identity on the node). -/
inductive Expr where
  | assign (id : Nat) (name : Token) (value : Expr)
  | binary (left : Expr) (operator : Token) (right : Expr)
  | call (callee : Expr) (paren : Token) (args : List Expr)
  | get (object : Expr) (name : Token)
  | grouping (e : Expr)
  | literal (value : LoxLit)
  | logical (left : Expr) (operator : Token) (right : Expr)
  | set (object : Expr) (name : Token) (value : Expr)
  | superE (id : Nat) (keyword : Token) (method : Token)
  | thisE (id : Nat) (keyword : Token)
  | unary (operator : Token) (e : Expr)
  | variableE (id : Nat) (name : Token)

mutual

/-- Statement AST, translated from `Stmt.ts` (inheritance-era shard with the
`Class` node carrying `superclass?: Variable`). -/
inductive Stmt where
  | block (statements : List Stmt)
  | classStmt (name : Token) (methods : List FunDecl) (superclass : Option Expr)
  | expression (e : Expr)
  | functionStmt (decl : FunDecl)
  | ifStmt (condition : Expr) (thenBranch : Stmt) (elseBranch : Option Stmt)
  | print (e : Expr)
  | returnStmt (keyword : Token) (value : Expr)
  | varStmt (name : Token) (initializer : Option Expr)
  | whileStmt (condition : Expr) (body : Stmt)

/-- `Stmt.Function`: a named function declaration (also used for methods). -/
inductive FunDecl where
  | mk (name : Token) (params : List Token) (body : List Stmt)

end

/-- Projection for `Stmt.Function.name`. -/
def FunDecl.name : FunDecl → Token
  | .mk n _ _ => n

/-- Projection for `Stmt.Function.params`. -/
def FunDecl.params : FunDecl → List Token
  | .mk _ p _ => p

/-- Projection for `Stmt.Function.body`. -/
def FunDecl.body : FunDecl → List Stmt
  | .mk _ _ b => b

/-- Parser diagnostics, one constructor per distinct message the parser can
report through `Lox.error(token, message)`.  `outOfFuel` is an artifact of
the fuel-indexed embedding and corresponds to no source message. -/
inductive PMsg where
  | expectClassName
  | expectSuperclassName
  | expectLbraceBeforeClassBody
  | expectRbraceAfterClassBody
  | expectKindName (kind : String)
  | expectLparenAfterKindName (kind : String)
  | cantHaveMoreThan255Parameters
  | expectParameterName
  | expectRparenAfterParameters
  | expectLbraceBeforeKindBody (kind : String)
  | expectVariableName
  | expectSemicolonAfterVariableDeclaration
  | expectLparenAfterFor
  | expectSemicolonAfterLoopCondition
  | expectRparenAfterForClauses
  | expectLparenAfterIf
  | expectRparenAfterIfCondition
  | expectSemicolonAfterValue
  | expectSemicolonAfterReturnValue
  | expectLparenAfterWhile
  | expectRparenAfterCondition
  | expectSemicolonAfterExpression
  | expectRbraceAfterBlock
  | invalidAssignmentTarget
  | expectPropertyNameAfterDot
  | cantHaveMoreThan255Arguments
  | expectRparenAfterArguments
  | expectDotAfterSuper
  | expectSuperclassMethodName
  | expectRparenAfterExpression
  | expectExpression
  | outOfFuel
  deriving DecidableEq, Repr

/-- Parser state: `#tokens`, `#current`, a fresh-id counter modelling JS
object identity of newly built AST nodes, and the log of messages sent to
`Lox.error` (both the ones accompanying a thrown `ParseError` and the
non-fatal ones). -/
structure PState where
  tokens : List Token
  current : Nat := 0
  nextId : Nat := 0
  perrors : List (Token × PMsg) := []

/-- A parser computation result: either a value or a thrown `ParseError`
(carrying the offending token and message), together with the final state. -/
abbrev PRes (α : Type) := Except (Token × PMsg) α × PState

/-- Sequencing of parser steps: a thrown `ParseError` propagates. -/
def pbind {α β : Type} (r : PRes α) (f : α → PState → PRes β) : PRes β :=
  match r with
  | (.error e, st) => (.error e, st)
  | (.ok a, st) => f a st

/-- Mapping over a parser result. -/
def pmap {α β : Type} (f : α → β) (r : PRes α) : PRes β :=
  match r with
  | (.error e, st) => (.error e, st)
  | (.ok a, st) => (.ok (f a), st)

/-- `#peek()`: `this.#tokens[this.#current]`.  The scanner guarantees an EOF
sentinel, so the default is never reached on scanner-produced input. -/
def PState.peekTok (st : PState) : Token := st.tokens.getD st.current ⟨.EOF, "", .lnil, 0⟩

/-- Fuel exhaustion (no source counterpart; see `PMsg.outOfFuel`). -/
def fuelErr {α : Type} (st : PState) : PRes α := (.error (st.peekTok, .outOfFuel), st)

/-- `#previous()`: `this.#tokens[this.#current - 1]`. -/
def PState.previous (st : PState) : Token := st.tokens.getD (st.current - 1) ⟨.EOF, "", .lnil, 0⟩

/-- `get #done()`: the next token is EOF. -/
def PState.done (st : PState) : Bool := st.peekTok.type = .EOF

/-- `#advance()`: step unless done, then return `#previous()`. -/
def PState.advanceTok (st : PState) : Token × PState :=
  let st' := if st.done then st else { st with current := st.current + 1 }
  (st'.previous, st')

/-- `#check(type)` from the parser source. -/
def PState.check (st : PState) (t : TokenType) : Bool :=
  if st.done then false else st.peekTok.type = t

/-- `#match(...types)` from the parser source. -/
def PState.matchAny (st : PState) (ts : List TokenType) : Bool × PState :=
  match ts with
  | [] => (false, st)
  | t :: rest =>
    if st.check t then (true, (st.advanceTok).2) else st.matchAny rest

/-- `#match` specialised to one token type. -/
def PState.matchT (st : PState) (t : TokenType) : Bool × PState := st.matchAny [t]

/-- `#consume(type, message)`: advance on a match, otherwise record the
message via `Lox.error` and throw `ParseError`. -/
def PState.consume (st : PState) (t : TokenType) (msg : PMsg) : PRes Token :=
  if st.check t then
    let (tok, st') := st.advanceTok
    (.ok tok, st')
  else
    (.error (st.peekTok, msg), { st with perrors := st.perrors ++ [(st.peekTok, msg)] })

/-- Allocation of a fresh AST-node identity (see the comment on `Expr`). -/
def PState.fresh (st : PState) : Nat × PState :=
  (st.nextId, { st with nextId := st.nextId + 1 })

/-- `#synchronize()` from the parser source, fuel-indexed. -/
def synchronize : Nat → PState → PState
  | 0, st => st
  | n + 1, st =>
    let (_, st1) := st.advanceTok
    syncLoop n st1
where
  /-- The skip-ahead loop of `#synchronize()`. -/
  syncLoop : Nat → PState → PState
  | 0, st => st
  | n + 1, st =>
    if st.done then st
    else if st.previous.type = .SEMICOLON then st
    else
      match st.peekTok.type with
      | .CLASS | .FUN | .VAR | .FOR | .IF | .WHILE | .PRINT | .RETURN => st
      | _ => syncLoop n (st.advanceTok).2

mutual

/-- `#expression()` from the parser source. -/
def expression : Nat → PState → PRes Expr
  | 0, st => fuelErr st
  | n + 1, st => assignment n st

/-- `#assignment()` from the parser source: parse the full call chain, then on
`=` either build `Assign` (Variable target) or `Set` (Get target), otherwise
record "Invalid assignment target." without throwing and return the LHS. -/
def assignment : Nat → PState → PRes Expr
  | 0, st => fuelErr st
  | n + 1, st =>
    pbind (orRule n st) fun e st1 =>
      let (m, st2) := st1.matchT .EQUAL
      if m then
        let equals := st2.previous
        pbind (assignment n st2) fun value st3 =>
          match e with
          | .variableE _ name =>
            let (i, st4) := st3.fresh
            (.ok (.assign i name value), st4)
          | .get obj name => (.ok (.set obj name value), st3)
          | _ =>
            (.ok e, { st3 with perrors := st3.perrors ++ [(equals, .invalidAssignmentTarget)] })
      else (.ok e, st2)

/-- `#or()` from the parser source. -/
def orRule : Nat → PState → PRes Expr
  | 0, st => fuelErr st
  | n + 1, st => pbind (andRule n st) fun e st1 => orLoop n st1 e

/-- The `while (match(OR))` loop of `#or()`. -/
def orLoop : Nat → PState → Expr → PRes Expr
  | 0, st, _ => fuelErr st
  | n + 1, st, e =>
    let (m, st1) := st.matchT .OR
    if m then
      let op := st1.previous
      pbind (andRule n st1) fun right st2 => orLoop n st2 (.logical e op right)
    else (.ok e, st1)

/-- `#and()` from the parser source. -/
def andRule : Nat → PState → PRes Expr
  | 0, st => fuelErr st
  | n + 1, st => pbind (equality n st) fun e st1 => andLoop n st1 e

/-- The `while (match(AND))` loop of `#and()`. -/
def andLoop : Nat → PState → Expr → PRes Expr
  | 0, st, _ => fuelErr st
  | n + 1, st, e =>
    let (m, st1) := st.matchT .AND
    if m then
      let op := st1.previous
      pbind (equality n st1) fun right st2 => andLoop n st2 (.logical e op right)
    else (.ok e, st1)

/-- `#equality()` from the parser source. -/
def equality : Nat → PState → PRes Expr
  | 0, st => fuelErr st
  | n + 1, st => pbind (comparison n st) fun e st1 => equalityLoop n st1 e

/-- The `while (match(BANG_EQUAL, EQUAL_EQUAL))` loop of `#equality()`. -/
def equalityLoop : Nat → PState → Expr → PRes Expr
  | 0, st, _ => fuelErr st
  | n + 1, st, e =>
    let (m, st1) := st.matchAny [.BANG_EQUAL, .EQUAL_EQUAL]
    if m then
      let op := st1.previous
      pbind (comparison n st1) fun right st2 => equalityLoop n st2 (.binary e op right)
    else (.ok e, st1)

/-- `#comparison()` from the parser source. -/
def comparison : Nat → PState → PRes Expr
  | 0, st => fuelErr st
  | n + 1, st => pbind (termRule n st) fun e st1 => comparisonLoop n st1 e

/-- The comparison-operator loop of `#comparison()`. -/
def comparisonLoop : Nat → PState → Expr → PRes Expr
  | 0, st, _ => fuelErr st
  | n + 1, st, e =>
    let (m, st1) := st.matchAny [.GREATER, .GREATER_EQUAL, .LESS, .LESS_EQUAL]
    if m then
      let op := st1.previous
      pbind (termRule n st1) fun right st2 => comparisonLoop n st2 (.binary e op right)
    else (.ok e, st1)

/-- `#term()` from the parser source. -/
def termRule : Nat → PState → PRes Expr
  | 0, st => fuelErr st
  | n + 1, st => pbind (factor n st) fun e st1 => termLoop n st1 e

/-- The `while (match(MINUS, PLUS))` loop of `#term()`. -/
def termLoop : Nat → PState → Expr → PRes Expr
  | 0, st, _ => fuelErr st
  | n + 1, st, e =>
    let (m, st1) := st.matchAny [.MINUS, .PLUS]
    if m then
      let op := st1.previous
      pbind (factor n st1) fun right st2 => termLoop n st2 (.binary e op right)
    else (.ok e, st1)

/-- `#factor()` from the parser source. -/
def factor : Nat → PState → PRes Expr
  | 0, st => fuelErr st
  | n + 1, st => pbind (unaryRule n st) fun e st1 => factorLoop n st1 e

/-- The `while (match(SLASH, STAR))` loop of `#factor()`. -/
def factorLoop : Nat → PState → Expr → PRes Expr
  | 0, st, _ => fuelErr st
  | n + 1, st, e =>
    let (m, st1) := st.matchAny [.SLASH, .STAR]
    if m then
      let op := st1.previous
      pbind (unaryRule n st1) fun right st2 => factorLoop n st2 (.binary e op right)
    else (.ok e, st1)

/-- `#unary()` from the parser source. -/
def unaryRule : Nat → PState → PRes Expr
  | 0, st => fuelErr st
  | n + 1, st =>
    let (m, st1) := st.matchAny [.BANG, .MINUS]
    if m then
      let op := st1.previous
      pbind (unaryRule n st1) fun right st2 => (.ok (.unary op right), st2)
    else callRule n st1

/-- `#call()` from the parser source. -/
def callRule : Nat → PState → PRes Expr
  | 0, st => fuelErr st
  | n + 1, st => pbind (primary n st) fun e st1 => callLoop n st1 e

/-- The `while (true)` postfix loop of `#call()`. -/
def callLoop : Nat → PState → Expr → PRes Expr
  | 0, st, _ => fuelErr st
  | n + 1, st, e =>
    let (m1, st1) := st.matchT .LEFT_PAREN
    if m1 then
      pbind (finishCall n st1 e) fun e' st2 => callLoop n st2 e'
    else
      let (m2, st2) := st1.matchT .DOT
      if m2 then
        pbind (st2.consume .IDENTIFIER .expectPropertyNameAfterDot) fun name st3 =>
          callLoop n st3 (.get e name)
      else (.ok e, st2)

/-- `#finishCall(callee)` from the parser source. -/
def finishCall : Nat → PState → Expr → PRes Expr
  | 0, st, _ => fuelErr st
  | n + 1, st, callee =>
    pbind (if st.check .RIGHT_PAREN then (.ok [], st) else argsLoop n st []) fun args st1 =>
      pbind (st1.consume .RIGHT_PAREN .expectRparenAfterArguments) fun paren st2 =>
        (.ok (.call callee paren args), st2)

/-- The argument `do … while (match(COMMA))` loop of `#finishCall`, including
the non-fatal over-255 report that precedes parsing each argument. -/
def argsLoop : Nat → PState → List Expr → PRes (List Expr)
  | 0, st, _ => fuelErr st
  | n + 1, st, acc =>
    let st0 :=
      if 255 ≤ acc.length then
        { st with perrors := st.perrors ++ [(st.peekTok, .cantHaveMoreThan255Arguments)] }
      else st
    pbind (expression n st0) fun e st1 =>
      let (m, st2) := st1.matchT .COMMA
      if m then argsLoop n st2 (acc ++ [e]) else (.ok (acc ++ [e]), st2)

/-- `#primary()` from the parser source, extended with the `"super" "." IDENT`
production.  The `super` branch is modelled from the spec grammar
(`primary → … | "super" "." IDENT`); the parser shard under `src/` predates
inheritance and lacks it, while everything else is translated from the shard. -/
def primary : Nat → PState → PRes Expr
  | 0, st => fuelErr st
  | n + 1, st =>
    let (m, st1) := st.matchT .FALSE
    if m then (.ok (.literal (.lbool false)), st1) else
    let (m, st2) := st1.matchT .TRUE
    if m then (.ok (.literal (.lbool true)), st2) else
    let (m, st3) := st2.matchT .NIL
    if m then (.ok (.literal .lnil), st3) else
    let (m, st4) := st3.matchAny [.NUMBER, .STRING]
    if m then (.ok (.literal st4.previous.literal), st4) else
    let (m, st5) := st4.matchT .SUPER
    if m then
      let keyword := st5.previous
      pbind (st5.consume .DOT .expectDotAfterSuper) fun _ st6 =>
        pbind (st6.consume .IDENTIFIER .expectSuperclassMethodName) fun method st7 =>
          let (i, st8) := st7.fresh
          (.ok (.superE i keyword method), st8)
    else
    let (m, st6) := st5.matchT .THIS
    if m then
      let (i, st7) := st6.fresh
      (.ok (.thisE i st6.previous), st7) else
    let (m, st7) := st6.matchT .IDENTIFIER
    if m then
      let (i, st8) := st7.fresh
      (.ok (.variableE i st7.previous), st8) else
    let (m, st8) := st7.matchT .LEFT_PAREN
    if m then
      pbind (expression n st8) fun e st9 =>
        pbind (st9.consume .RIGHT_PAREN .expectRparenAfterExpression) fun _ st10 =>
          (.ok (.grouping e), st10)
    else
      (.error (st8.peekTok, .expectExpression),
        { st8 with perrors := st8.perrors ++ [(st8.peekTok, .expectExpression)] })

/-- `#declaration()` from the parser source: dispatch on `class` / `fun` /
`var`, catch a thrown `ParseError`, synchronize and yield nothing. -/
def declaration : Nat → PState → PRes (Option Stmt)
  | 0, st => fuelErr st
  | n + 1, st =>
    let (m1, st1) := st.matchT .CLASS
    if m1 then recover n (classDeclaration n st1) else
    let (m2, st2) := st1.matchT .FUN
    if m2 then recover n (functionRule n st2 "function") else
    let (m3, st3) := st2.matchT .VAR
    if m3 then recover n (varDeclaration n st3)
    else recover n (statement n st3)

/-- The `catch (ParseError) → #synchronize()` arm of `#declaration()`. -/
def recover : Nat → PRes Stmt → PRes (Option Stmt)
  | _, (.ok s, st) => (.ok (some s), st)
  | n, (.error _, st) => (.ok none, synchronize n st)

/-- `#classDeclaration()` with the optional superclass clause.  The clause
(`#match(LESS)` then `#consume(IDENTIFIER)`, storing the superclass as a
`Variable` expression) is modelled from the spec grammar
`classDecl → "class" IDENT ( "<" IDENT )? "{" function* "}"`; the `src/`
parser shard predates inheritance and omits it.  The rest (class name, brace
delimiters, the method loop) is translated from the shard. -/
def classDeclaration : Nat → PState → PRes Stmt
  | 0, st => fuelErr st
  | n + 1, st =>
    pbind (st.consume .IDENTIFIER .expectClassName) fun name st1 =>
      pbind (superclassClause n st1) fun superclass st5 =>
        pbind (st5.consume .LEFT_BRACE .expectLbraceBeforeClassBody) fun _ st6 =>
          pbind (methodsLoop n st6 []) fun methods st7 =>
            pbind (st7.consume .RIGHT_BRACE .expectRbraceAfterClassBody) fun _ st8 =>
              (.ok (.classStmt name methods superclass), st8)

/-- The optional superclass clause of `#classDeclaration()`; modelled from the
spec grammar `( "<" IDENT )?`: on `<`, consume an identifier and store the
superclass as a `Variable` expression, otherwise leave it absent. -/
def superclassClause : Nat → PState → PRes (Option Expr)
  | 0, st => fuelErr st
  | _ + 1, st =>
    let (m, st2) := st.matchT .LESS
    if m then
      pbind (st2.consume .IDENTIFIER .expectSuperclassName) fun sname st3 =>
        let (i, st4) := st3.fresh
        (.ok (some (Expr.variableE i sname)), st4)
    else (.ok none, st2)

/-- The `while (!check(RIGHT_BRACE) && !done)` method loop of
`#classDeclaration()`. -/
def methodsLoop : Nat → PState → List FunDecl → PRes (List FunDecl)
  | 0, st, _ => fuelErr st
  | n + 1, st, acc =>
    if ¬st.check .RIGHT_BRACE ∧ ¬st.done then
      pbind (functionRuleF n st "method") fun f st1 => methodsLoop n st1 (acc ++ [f])
    else (.ok acc, st)

/-- `#function(kind)` from the parser source, wrapped as a statement. -/
def functionRule : Nat → PState → String → PRes Stmt
  | 0, st, _ => fuelErr st
  | n + 1, st, kind => pmap .functionStmt (functionRuleF n st kind)

/-- `#function(kind)` from the parser source, producing the declaration. -/
def functionRuleF : Nat → PState → String → PRes FunDecl
  | 0, st, _ => fuelErr st
  | n + 1, st, kind =>
    pbind (st.consume .IDENTIFIER (.expectKindName kind)) fun name st1 =>
      pbind (st1.consume .LEFT_PAREN (.expectLparenAfterKindName kind)) fun _ st2 =>
        pbind (if st2.check .RIGHT_PAREN then (.ok [], st2) else paramsLoop n st2 []) fun ps st3 =>
          pbind (st3.consume .RIGHT_PAREN .expectRparenAfterParameters) fun _ st4 =>
            pbind (st4.consume .LEFT_BRACE (.expectLbraceBeforeKindBody kind)) fun _ st5 =>
              pbind (blockRule n st5) fun body st6 =>
                (.ok (.mk name ps body), st6)

/-- The parameter `do … while (match(COMMA))` loop of `#function`, including
the non-fatal over-255 report. -/
def paramsLoop : Nat → PState → List Token → PRes (List Token)
  | 0, st, _ => fuelErr st
  | n + 1, st, acc =>
    let st0 :=
      if 255 ≤ acc.length then
        { st with perrors := st.perrors ++ [(st.peekTok, .cantHaveMoreThan255Parameters)] }
      else st
    pbind (st0.consume .IDENTIFIER .expectParameterName) fun p st1 =>
      let (m, st2) := st1.matchT .COMMA
      if m then paramsLoop n st2 (acc ++ [p]) else (.ok (acc ++ [p]), st2)

/-- `#varDeclaration()` from the parser source. -/
def varDeclaration : Nat → PState → PRes Stmt
  | 0, st => fuelErr st
  | n + 1, st =>
    pbind (st.consume .IDENTIFIER .expectVariableName) fun name st1 =>
      let (m, st2) := st1.matchT .EQUAL
      pbind (if m then pmap some (expression n st2) else (.ok none, st2)) fun init st3 =>
        pbind (st3.consume .SEMICOLON .expectSemicolonAfterVariableDeclaration) fun _ st4 =>
          (.ok (.varStmt name init), st4)

/-- `#statement()` from the parser source. -/
def statement : Nat → PState → PRes Stmt
  | 0, st => fuelErr st
  | n + 1, st =>
    let (m1, st1) := st.matchT .FOR
    if m1 then forStatement n st1 else
    let (m2, st2) := st1.matchT .IF
    if m2 then ifStatement n st2 else
    let (m3, st3) := st2.matchT .PRINT
    if m3 then printStatement n st3 else
    let (m4, st4) := st3.matchT .RETURN
    if m4 then returnStatement n st4 else
    let (m5, st5) := st4.matchT .WHILE
    if m5 then whileStatement n st5 else
    let (m6, st6) := st5.matchT .LEFT_BRACE
    if m6 then pmap .block (blockRule n st6)
    else expressionStatement n st6

/-- `#forStatement()` from the parser source: parse the clauses, then desugar
at parse time into `{ I; while (C) { B; U; } }`. -/
def forStatement : Nat → PState → PRes Stmt
  | 0, st => fuelErr st
  | n + 1, st =>
    pbind (st.consume .LEFT_PAREN .expectLparenAfterFor) fun _ st1 =>
      pbind (forInitClause n st1) fun initializer st4 =>
        pbind (forCondClause n st4) fun condition st5 =>
          pbind (st5.consume .SEMICOLON .expectSemicolonAfterLoopCondition) fun _ st6 =>
            pbind (forIncClause n st6) fun increment st7 =>
              pbind (st7.consume .RIGHT_PAREN .expectRparenAfterForClauses) fun _ st8 =>
                pbind (statement n st8) fun body0 st9 =>
                  let body1 :=
                    match increment with
                    | some u => Stmt.block [body0, .expression u]
                    | none => body0
                  let body2 := Stmt.whileStmt (condition.getD (.literal (.lbool true))) body1
                  let body3 :=
                    match initializer with
                    | some i => Stmt.block [i, body2]
                    | none => body2
                  (.ok body3, st9)

/-- The initializer clause of `#forStatement()`: `;` yields nothing, `var`
defers to `#varDeclaration()`, anything else to `#expressionStatement()`. -/
def forInitClause : Nat → PState → PRes (Option Stmt)
  | 0, st => fuelErr st
  | n + 1, st =>
    let (msemi, st2) := st.matchT .SEMICOLON
    if msemi then (.ok none, st2)
    else
      let (mvar, st3) := st2.matchT .VAR
      if mvar then pmap some (varDeclaration n st3)
      else pmap some (expressionStatement n st3)

/-- The condition clause of `#forStatement()`: absent when the next token is
already the `;`. -/
def forCondClause : Nat → PState → PRes (Option Expr)
  | 0, st => fuelErr st
  | n + 1, st =>
    if ¬st.check .SEMICOLON then pmap some (expression n st) else (.ok none, st)

/-- The increment clause of `#forStatement()`: absent when the next token is
already the `)`. -/
def forIncClause : Nat → PState → PRes (Option Expr)
  | 0, st => fuelErr st
  | n + 1, st =>
    if ¬st.check .RIGHT_PAREN then pmap some (expression n st) else (.ok none, st)

/-- `#ifStatement()` from the parser source. -/
def ifStatement : Nat → PState → PRes Stmt
  | 0, st => fuelErr st
  | n + 1, st =>
    pbind (st.consume .LEFT_PAREN .expectLparenAfterIf) fun _ st1 =>
      pbind (expression n st1) fun cond st2 =>
        pbind (st2.consume .RIGHT_PAREN .expectRparenAfterIfCondition) fun _ st3 =>
          pbind (statement n st3) fun thenB st4 =>
            let (m, st5) := st4.matchT .ELSE
            pbind (if m then pmap some (statement n st5) else (.ok none, st5)) fun elseB st6 =>
              (.ok (.ifStmt cond thenB elseB), st6)

/-- `#printStatement()` from the parser source. -/
def printStatement : Nat → PState → PRes Stmt
  | 0, st => fuelErr st
  | n + 1, st =>
    pbind (expression n st) fun v st1 =>
      pbind (st1.consume .SEMICOLON .expectSemicolonAfterValue) fun _ st2 =>
        (.ok (.print v), st2)

/-- `#returnStatement()` from the parser source: an omitted value becomes
`Literal(nil)`. -/
def returnStatement : Nat → PState → PRes Stmt
  | 0, st => fuelErr st
  | n + 1, st =>
    let keyword := st.previous
    pbind
      (if ¬st.check .SEMICOLON then expression n st
      else (.ok (.literal .lnil), st)) fun value st1 =>
      pbind (st1.consume .SEMICOLON .expectSemicolonAfterReturnValue) fun _ st2 =>
        (.ok (.returnStmt keyword value), st2)

/-- `#whileStatement()` from the parser source. -/
def whileStatement : Nat → PState → PRes Stmt
  | 0, st => fuelErr st
  | n + 1, st =>
    pbind (st.consume .LEFT_PAREN .expectLparenAfterWhile) fun _ st1 =>
      pbind (expression n st1) fun cond st2 =>
        pbind (st2.consume .RIGHT_PAREN .expectRparenAfterCondition) fun _ st3 =>
          pbind (statement n st3) fun body st4 =>
            (.ok (.whileStmt cond body), st4)

/-- `#expressionStatement()` from the parser source. -/
def expressionStatement : Nat → PState → PRes Stmt
  | 0, st => fuelErr st
  | n + 1, st =>
    pbind (expression n st) fun v st1 =>
      pbind (st1.consume .SEMICOLON .expectSemicolonAfterExpression) fun _ st2 =>
        (.ok (.expression v), st2)

/-- `#block()` from the parser source. -/
def blockRule : Nat → PState → PRes (List Stmt)
  | 0, st => fuelErr st
  | n + 1, st =>
    pbind (blockLoop n st []) fun stmts st1 =>
      pbind (st1.consume .RIGHT_BRACE .expectRbraceAfterBlock) fun _ st2 =>
        (.ok stmts, st2)

/-- The declaration loop of `#block()`; a recovered (skipped) declaration
contributes nothing. -/
def blockLoop : Nat → PState → List Stmt → PRes (List Stmt)
  | 0, st, _ => fuelErr st
  | n + 1, st, acc =>
    if ¬st.check .RIGHT_BRACE ∧ ¬st.done then
      pbind (declaration n st) fun d st1 =>
        blockLoop n st1 (acc ++ d.toList)
    else (.ok acc, st)

end

/-- Written from the spec's words (§4.2), for comparison with the parser:
`for (I; C; U) B` becomes `{ I; while (C) { B; U; } }`, where a missing `C`
defaults to `Literal(true)` and missing `I` / `U` are omitted (the inner
block appears only with `U`, the outer block only with `I`). -/
def specForDesugar (ini : Option Stmt) (cond : Option Expr) (inc : Option Expr)
    (body : Stmt) : Stmt :=
  let inner :=
    match inc with
    | some u => Stmt.block [body, Stmt.expression u]
    | none => body
  let w := Stmt.whileStmt (cond.getD (Expr.literal (LoxLit.lbool true))) inner
  match ini with
  | some i => Stmt.block [i, w]
  | none => w

/-- C6: whenever `#forStatement()` succeeds, the statement it returns is
exactly the parse-time desugaring `{ I; while (C) { B; U; } }` of the
initializer, condition, increment and body it parsed: the inner block wraps
the body with the increment only when the increment is present, the loop
condition defaults to `Literal(true)` when absent, and the enclosing block
with the initializer appears only when the initializer is present
(`specForDesugar` spells out that shape). -/
theorem c6_forStatement_desugars (n : Nat) (st : PState) (s : Stmt) (stF : PState)
    (h : forStatement (n + 1) st = (.ok s, stF)) :
    ∃ tk stA ini stB cond stC tk2 stD inc stE tk3 stG body,
      st.consume .LEFT_PAREN .expectLparenAfterFor = (.ok tk, stA) ∧
      forInitClause n stA = (.ok ini, stB) ∧
      forCondClause n stB = (.ok cond, stC) ∧
      stC.consume .SEMICOLON .expectSemicolonAfterLoopCondition = (.ok tk2, stD) ∧
      forIncClause n stD = (.ok inc, stE) ∧
      stE.consume .RIGHT_PAREN .expectRparenAfterForClauses = (.ok tk3, stG) ∧
      statement n stG = (.ok body, stF) ∧
      s = specForDesugar ini cond inc body := by
  unfold forStatement pbind at h
  split at h
  · simp at h
  rename_i tk stA h1
  beta_reduce at h
  split at h
  · simp at h
  rename_i ini stB h2
  beta_reduce at h
  split at h
  · simp at h
  rename_i cond stC h3
  beta_reduce at h
  split at h
  · simp at h
  rename_i tk2 stD h4
  beta_reduce at h
  split at h
  · simp at h
  rename_i inc stE h5
  beta_reduce at h
  split at h
  · simp at h
  rename_i tk3 stG h6
  beta_reduce at h
  split at h
  · simp at h
  rename_i body stH h7
  beta_reduce at h
  simp only [Prod.mk.injEq, Except.ok.injEq] at h
  obtain ⟨hs, hst⟩ := h
  subst hst
  refine ⟨tk, stA, ini, stB, cond, stC, tk2, stD, inc, stE, tk3, stG, body,
    h1, h2, h3, h4, h5, h6, h7, ?_⟩
  rw [← hs]
  rfl

/-- A one-line token for concrete test inputs. -/
def tokW (t : TokenType) (lx : String) : Token := ⟨t, lx, .lnil, 1⟩

/-- Token stream for `(i; c; u) x;` — the tail of `for (i; c; u) x;` as
`#forStatement()` receives it, with all three clauses present. -/
def c6stW : PState :=
  ⟨[tokW .LEFT_PAREN "(", tokW .IDENTIFIER "i", tokW .SEMICOLON ";",
    tokW .IDENTIFIER "c", tokW .SEMICOLON ";", tokW .IDENTIFIER "u",
    tokW .RIGHT_PAREN ")", tokW .IDENTIFIER "x", tokW .SEMICOLON ";",
    tokW .EOF ""], 0, 0, []⟩

/-- Concrete run of the C6 theorem on `for (i; c; u) x;`. -/
theorem c6_forStatement_desugars_witness :
    ∃ s stF, forStatement 30 c6stW = (.ok s, stF) ∧
      ∃ tk stA ini stB cond stC tk2 stD inc stE tk3 stG body,
        c6stW.consume .LEFT_PAREN .expectLparenAfterFor = (.ok tk, stA) ∧
        forInitClause 29 stA = (.ok ini, stB) ∧
        forCondClause 29 stB = (.ok cond, stC) ∧
        stC.consume .SEMICOLON .expectSemicolonAfterLoopCondition = (.ok tk2, stD) ∧
        forIncClause 29 stD = (.ok inc, stE) ∧
        stE.consume .RIGHT_PAREN .expectRparenAfterForClauses = (.ok tk3, stG) ∧
        statement 29 stG = (.ok body, stF) ∧
        s = specForDesugar ini cond inc body :=
  ⟨_, _, rfl, c6_forStatement_desugars 29 c6stW _ _ rfl⟩

/-- C4: whenever `#classDeclaration()` succeeds, the produced node is a
`Class` statement whose superclass slot is exactly what the optional
superclass clause parsed (first conjunct); the clause consumes nothing and
yields no superclass when the token after the class name is not `<` (second
conjunct); and when it is `<` followed by an identifier, the clause consumes
both and stores the superclass as a `Variable` expression wrapping that
identifier (third conjunct). -/
theorem c4_classDeclaration_superclass :
    (∀ n st s stF, classDeclaration (n + 1) st = (.ok s, stF) →
      ∃ name stA sc stB tk2 stC methods stD tk3,
        st.consume .IDENTIFIER .expectClassName = (.ok name, stA) ∧
        superclassClause n stA = (.ok sc, stB) ∧
        stB.consume .LEFT_BRACE .expectLbraceBeforeClassBody = (.ok tk2, stC) ∧
        methodsLoop n stC [] = (.ok methods, stD) ∧
        stD.consume .RIGHT_BRACE .expectRbraceAfterClassBody = (.ok tk3, stF) ∧
        s = .classStmt name methods sc) ∧
    (∀ n st, st.check .LESS = false → superclassClause (n + 1) st = (.ok none, st)) ∧
    (∀ n st sname stA, st.check .LESS = true →
      ((st.advanceTok).2).consume .IDENTIFIER .expectSuperclassName = (.ok sname, stA) →
      superclassClause (n + 1) st =
        (.ok (some (.variableE stA.nextId sname)), (stA.fresh).2)) := by
  refine ⟨?_, ?_, ?_⟩
  · intro n st s stF h
    unfold classDeclaration pbind at h
    split at h
    · simp at h
    rename_i name stA h1
    beta_reduce at h
    split at h
    · simp at h
    rename_i sc stB h2
    beta_reduce at h
    split at h
    · simp at h
    rename_i tk2 stC h3
    beta_reduce at h
    split at h
    · simp at h
    rename_i methods stD h4
    beta_reduce at h
    split at h
    · simp at h
    rename_i tk3 stE h5
    beta_reduce at h
    simp only [Prod.mk.injEq, Except.ok.injEq] at h
    obtain ⟨hs, hst⟩ := h
    subst hst
    exact ⟨name, stA, sc, stB, tk2, stC, methods, stD, tk3, h1, h2, h3, h4, h5, hs.symm⟩
  · intro n st h
    simp [superclassClause, PState.matchT, PState.matchAny, h]
  · intro n st sname stA h1 h2
    simp only [superclassClause, PState.matchT, PState.matchAny, h1, if_true]
    rw [h2]
    rfl

/-- Token stream for `class A < B { }` as `#classDeclaration()` receives it
(after the `class` keyword). -/
def c4stW : PState :=
  ⟨[tokW .IDENTIFIER "A", tokW .LESS "<", tokW .IDENTIFIER "B",
    tokW .LEFT_BRACE "", tokW .RIGHT_BRACE "", tokW .EOF ""], 0, 0, []⟩

/-- Token stream starting directly at a `< B` superclass clause. -/
def c4stLess : PState :=
  ⟨[tokW .LESS "<", tokW .IDENTIFIER "B", tokW .LEFT_BRACE "", tokW .EOF ""], 0, 0, []⟩

/-- Concrete runs of the three conjuncts of the C4 theorem: a full
`class A < B { }` declaration, the absent-clause case, and the present-clause
case. -/
theorem c4_classDeclaration_superclass_witness :
    (∃ name stA sc stB tk2 stC methods stD tk3,
      c4stW.consume .IDENTIFIER .expectClassName = (.ok name, stA) ∧
      superclassClause 29 stA = (.ok sc, stB) ∧
      stB.consume .LEFT_BRACE .expectLbraceBeforeClassBody = (.ok tk2, stC) ∧
      methodsLoop 29 stC [] = (.ok methods, stD) ∧
      stD.consume .RIGHT_BRACE .expectRbraceAfterClassBody = (.ok tk3, ⟨c4stW.tokens, 5, 1, []⟩) ∧
      Stmt.classStmt (tokW .IDENTIFIER "A") [] (some (.variableE 0 (tokW .IDENTIFIER "B")))
        = .classStmt name methods sc) ∧
    superclassClause 30 c4stW = (.ok none, c4stW) ∧
    superclassClause 30 c4stLess =
      (.ok (some (.variableE 0 (tokW .IDENTIFIER "B"))), ⟨c4stLess.tokens, 2, 1, []⟩) := by
  refine ⟨?_, ?_, ?_⟩
  · exact c4_classDeclaration_superclass.1 29 c4stW _ _ rfl
  · exact c4_classDeclaration_superclass.2.1 29 c4stW rfl
  · exact c4_classDeclaration_superclass.2.2 29 c4stLess (tokW .IDENTIFIER "B")
      ⟨c4stLess.tokens, 2, 0, []⟩ rfl rfl

/-- Insertion-ordered association-list model of a JS `Map`: `set` overwrites
in place or appends. -/
def alSet {β : Type} (m : List (String × β)) (k : String) (v : β) : List (String × β) :=
  match m with
  | [] => [(k, v)]
  | (k', v') :: rest => if k' = k then (k, v) :: rest else (k', v') :: alSet rest k v

/-- `Map.get`: first (unique) binding of the key. -/
def alGet {β : Type} (m : List (String × β)) (k : String) : Option β :=
  match m with
  | [] => none
  | (k', v') :: rest => if k' = k then some v' else alGet rest k

/-- `FunctionType` from the resolver source. -/
inductive FunctionType where
  | NONE | FUNCTION | INITIALIZER | METHOD
  deriving DecidableEq, Repr

/-- `ClassType`.  The `src/` resolver shard has only NONE and CLASS; SUBCLASS
is modelled from the spec (§4.3), which tracks it for `super` checking. -/
inductive ClassType where
  | NONE | CLASS | SUBCLASS
  deriving DecidableEq, Repr

/-- Resolver diagnostics, one constructor per distinct message. -/
inductive RMsg where
  | cantReturnFromTopLevelCode
  | cantReturnValueFromInitializer
  | cantReadLocalVariableInItsOwnInitializer
  | cantUseThisOutsideOfAClass
  | alreadyAVariableWithThisNameInThisScope
  | cantUseSuperOutsideOfAClass
  | cantUseSuperInAClassWithNoSuperclass
  | aClassCantInheritFromItself
  deriving DecidableEq, Repr

/-- Resolver state: the scope stack (head of the list is the innermost scope,
i.e. the end of the JS array), `#currentFunction`, `#currentClass`, the
interpreter's `locals` side-table written through `interpreter.resolve`, and
the log of messages sent to `Lox.error`. -/
structure RState where
  scopes : List (List (String × Bool)) := []
  currentFunction : FunctionType := .NONE
  currentClass : ClassType := .NONE
  locals : List (Nat × Nat) := []
  rerrors : List (Token × RMsg) := []

/-- `#declare(name)`: report a duplicate in the innermost scope, then mark the
name "declared but not defined"; a no-op at global scope (`scope?.`). -/
def RState.declare (st : RState) (name : Token) : RState :=
  match h : st.scopes with
  | [] => st
  | s :: rest =>
    let st1 :=
      if (alGet s name.lexeme).isSome then
        { st with rerrors := st.rerrors ++ [(name, .alreadyAVariableWithThisNameInThisScope)] }
      else st
    { st1 with scopes := alSet s name.lexeme false :: rest }

/-- `#define(name)`: mark the name defined in the innermost scope. -/
def RState.define (st : RState) (name : Token) : RState :=
  match st.scopes with
  | [] => st
  | s :: rest => { st with scopes := alSet s name.lexeme true :: rest }

/-- `#resolveLocal(expr, name)`: find the innermost scope containing the name
(`findLastIndex` over the JS array = first index from the head here) and
record `scopes.length - 1 - i`, i.e. the index from the innermost scope, in
the interpreter's `locals` side-table; record nothing when the name is in no
scope. -/
def RState.resolveLocal (st : RState) (id : Nat) (name : Token) : RState :=
  match st.scopes.findIdx? (fun s => (alGet s name.lexeme).isSome) with
  | some d => { st with locals := st.locals ++ [(id, d)] }
  | none => st

/-- `#scope(fn)` entry: push a fresh scope map. -/
def RState.pushScope (st : RState) : RState := { st with scopes := [] :: st.scopes }

/-- `#scope(fn)` exit: pop the innermost scope map. -/
def RState.popScope (st : RState) : RState := { st with scopes := st.scopes.tail }

/-- Parameter handling of `#resolveFunction`: declare and define each. -/
def declareParams (st : RState) : List Token → RState
  | [] => st
  | p :: rest => declareParams ((st.declare p).define p) rest

mutual

/-- The resolver's statement visitors, translated from `Resolver.ts`; the
superclass handling in the class case is modelled from the spec (§4.3), the
`src/` resolver shard predating inheritance. -/
def resolveStmt (st : RState) : Stmt → RState
  | .block stmts => (resolveStmts st.pushScope stmts).popScope
  | .classStmt name methods superclass =>
    let enclosing := st.currentClass
    let st1 := { st with currentClass := ClassType.CLASS }
    let st2 := (st1.declare name).define name
    let st3 :=
      match superclass with
      | some sup =>
        let stE :=
          match sup with
          | .variableE _ sn =>
            if sn.lexeme = name.lexeme then
              { st2 with rerrors := st2.rerrors ++ [(name, RMsg.aClassCantInheritFromItself)] }
            else st2
          | _ => st2
        let stR := { resolveExpr stE sup with currentClass := ClassType.SUBCLASS }
        { stR with scopes := [("super", true)] :: stR.scopes }
      | none => st2
    let st4 := { st3 with scopes := [("this", true)] :: st3.scopes }
    let st5 := resolveMethods st4 methods
    let st6 := st5.popScope
    let st7 :=
      match superclass with
      | some _ => st6.popScope
      | none => st6
    { st7 with currentClass := enclosing }
  | .expression e => resolveExpr st e
  | .functionStmt f => resolveFunction ((st.declare f.name).define f.name) f .FUNCTION
  | .ifStmt c t e =>
    let st1 := resolveStmt (resolveExpr st c) t
    match e with
    | some s => resolveStmt st1 s
    | none => st1
  | .print e => resolveExpr st e
  | .returnStmt kw value =>
    let st1 :=
      if st.currentFunction = .NONE then
        { st with rerrors := st.rerrors ++ [(kw, .cantReturnFromTopLevelCode)] }
      else st
    let isLitNonNil : Bool :=
      match value with
      | .literal .lnil => false
      | .literal _ => true
      | _ => false
    let st2 :=
      if st1.currentFunction = .INITIALIZER ∧ isLitNonNil = true then
        { st1 with rerrors := st1.rerrors ++ [(kw, .cantReturnValueFromInitializer)] }
      else st1
    resolveExpr st2 value
  | .varStmt name init =>
    let st1 := st.declare name
    let st2 :=
      match init with
      | some e => resolveExpr st1 e
      | none => st1
    st2.define name
  | .whileStmt c b => resolveStmt (resolveExpr st c) b

/-- Statement-list resolution (`resolve(...nodes)`). -/
def resolveStmts (st : RState) : List Stmt → RState
  | [] => st
  | s :: rest => resolveStmts (resolveStmt st s) rest

/-- Method-list resolution inside `visitClassStmt`; `init` methods resolve as
INITIALIZER, others as METHOD. -/
def resolveMethods (st : RState) : List FunDecl → RState
  | [] => st
  | m :: rest =>
    resolveMethods
      (resolveFunction st m (if m.name.lexeme = "init" then .INITIALIZER else .METHOD)) rest

/-- `#resolveFunction(stmt, type)` from the resolver source. -/
def resolveFunction (st : RState) (f : FunDecl) (ty : FunctionType) : RState :=
  match f with
  | .mk _ ps bd =>
    let enclosing := st.currentFunction
    let st1 := { st with currentFunction := ty }
    let st2 := st1.pushScope
    let st3 := declareParams st2 ps
    let st4 := resolveStmts st3 bd
    let st5 := st4.popScope
    { st5 with currentFunction := enclosing }

/-- The resolver's expression visitors, translated from `Resolver.ts`; the
`super` case is modelled from the spec (§4.3). -/
def resolveExpr (st : RState) : Expr → RState
  | .assign id name value => (resolveExpr st value).resolveLocal id name
  | .binary l _ r => resolveExpr (resolveExpr st l) r
  | .call callee _ args => resolveExprs (resolveExpr st callee) args
  | .get obj _ => resolveExpr st obj
  | .grouping e => resolveExpr st e
  | .literal _ => st
  | .logical l _ r => resolveExpr (resolveExpr st l) r
  | .set obj _ value => resolveExpr (resolveExpr st value) obj
  | .superE id kw _ =>
    if st.currentClass = .NONE then
      { st with rerrors := st.rerrors ++ [(kw, .cantUseSuperOutsideOfAClass)] }
    else if st.currentClass ≠ .SUBCLASS then
      { st with rerrors := st.rerrors ++ [(kw, .cantUseSuperInAClassWithNoSuperclass)] }
    else st.resolveLocal id kw
  | .thisE id kw =>
    if st.currentClass = .NONE then
      { st with rerrors := st.rerrors ++ [(kw, .cantUseThisOutsideOfAClass)] }
    else st.resolveLocal id kw
  | .unary _ e => resolveExpr st e
  | .variableE id name =>
    let st1 :=
      match st.scopes with
      | s :: _ =>
        if alGet s name.lexeme = some false then
          { st with rerrors := st.rerrors ++ [(name, RMsg.cantReadLocalVariableInItsOwnInitializer)] }
        else st
      | [] => st
    st1.resolveLocal id name

/-- Expression-list resolution (call arguments). -/
def resolveExprs (st : RState) : List Expr → RState
  | [] => st
  | e :: rest => resolveExprs (resolveExpr st e) rest

end

/-- `#resolveLocal` writes only the `locals` side-table, never the error log. -/
theorem resolveLocal_rerrors (st : RState) (id : Nat) (name : Token) :
    (st.resolveLocal id name).rerrors = st.rerrors := by
  unfold RState.resolveLocal
  split <;> rfl

/-- Appending one report with a different message does not affect membership. -/
theorem memAppendOne (l : List (Token × RMsg)) (pr x : Token × RMsg) (h : pr.2 ≠ x.2) :
    (pr ∈ l ++ [x]) ↔ pr ∈ l := by
  simp only [List.mem_append, List.mem_singleton]
  constructor
  · rintro (hl | he)
    · exact hl
    · exact absurd (by rw [he]) h
  · exact Or.inl

mutual

/-- Resolving an expression never reports "Can't return a value from an
initializer." — that message is issued only by `visitReturnStmt` itself. -/
theorem resolveExpr_initMsg (e : Expr) (st : RState) (pr : Token × RMsg)
    (hpr : pr.2 = RMsg.cantReturnValueFromInitializer) :
    (pr ∈ (resolveExpr st e).rerrors ↔ pr ∈ st.rerrors) := by
  cases e with
  | assign id name value =>
    simp only [resolveExpr]
    rw [resolveLocal_rerrors]
    exact resolveExpr_initMsg value st pr hpr
  | binary l op r =>
    simp only [resolveExpr]
    exact (resolveExpr_initMsg r _ pr hpr).trans (resolveExpr_initMsg l st pr hpr)
  | call callee paren args =>
    simp only [resolveExpr]
    exact (resolveExprs_initMsg args _ pr hpr).trans (resolveExpr_initMsg callee st pr hpr)
  | get obj name =>
    simp only [resolveExpr]
    exact resolveExpr_initMsg obj st pr hpr
  | grouping e1 =>
    simp only [resolveExpr]
    exact resolveExpr_initMsg e1 st pr hpr
  | literal v => simp only [resolveExpr]
  | logical l op r =>
    simp only [resolveExpr]
    exact (resolveExpr_initMsg r _ pr hpr).trans (resolveExpr_initMsg l st pr hpr)
  | set obj name value =>
    simp only [resolveExpr]
    exact (resolveExpr_initMsg obj _ pr hpr).trans (resolveExpr_initMsg value st pr hpr)
  | superE id kw m =>
    simp only [resolveExpr]
    split
    · exact memAppendOne _ _ _ (by rw [hpr]; simp)
    · split
      · exact memAppendOne _ _ _ (by rw [hpr]; simp)
      · rw [resolveLocal_rerrors]
  | thisE id kw =>
    simp only [resolveExpr]
    split
    · exact memAppendOne _ _ _ (by rw [hpr]; simp)
    · rw [resolveLocal_rerrors]
  | unary op e1 =>
    simp only [resolveExpr]
    exact resolveExpr_initMsg e1 st pr hpr
  | variableE id name =>
    simp only [resolveExpr]
    rw [resolveLocal_rerrors]
    split
    · split
      · exact memAppendOne _ _ _ (by rw [hpr]; simp)
      · exact Iff.rfl
    · exact Iff.rfl

/-- List version of `resolveExpr_initMsg`. -/
theorem resolveExprs_initMsg (es : List Expr) (st : RState) (pr : Token × RMsg)
    (hpr : pr.2 = RMsg.cantReturnValueFromInitializer) :
    (pr ∈ (resolveExprs st es).rerrors ↔ pr ∈ st.rerrors) := by
  cases es with
  | nil => simp only [resolveExprs]
  | cons e rest =>
    simp only [resolveExprs]
    exact (resolveExprs_initMsg rest _ pr hpr).trans (resolveExpr_initMsg e st pr hpr)

end

/-- C5 counterexample: visiting `return x;` (a non-literal return expression)
with `currentFunction = INITIALIZER` reports no error at all — in particular
not "Can't return a value from an initializer." — because
`visitReturnStmt` only fires that error when the value is a `Literal`
instance (`stmt.value instanceof Expr.Literal && stmt.value.value !== null`). -/
theorem c5_counterexample :
    (resolveStmt ⟨[], .INITIALIZER, .NONE, [], []⟩
      (.returnStmt (tokW .RETURN "return") (.variableE 0 (tokW .IDENTIFIER "x")))).rerrors
      = [] := rfl

/-- C5 amended: while `currentFunction` is INITIALIZER, visiting a return
statement reports "Can't return a value from an initializer." exactly when
the returned expression is a `Literal` whose value is not nil; non-literal
return expressions (such as `return x;`) are not reported. -/
theorem c5_initializer_return_amended (st : RState) (kw : Token) (e : Expr)
    (hf : st.currentFunction = .INITIALIZER) :
    ((kw, RMsg.cantReturnValueFromInitializer) ∈ (resolveStmt st (.returnStmt kw e)).rerrors
      ↔ (kw, RMsg.cantReturnValueFromInitializer) ∈ st.rerrors
        ∨ ∃ l, e = .literal l ∧ l ≠ .lnil) := by
  cases e with
  | literal v =>
    cases v with
    | lnil =>
      simp only [resolveStmt]
      split
      · rename_i hNone
        exact absurd hNone (by rw [hf]; decide)
      · split
        · rename_i hcond
          exact absurd hcond (by simp)
        · simp only [resolveExpr]
          simp
    | lbool b =>
      simp only [resolveStmt]
      split
      · rename_i hNone
        exact absurd hNone (by rw [hf]; decide)
      · split
        · simp only [resolveExpr, List.mem_append, List.mem_singleton]
          exact iff_of_true (Or.inr (by simp)) (Or.inr ⟨.lbool b, rfl, by simp⟩)
        · rename_i hcond
          exact absurd ⟨hf, by simp⟩ hcond
    | lnum q =>
      simp only [resolveStmt]
      split
      · rename_i hNone
        exact absurd hNone (by rw [hf]; decide)
      · split
        · simp only [resolveExpr, List.mem_append, List.mem_singleton]
          exact iff_of_true (Or.inr (by simp)) (Or.inr ⟨.lnum q, rfl, by simp⟩)
        · rename_i hcond
          exact absurd ⟨hf, by simp⟩ hcond
    | lstr s2 =>
      simp only [resolveStmt]
      split
      · rename_i hNone
        exact absurd hNone (by rw [hf]; decide)
      · split
        · simp only [resolveExpr, List.mem_append, List.mem_singleton]
          exact iff_of_true (Or.inr (by simp)) (Or.inr ⟨.lstr s2, rfl, by simp⟩)
        · rename_i hcond
          exact absurd ⟨hf, by simp⟩ hcond
  | assign id name value =>
    simp only [resolveStmt]
    split
    · rename_i hNone
      exact absurd hNone (by rw [hf]; decide)
    · split
      · rename_i hcond
        exact absurd hcond (by simp)
      · rw [resolveExpr_initMsg _ _ _ rfl]
        simp
  | binary l op r =>
    simp only [resolveStmt]
    split
    · rename_i hNone
      exact absurd hNone (by rw [hf]; decide)
    · split
      · rename_i hcond
        exact absurd hcond (by simp)
      · rw [resolveExpr_initMsg _ _ _ rfl]
        simp
  | call callee paren args =>
    simp only [resolveStmt]
    split
    · rename_i hNone
      exact absurd hNone (by rw [hf]; decide)
    · split
      · rename_i hcond
        exact absurd hcond (by simp)
      · rw [resolveExpr_initMsg _ _ _ rfl]
        simp
  | get obj name =>
    simp only [resolveStmt]
    split
    · rename_i hNone
      exact absurd hNone (by rw [hf]; decide)
    · split
      · rename_i hcond
        exact absurd hcond (by simp)
      · rw [resolveExpr_initMsg _ _ _ rfl]
        simp
  | grouping e1 =>
    simp only [resolveStmt]
    split
    · rename_i hNone
      exact absurd hNone (by rw [hf]; decide)
    · split
      · rename_i hcond
        exact absurd hcond (by simp)
      · rw [resolveExpr_initMsg _ _ _ rfl]
        simp
  | logical l op r =>
    simp only [resolveStmt]
    split
    · rename_i hNone
      exact absurd hNone (by rw [hf]; decide)
    · split
      · rename_i hcond
        exact absurd hcond (by simp)
      · rw [resolveExpr_initMsg _ _ _ rfl]
        simp
  | set obj name value =>
    simp only [resolveStmt]
    split
    · rename_i hNone
      exact absurd hNone (by rw [hf]; decide)
    · split
      · rename_i hcond
        exact absurd hcond (by simp)
      · rw [resolveExpr_initMsg _ _ _ rfl]
        simp
  | superE id kw2 m =>
    simp only [resolveStmt]
    split
    · rename_i hNone
      exact absurd hNone (by rw [hf]; decide)
    · split
      · rename_i hcond
        exact absurd hcond (by simp)
      · rw [resolveExpr_initMsg _ _ _ rfl]
        simp
  | thisE id kw2 =>
    simp only [resolveStmt]
    split
    · rename_i hNone
      exact absurd hNone (by rw [hf]; decide)
    · split
      · rename_i hcond
        exact absurd hcond (by simp)
      · rw [resolveExpr_initMsg _ _ _ rfl]
        simp
  | unary op e1 =>
    simp only [resolveStmt]
    split
    · rename_i hNone
      exact absurd hNone (by rw [hf]; decide)
    · split
      · rename_i hcond
        exact absurd hcond (by simp)
      · rw [resolveExpr_initMsg _ _ _ rfl]
        simp
  | variableE id name =>
    simp only [resolveStmt]
    split
    · rename_i hNone
      exact absurd hNone (by rw [hf]; decide)
    · split
      · rename_i hcond
        exact absurd hcond (by simp)
      · rw [resolveExpr_initMsg _ _ _ rfl]
        simp

/-- Concrete run of the amended C5 theorem on `return 1;` inside an
initializer (where the error is reported). -/
theorem c5_initializer_return_amended_witness :
    ((tokW .RETURN "return", RMsg.cantReturnValueFromInitializer) ∈
        (resolveStmt ⟨[], .INITIALIZER, .NONE, [], []⟩
          (.returnStmt (tokW .RETURN "return") (.literal (.lnum 1)))).rerrors
      ↔ (tokW .RETURN "return", RMsg.cantReturnValueFromInitializer) ∈
          (⟨[], .INITIALIZER, .NONE, [], []⟩ : RState).rerrors
        ∨ ∃ l, (Expr.literal (.lnum 1)) = .literal l ∧ l ≠ .lnil) :=
  c5_initializer_return_amended ⟨[], .INITIALIZER, .NONE, [], []⟩
    (tokW .RETURN "return") (.literal (.lnum 1)) rfl

/-- Decimal digit character for `k % 10`-style digits. -/
def digitChar (k : Nat) : Char :=
  if k = 0 then '0' else if k = 1 then '1' else if k = 2 then '2' else if k = 3 then '3'
  else if k = 4 then '4' else if k = 5 then '5' else if k = 6 then '6' else if k = 7 then '7'
  else if k = 8 then '8' else '9'

/-- Decimal digits of `n`, most significant first (fuel `n + 1` suffices). -/
def digitsAux : Nat → Nat → List Char
  | 0, _ => []
  | fuel + 1, n =>
    if n < 10 then [digitChar n]
    else digitsAux fuel (n / 10) ++ [digitChar (n % 10)]

/-- The exact decimal representation of a natural number. -/
def natRepr (n : Nat) : String := String.mk (digitsAux (n + 1) n)

/-- Strip trailing decimal zeros (at the minimal digit count the chosen
decimal's zero-stripped digits are exactly ECMA's significand `s`). -/
def stripZeros : Nat → Nat → Nat
  | 0, m => m
  | fuel + 1, m => if 0 < m ∧ m % 10 = 0 then stripZeros fuel (m / 10) else m

/-- Fueled `⌊log2⌋` (structural recursion, so that concrete witnesses reduce
in the kernel). -/
def log2fuel : Nat → Nat → Nat
  | 0, _ => 0
  | fuel + 1, n => if 2 ≤ n then log2fuel fuel (n / 2) + 1 else 0

/-- `⌊log2 n⌋` (fuel `n` suffices because the argument halves each step). -/
def natLog2 (n : Nat) : Nat := log2fuel n n

/-- IEEE-754 binary64 rounding of a nonnegative integer (round to nearest,
ties to even): below `2^53` every integer is exactly representable; above,
the value is rounded to the nearest multiple of the unit in the last place
`2^(⌊log2 x⌋ - 52)`, an exact tie going to the even significand. -/
def roundDouble (x : ℕ) : ℕ :=
  if x < 2 ^ 53 then x
  else
    if 2 * (x % 2 ^ (natLog2 x - 52)) < 2 ^ (natLog2 x - 52) then
      x / 2 ^ (natLog2 x - 52) * 2 ^ (natLog2 x - 52)
    else if 2 ^ (natLog2 x - 52) < 2 * (x % 2 ^ (natLog2 x - 52)) then
      (x / 2 ^ (natLog2 x - 52) + 1) * 2 ^ (natLog2 x - 52)
    else if x / 2 ^ (natLog2 x - 52) % 2 = 0 then
      x / 2 ^ (natLog2 x - 52) * 2 ^ (natLog2 x - 52)
    else (x / 2 ^ (natLog2 x - 52) + 1) * 2 ^ (natLog2 x - 52)

/-- One step of the ECMA-262 `Number::toString` significand search, given the
two grid decimals nearest the double `m` (`lo` at or below, `hi` above):
return one whose Number value is `m`, preferring the closer, an exact tie
going to the even (zero-stripped) significand; `none` if neither converts
back to `m`. -/
def pickPair (m lo hi : ℕ) : Option ℕ :=
  if roundDouble lo = m ∧ roundDouble hi = m then
    some (if m - lo < hi - m then lo
          else if hi - m < m - lo then hi
          else if stripZeros lo lo % 2 = 0 then lo else hi)
  else if roundDouble lo = m then some lo
  else if roundDouble hi = m then some hi
  else none

/-- The two multiples of `step` nearest `m`, fed to `pickPair`. -/
def pickAt (m step : ℕ) : Option ℕ :=
  pickPair m (m / step * step) (m / step * step + step)

/-- The ECMA-262 significand search: try `k = 1, 2, ...` significant digits
(grid step `10^(digits m - k)`) and return the first — hence shortest —
decimal whose Number value is `m`; at `k = digits m` the step is `1` and `m`
itself is found, so for a representable `m` the search always succeeds. -/
def candSearch (m : ℕ) : ℕ → ℕ → ℕ
  | 0, _ => m
  | fuel + 1, k =>
    match pickAt m (10 ^ ((natRepr m).length - k)) with
    | some v => v
    | none => candSearch m fuel (k + 1)

/-- The decimal value ECMA-262 `Number::toString` prints for the integral
double `m`: the shortest-significand decimal converting back to `m`
(`s · 10^(n-k)` with `k` as small as possible, in the standard's notation). -/
def ecmaCand (m : ℕ) : ℕ := candSearch m (natRepr m).length 1

/-- The ECMA-262 exponential form `s(. sss)?e+X` of the chosen decimal `v`:
the significand is `v` with its trailing zeros stripped (the standard's `s`,
since the chosen `v = s · 10^(n-k)` has minimal `k`), a decimal point after
the first digit, and the exponent `n - 1` where `n` is `v`'s digit count. -/
def jsExpCore (v : ℕ) : String :=
  let sds := natRepr (stripZeros v v)
  (if sds.length = 1 then sds
   else String.mk (sds.data.take 1) ++ "." ++ String.mk (sds.data.drop 1))
    ++ "e+" ++ natRepr ((natRepr v).length - 1)

/-- `Number::toString` (ECMA-262 6.1.6.1.20, radix 10) restricted to integral
doubles, given as sign and exact magnitude: zero prints `"0"` (the sign of
`-0` is dropped); otherwise the shortest decimal converting back to the
double is chosen (`ecmaCand`) and printed as its digits with no fractional
part when it has at most 21 digits, in exponential notation otherwise. -/
def numberToString (neg : Bool) (mag : Nat) : String :=
  if mag = 0 then "0"
  else
    let v := ecmaCand mag
    let core := if (natRepr v).length ≤ 21 then natRepr v else jsExpCore v
    if neg then "-" ++ core else core

/-- The domain of `stringify` needed by the formatting claim: `null` and
integral doubles as sign/exact-magnitude pairs (`(true, 0)` is `-0`; an
integral double satisfies `roundDouble mag = mag`, equivalently
`∃ m < 2^53, ∃ e, mag = m * 2^e`). -/
inductive JSVal where
  | null
  | num (neg : Bool) (mag : Nat)

/-- `stringify` from `Interpreter.ts` (lines 221-228): `null` prints `"nil"`;
`x === 0` (which is true for both `0` and `-0`) returns `x.toLocaleString()`,
i.e. `"0"` in the default locale; every other number prints via the host's
number-to-string conversion, modelled by `numberToString`. -/
def stringify (x : JSVal) : String :=
  match x with
  | .null => "nil"
  | .num neg mag => if mag = 0 then "0" else numberToString neg mag

/-- Every character produced by `digitsAux` is a `digitChar`. -/
theorem digitsAux_chars (fuel n : Nat) : ∀ c ∈ digitsAux fuel n, ∃ k, c = digitChar k := by
  induction fuel generalizing n with
  | zero => simp [digitsAux]
  | succ f ih =>
    intro c hc
    unfold digitsAux at hc
    split at hc
    · simp at hc
      exact ⟨n, hc⟩
    · rw [List.mem_append] at hc
      rcases hc with hc | hc
      · exact ih _ c hc
      · simp at hc
        exact ⟨n % 10, hc⟩

/-- `digitChar` is never a decimal point, an exponent marker or a sign. -/
theorem digitChar_not_special (k : Nat) :
    digitChar k ≠ '.' ∧ digitChar k ≠ 'e' ∧ digitChar k ≠ '-' := by
  unfold digitChar
  repeat' split
  all_goals decide

/-- Correctness of the fueled `⌊log2⌋`: it brackets its argument between
consecutive powers of two. -/
theorem log2fuel_spec :
    ∀ (fuel n : ℕ), 1 ≤ n → n ≤ fuel →
      2 ^ log2fuel fuel n ≤ n ∧ n < 2 ^ (log2fuel fuel n + 1) := by
  intro fuel
  induction fuel with
  | zero => intro n h1 hf; omega
  | succ f ih =>
    intro n h1 hf
    unfold log2fuel
    by_cases h2 : 2 ≤ n
    · rw [if_pos h2]
      have hd : n / 2 ≤ f := by omega
      have h1d : 1 ≤ n / 2 := by omega
      obtain ⟨ha, hb⟩ := ih (n / 2) h1d hd
      constructor
      · rw [pow_succ]
        omega
      · rw [pow_succ]
        omega
    · rw [if_neg h2]
      have hn1 : n = 1 := by omega
      rw [hn1]
      exact ⟨by norm_num, by norm_num⟩

/-- `natLog2` brackets its argument between consecutive powers of two. -/
theorem natLog2_spec (n : ℕ) (h : 1 ≤ n) :
    2 ^ natLog2 n ≤ n ∧ n < 2 ^ (natLog2 n + 1) :=
  log2fuel_spec n n h (le_refl n)

/-- Integers below `2^53` are exact doubles. -/
theorem roundDouble_small (x : ℕ) (h : x < 2 ^ 53) : roundDouble x = x := by
  unfold roundDouble
  rw [if_pos h]

/-- Rounding keeps values at or above `2^53` at or above `2^53`. -/
theorem roundDouble_big (x : ℕ) (h : 2 ^ 53 ≤ x) : 2 ^ 53 ≤ roundDouble x := by
  have hspec := natLog2_spec x (by omega)
  have hlog : 53 ≤ natLog2 x := by
    by_contra hlt
    push_neg at hlt
    have hup : (2:ℕ) ^ (natLog2 x + 1) ≤ 2 ^ 53 :=
      Nat.pow_le_pow_right (by norm_num) (by omega)
    omega
  have hpow : 2 ^ natLog2 x ≤ x := hspec.1
  have he1 : 1 ≤ natLog2 x - 52 := by omega
  have hq : 2 ^ 52 ≤ x / 2 ^ (natLog2 x - 52) := by
    rw [Nat.le_div_iff_mul_le (by positivity)]
    calc 2 ^ 52 * 2 ^ (natLog2 x - 52) = 2 ^ (52 + (natLog2 x - 52)) := (pow_add 2 52 _).symm
      _ = 2 ^ natLog2 x := by congr 1; omega
      _ ≤ x := hpow
  have hbase : 2 ^ 53 ≤ x / 2 ^ (natLog2 x - 52) * 2 ^ (natLog2 x - 52) := by
    calc (2:ℕ) ^ 53 = 2 ^ 52 * 2 ^ 1 := by norm_num
      _ ≤ 2 ^ 52 * 2 ^ (natLog2 x - 52) :=
          Nat.mul_le_mul (le_refl _) (Nat.pow_le_pow_right (by norm_num) he1)
      _ ≤ x / 2 ^ (natLog2 x - 52) * 2 ^ (natLog2 x - 52) :=
          Nat.mul_le_mul hq (le_refl _)
  have hbase1 : 2 ^ 53 ≤ (x / 2 ^ (natLog2 x - 52) + 1) * 2 ^ (natLog2 x - 52) :=
    le_trans hbase (Nat.mul_le_mul (Nat.le_succ _) (le_refl _))
  unfold roundDouble
  rw [if_neg (by omega)]
  split
  · exact hbase
  · split
    · exact hbase1
    · split
      · exact hbase
      · exact hbase1

/-- Whatever `pickPair` returns converts back to `m`. -/
theorem pickPair_sound (m lo hi v : ℕ) (h : pickPair m lo hi = some v) :
    roundDouble v = m := by
  unfold pickPair at h
  split at h
  · rename_i hboth
    injection h with hv
    rw [← hv]
    split
    · exact hboth.1
    · split
      · exact hboth.2
      · split
        · exact hboth.1
        · exact hboth.2
  · split at h
    · rename_i hlo
      injection h with hv
      rw [← hv]
      exact hlo
    · split at h
      · rename_i hhi
        injection h with hv
        rw [← hv]
        exact hhi
      · exact absurd h (by simp)

/-- Whatever `pickAt` returns converts back to `m`. -/
theorem pickAt_sound (m step v : ℕ) (h : pickAt m step = some v) :
    roundDouble v = m :=
  pickPair_sound m _ _ v h

/-- Below `2^53` the search can only return `m` itself: every candidate that
converts back to `m` is an exact double equal to `m` (larger candidates round
to values at or above `2^53`). -/
theorem candSearch_small (m : ℕ) (hm : m < 2 ^ 53) :
    ∀ (fuel k : ℕ), candSearch m fuel k = m := by
  intro fuel
  induction fuel with
  | zero => intro k; rfl
  | succ f ih =>
    intro k
    unfold candSearch
    cases hp : pickAt m (10 ^ ((natRepr m).length - k)) with
    | none => exact ih (k + 1)
    | some v =>
      have hrv := pickAt_sound _ _ _ hp
      by_cases hv : v < 2 ^ 53
      · rw [roundDouble_small v hv] at hrv
        exact hrv
      · have := roundDouble_big v (by omega)
        omega

/-- The search result converts back to `m` whenever `m` is a double. -/
theorem candSearch_round (m : ℕ) (hm : roundDouble m = m) :
    ∀ (fuel k : ℕ), roundDouble (candSearch m fuel k) = m := by
  intro fuel
  induction fuel with
  | zero => intro k; exact hm
  | succ f ih =>
    intro k
    unfold candSearch
    cases hp : pickAt m (10 ^ ((natRepr m).length - k)) with
    | none => exact ih (k + 1)
    | some v => exact pickAt_sound _ _ _ hp

/-- The shortest decimal for a safe (below `2^53`) integral double is the
double itself: its exact digits are printed. -/
theorem ecmaCand_small (m : ℕ) (hm : m < 2 ^ 53) : ecmaCand m = m :=
  candSearch_small m hm _ 1

/-- The chosen decimal round-trips: its Number value is `m`. -/
theorem ecmaCand_round (m : ℕ) (hm : roundDouble m = m) :
    roundDouble (ecmaCand m) = m :=
  candSearch_round m hm _ 1

/-- A number below `10^k` has at most `k` digits. -/
theorem digitsAux_length_le :
    ∀ (fuel n k : ℕ), 1 ≤ k → n < 10 ^ k → (digitsAux fuel n).length ≤ k := by
  intro fuel
  induction fuel with
  | zero => intro n k h1 hn; simp [digitsAux]
  | succ f ih =>
    intro n k h1 hn
    unfold digitsAux
    split
    · simpa using h1
    · rename_i hge
      rw [List.length_append]
      simp only [List.length_cons, List.length_nil]
      have hk2 : 2 ≤ k := by
        by_contra hlt
        have hk1 : k = 1 := by omega
        rw [hk1] at hn
        norm_num at hn
        omega
      have hd : n / 10 < 10 ^ (k - 1) := by
        apply Nat.div_lt_of_lt_mul
        calc n < 10 ^ k := hn
          _ = 10 * 10 ^ (k - 1) := by
              rw [← pow_succ']
              congr 1
              omega
      have := ih (n / 10) (k - 1) (by omega) hd
      omega

/-- `natRepr` of a number below `10^k` has at most `k` characters. -/
theorem natRepr_length_le (n k : ℕ) (h1 : 1 ≤ k) (hn : n < 10 ^ k) :
    (natRepr n).length ≤ k := by
  show (digitsAux (n + 1) n).length ≤ k
  exact digitsAux_length_le (n + 1) n k h1 hn

/-- C8 counterexample: the integral double `1e21` (representable exactly:
`10^21 = 5^21 · 2^21` with `5^21 < 2^53`) is printed `"1e+21"` by the host
(`String(1e21) === "1e+21"`), not as the 22-digit decimal representation. -/
theorem c8_counterexample :
    stringify (.num false (10 ^ 21)) = "1e+21" ∧
    stringify (.num false (10 ^ 21)) ≠ "1000000000000000000000" ∧
    (∃ m e, m < 2 ^ 53 ∧ 10 ^ 21 = m * 2 ^ e) :=
  ⟨by decide, by decide, ⟨5 ^ 21, 21, by norm_num, by norm_num⟩⟩

/-- C8 amended: `stringify` maps nil to `"nil"` and both zeros — in
particular the IEEE-754 double negative zero, which satisfies `-0 === 0` —
to `"0"`.  Every nonzero integral double below `2^53` prints as exactly its
decimal representation (sign plus digit characters only, so no fractional
part).  For larger integral doubles the host prints the shortest decimal
that converts back to the double — which can differ from the exact digits,
e.g. `String(2**60) === "1152921504606847000"` — zero-padded with no
fractional part while that decimal has at most 21 digits, and in JS
exponential notation beyond (`String(1e21) === "1e+21"`). -/
theorem c8_stringify_amended :
    stringify .null = "nil" ∧
    stringify (.num true 0) = "0" ∧
    stringify (.num false 0) = "0" ∧
    (∀ neg mag, mag ≠ 0 → mag < 2 ^ 53 →
      stringify (.num neg mag) = (if neg then "-" ++ natRepr mag else natRepr mag)) ∧
    (∀ mag c, c ∈ (natRepr mag).data → c ≠ '.' ∧ c ≠ 'e') ∧
    (∀ neg mag, roundDouble mag = mag → mag ≠ 0 →
      (natRepr (ecmaCand mag)).length ≤ 21 →
      stringify (.num neg mag)
        = (if neg then "-" ++ natRepr (ecmaCand mag) else natRepr (ecmaCand mag)) ∧
      roundDouble (ecmaCand mag) = mag) ∧
    (∀ neg mag, mag ≠ 0 → 21 < (natRepr (ecmaCand mag)).length →
      stringify (.num neg mag)
        = (if neg then "-" ++ jsExpCore (ecmaCand mag) else jsExpCore (ecmaCand mag))) := by
  refine ⟨rfl, rfl, rfl, ?_, ?_, ?_, ?_⟩
  · intro neg mag hne hlt
    have hec : ecmaCand mag = mag := ecmaCand_small mag hlt
    have hlen : (natRepr mag).length ≤ 21 := by
      have h16 : (natRepr mag).length ≤ 16 :=
        natRepr_length_le mag 16 (by norm_num)
          (by calc mag < 2 ^ 53 := hlt
            _ < 10 ^ 16 := by norm_num)
      omega
    simp [stringify, numberToString, hne, hec, hlen]
  · intro mag c hc
    obtain ⟨k, rfl⟩ := digitsAux_chars (mag + 1) mag c hc
    exact ⟨(digitChar_not_special k).1, (digitChar_not_special k).2.1⟩
  · intro neg mag hrd hne hlen
    refine ⟨?_, ecmaCand_round mag hrd⟩
    simp [stringify, numberToString, hne, hlen]
  · intro neg mag hne hlen
    simp [stringify, numberToString, hne, Nat.not_le.mpr hlen]

/-- Concrete runs of the amended C8 theorem: a one-digit decimal, a negative
decimal, the non-safe integral double `2^60` whose shortest round-tripping
decimal `1152921504606847000` differs from its exact digits, and an
above-threshold magnitude in exponential form. -/
theorem c8_stringify_amended_witness :
    stringify (.num false 5) = (if false then "-" ++ natRepr 5 else natRepr 5) ∧
    stringify (.num true 42) = (if true then "-" ++ natRepr 42 else natRepr 42) ∧
    (stringify (.num false (2 ^ 60))
        = (if false then "-" ++ natRepr (ecmaCand (2 ^ 60))
           else natRepr (ecmaCand (2 ^ 60))) ∧
      roundDouble (ecmaCand (2 ^ 60)) = 2 ^ 60) ∧
    ecmaCand (2 ^ 60) = 1152921504606847000 ∧
    ecmaCand (2 ^ 60) ≠ 2 ^ 60 ∧
    stringify (.num false (10 ^ 22)) =
      (if false then "-" ++ jsExpCore (ecmaCand (10 ^ 22))
       else jsExpCore (ecmaCand (10 ^ 22))) :=
  ⟨c8_stringify_amended.2.2.2.1 false 5 (by decide) (by decide),
   c8_stringify_amended.2.2.2.1 true 42 (by decide) (by decide),
   c8_stringify_amended.2.2.2.2.2.1 false (2 ^ 60) (by decide) (by decide) (by decide),
   by decide,
   by decide,
   c8_stringify_amended.2.2.2.2.2.2 false (10 ^ 22) (by decide) (by decide)⟩

/-- A user-function value (`Function` in `Function.ts`, final shape with the
`#isInitializer` flag of the classes chapter, whose `Function.ts` is absent
from `src/`; modelled from the spec where noted): the declaration, the id of
the captured closure environment, and the initializer flag. -/
inductive FunVal where
  | mk (decl : FunDecl) (closure : Nat) (isInit : Bool)

/-- Declaration of a user function value. -/
def FunVal.decl : FunVal → FunDecl
  | .mk d _ _ => d

/-- Closure environment id of a user function value. -/
def FunVal.closure : FunVal → Nat
  | .mk _ c _ => c

/-- Initializer flag of a user function value. -/
def FunVal.isInit : FunVal → Bool
  | .mk _ _ b => b

/-- A class value (`Class` in `Class.ts`): name, optional superclass, method
table. -/
inductive ClassVal where
  | mk (name : String) (superclass : Option ClassVal) (methods : List (String × FunVal))

/-- Name of a class value. -/
def ClassVal.name : ClassVal → String
  | .mk n _ _ => n

/-- Superclass of a class value. -/
def ClassVal.superclass : ClassVal → Option ClassVal
  | .mk _ s _ => s

/-- Method table of a class value. -/
def ClassVal.methods : ClassVal → List (String × FunVal)
  | .mk _ _ m => m

/-- Runtime values.  Mutable environments and instances live in heaps and are
referenced by ids, modelling JS object references; `vundef` is the JS
`undefined` that `getAt` can produce past the resolver's guarantees;
`vclock` is the single native `clock` function. -/
inductive Val where
  | vnil
  | vbool (b : Bool)
  | vnum (q : ℚ)
  | vstr (s : String)
  | vfun (f : FunVal)
  | vclass (c : ClassVal)
  | vinst (i : Nat)
  | vclock
  | vundef

/-- One environment node (`Environment`): its `values` map and the optional
`enclosing` reference. -/
structure Frame where
  values : List (String × Val) := []
  enclosing : Option Nat := none

/-- One instance (`Instance` in `Class.ts`): its class and its `fields` map. -/
structure InstData where
  klass : ClassVal
  fields : List (String × Val) := []

/-- Interpreter state: the environment heap (`frames`, index 0 is `globals`),
the instance heap, the current-environment pointer (`#environment`), the
resolver-populated `locals` side-table (node id → depth, read-only during
evaluation), and the `print` output stream. -/
structure St where
  frames : List Frame
  insts : List InstData := []
  curr : Nat := 0
  locals : List (Nat × Nat) := []
  output : List String := []

/-- Runtime errors (`RuntimeError`), one constructor per distinct message. -/
inductive RErr where
  | undefinedVariable (name : Token)
  | operandMustBeANumber (op : Token)
  | operandsMustBeTwoNumbersOrTwoStrings (op : Token)
  | canOnlyCallFunctionsAndClasses (paren : Token)
  | arityMismatch (paren : Token) (expected got : Nat)
  | undefinedProperty (name : Token)
  | onlyInstancesHaveProperties (name : Token)
  | onlyInstancesHaveFields (name : Token)
  | superclassMustBeAClass (tok : Token)
  | outOfFuel

/-- Evaluation outcome: normal completion, a thrown `Return` (the non-local
exit used by return statements, caught at the invoking user-function frame),
or a thrown `RuntimeError`. -/
inductive Outcome (α : Type) where
  | ok (a : α)
  | ret (v : Val)
  | err (e : RErr)

/-- Read a frame; out-of-range ids (never produced by the interpreter) give
an empty root frame. -/
def frameAt (h : List Frame) (i : Nat) : Frame := h.getD i {}

/-- Read an instance; out-of-range ids give a dummy. -/
def instAt (st : St) (i : Nat) : InstData := st.insts.getD i ⟨⟨"", none, []⟩, []⟩

/-- `Environment.define` on the environment with id `i`. -/
def defineIn (st : St) (i : Nat) (k : String) (v : Val) : St :=
  { st with frames :=
      st.frames.set i { frameAt st.frames i with values := alSet (frameAt st.frames i).values k v } }

/-- The chain walk of `Environment.get`, fuel-indexed (the heap is acyclic in
every reachable state, so `frames.length + 1` fuel is always enough). -/
def envGetAux : Nat → List Frame → Nat → Token → Outcome Val
  | 0, _, _, name => .err (.undefinedVariable name)
  | fuel + 1, h, i, name =>
    match alGet (frameAt h i).values name.lexeme with
    | some v => .ok v
    | none =>
      match (frameAt h i).enclosing with
      | some j => envGetAux fuel h j name
      | none => .err (.undefinedVariable name)

/-- `Environment.get` from environment `i`. -/
def envGet (st : St) (i : Nat) (name : Token) : Outcome Val :=
  envGetAux (st.frames.length + 1) st.frames i name

/-- The chain walk of `Environment.assign`, fuel-indexed like `envGetAux`. -/
def envAssignAux : Nat → St → Nat → Token → Val → Outcome Unit × St
  | 0, st, _, name, _ => (.err (.undefinedVariable name), st)
  | fuel + 1, st, i, name, v =>
    if (alGet (frameAt st.frames i).values name.lexeme).isSome then
      (.ok (), defineIn st i name.lexeme v)
    else
      match (frameAt st.frames i).enclosing with
      | some j => envAssignAux fuel st j name v
      | none => (.err (.undefinedVariable name), st)

/-- `Environment.assign` from environment `i`. -/
def envAssign (st : St) (i : Nat) (name : Token) (v : Val) : Outcome Unit × St :=
  envAssignAux (st.frames.length + 1) st i name v

/-- `Environment.#ancestor(depth)`: walk `depth` enclosing links, yielding
nothing when a link is missing before `depth` hops are done. -/
def ancestor (h : List Frame) (i : Nat) : Nat → Option Nat
  | 0 => some i
  | d + 1 =>
    match (frameAt h i).enclosing with
    | none => none
    | some j => ancestor h j d

/-- `Environment.getAt(depth, name)`: `this.#ancestor(depth)?.values.get(name)`
(`none` models the JS `undefined`, from either a too-short chain or a missing
key). -/
def getAt (h : List Frame) (i d : Nat) (name : String) : Option Val :=
  match ancestor h i d with
  | some j => alGet (frameAt h j).values name
  | none => none

/-- `Environment.assignAt(depth, name, value)`:
`this.#ancestor(depth)?.values.set(...)` — a no-op when the walk yields
nothing. -/
def assignAt (h : List Frame) (i d : Nat) (name : String) (v : Val) : List Frame :=
  match ancestor h i d with
  | some j => h.set j { frameAt h j with values := alSet (frameAt h j).values name v }
  | none => h

/-- `Map.get` for the numeric-keyed `locals` side-table. -/
def numGet (m : List (Nat × Nat)) (k : Nat) : Option Nat :=
  match m with
  | [] => none
  | (k', v) :: rest => if k' = k then some v else numGet rest k

/-- `isTruthy` from `Interpreter.ts`: booleans are themselves, `null` is
false, everything else (including `undefined`, `0` and `""`) is true. -/
def isTruthy : Val → Bool
  | .vbool b => b
  | .vnil => false
  | _ => true

/-- The JS `===` of `visitBinaryExpr`, on the values the evaluator produces:
primitives compare by value, instances by reference (heap id).  Function and
class values compare by object reference in JS; the model does not track
their object identity and conservatively answers `false` for them (no claim
below depends on callable equality). -/
def valEq : Val → Val → Bool
  | .vnil, .vnil => true
  | .vbool a, .vbool b => a = b
  | .vnum a, .vnum b => a = b
  | .vstr a, .vstr b => a = b
  | .vinst i, .vinst j => i = j
  | _, _ => false

/-- `Class.findMethod` (`Class.ts` lines 29-34): own table first, then the
superclass chain. -/
def findMethod : ClassVal → String → Option FunVal
  | .mk _ sup methods, name =>
    match alGet methods name, sup with
    | some m, _ => some m
    | none, some s => findMethod s name
    | none, none => none

/-- `Function.arity`: the declared parameter count. -/
def funArity (f : FunVal) : Nat := f.decl.params.length

/-- `Class.arity`: `this.findMethod("init")?.arity ?? 0`. -/
def classArity (c : ClassVal) : Nat := ((findMethod c "init").map funArity).getD 0

/-- Arity of any callable value. -/
def valArity : Val → Nat
  | .vfun f => funArity f
  | .vclass c => classArity c
  | _ => 0

/-- Whether a value is a `Callable`. -/
def isCallable : Val → Bool
  | .vfun _ => true
  | .vclass _ => true
  | .vclock => true
  | _ => false

/-- Modelled from the spec: `Function.bind` — "takes an Instance and a user
function; returns a new user function whose closure is an extra environment
(enclosing the method's original closure) with `this` defined to the
instance; the `isInitializer` flag is preserved."  (The classes-era
`Function.ts` is absent from `src/`; `Class.ts` under `src/` calls `bind`.)
The receiver is passed as a value so the (resolver-unreachable) non-instance
case of `super` binding stays total. -/
def bindFun (st : St) (f : FunVal) (thisVal : Val) : FunVal × St :=
  let envId := st.frames.length
  (⟨f.decl, envId, f.isInit⟩,
   { st with frames := st.frames ++ [⟨[("this", thisVal)], some f.closure⟩] })

/-- `Instance.get` (`Class.ts` lines 49-56): a field shadows a method; a
method found on the class (or up the superclass chain) is returned bound to
this instance; otherwise "Undefined property". -/
def instanceGet (st : St) (i : Nat) (name : Token) : Outcome Val × St :=
  match alGet (instAt st i).fields name.lexeme with
  | some v => (.ok v, st)
  | none =>
    match findMethod (instAt st i).klass name.lexeme with
    | some m =>
      let (bf, st') := bindFun st m (.vinst i)
      (.ok (.vfun bf), st')
    | none => (.err (.undefinedProperty name), st)

/-- `Instance.set`: fields are written unconditionally. -/
def instanceSet (st : St) (i : Nat) (name : Token) (v : Val) : St :=
  { st with insts :=
      st.insts.set i { instAt st i with fields := alSet (instAt st i).fields name.lexeme v } }

/-- Modelled from the spec: `Interpreter.#lookUpVariable` — "Variable / This /
Super: if depth is present in the locals map, read at that depth from the
current environment chain; otherwise read from globals.  Undefined name →
runtime error."  (The final `Interpreter.ts` with the `locals` side-table is
absent from `src/`; the `src/` Resolver calls `interpreter.resolve`.)  A
missing binding at a recorded depth yields the JS `undefined` without an
error, exactly as `getAt` behaves. -/
def lookUpVariable (st : St) (id : Nat) (name : Token) : Outcome Val :=
  match numGet st.locals id with
  | some d =>
    match getAt st.frames st.curr d name.lexeme with
    | some v => .ok v
    | none => .ok .vundef
  | none => envGet st 0 name

/-- Modelled from the spec: the assignment half of the depth rule — "Assign:
evaluate value; if depth is present, assign at that depth; else assign in
globals.  Assigning to an undeclared global name is a runtime error."
`assignAt` never reports. -/
def assignVariable (st : St) (id : Nat) (name : Token) (v : Val) : Outcome Unit × St :=
  match numGet st.locals id with
  | some d => (.ok (), { st with frames := assignAt st.frames st.curr d name.lexeme v })
  | none => envAssign st 0 name v

/-- `stringify` as used by `print`, over runtime values; host number
formatting is abstracted by `toString` on `ℚ` (its exact output is modelled
separately for the formatting claim), and `Instance.toString` reads the class
name from the heap. -/
def stringifyVal (st : St) : Val → String
  | .vnil => "nil"
  | .vbool b => if b then "true" else "false"
  | .vnum q => toString q
  | .vstr s => s
  | .vfun f => "<fn " ++ f.decl.name.lexeme ++ ">"
  | .vclass c => c.name
  | .vinst i => (instAt st i).klass.name ++ " instance"
  | .vclock => "<native fn>"
  | .vundef => "undefined"

/-- Literal payloads become runtime values unchanged. -/
def litToVal : LoxLit → Val
  | .lnil => .vnil
  | .lbool b => .vbool b
  | .lnum q => .vnum q
  | .lstr s => .vstr s

/-- `visitBinaryExpr`'s operator dispatch on two evaluated operands,
translated from `Interpreter.ts` lines 99-144 (including the left-then-right
`checkNumberOperand` order and the trailing `return null`).  Arithmetic on
`ℚ` abstracts IEEE-754 doubles; no claim below depends on rounding, division
by zero or NaN. -/
def binaryOp (op : Token) (l r : Val) : Outcome Val :=
  match op.type with
  | .BANG_EQUAL => .ok (.vbool (!valEq l r))
  | .EQUAL_EQUAL => .ok (.vbool (valEq l r))
  | .GREATER =>
    match l, r with
    | .vnum a, .vnum b => .ok (.vbool (decide (a > b)))
    | .vnum _, _ => .err (.operandMustBeANumber op)
    | _, _ => .err (.operandMustBeANumber op)
  | .GREATER_EQUAL =>
    match l, r with
    | .vnum a, .vnum b => .ok (.vbool (decide (a ≥ b)))
    | .vnum _, _ => .err (.operandMustBeANumber op)
    | _, _ => .err (.operandMustBeANumber op)
  | .LESS =>
    match l, r with
    | .vnum a, .vnum b => .ok (.vbool (decide (a < b)))
    | .vnum _, _ => .err (.operandMustBeANumber op)
    | _, _ => .err (.operandMustBeANumber op)
  | .LESS_EQUAL =>
    match l, r with
    | .vnum a, .vnum b => .ok (.vbool (decide (a ≤ b)))
    | .vnum _, _ => .err (.operandMustBeANumber op)
    | _, _ => .err (.operandMustBeANumber op)
  | .MINUS =>
    match l, r with
    | .vnum a, .vnum b => .ok (.vnum (a - b))
    | .vnum _, _ => .err (.operandMustBeANumber op)
    | _, _ => .err (.operandMustBeANumber op)
  | .PLUS =>
    match l, r with
    | .vnum a, .vnum b => .ok (.vnum (a + b))
    | .vstr a, .vstr b => .ok (.vstr (a ++ b))
    | _, _ => .err (.operandsMustBeTwoNumbersOrTwoStrings op)
  | .SLASH =>
    match l, r with
    | .vnum a, .vnum b => .ok (.vnum (a / b))
    | .vnum _, _ => .err (.operandMustBeANumber op)
    | _, _ => .err (.operandMustBeANumber op)
  | .STAR =>
    match l, r with
    | .vnum a, .vnum b => .ok (.vnum (a * b))
    | .vnum _, _ => .err (.operandMustBeANumber op)
    | _, _ => .err (.operandMustBeANumber op)
  | _ => .ok .vnil

/-- `Function.call`'s parameter binding: define each parameter to the
corresponding argument in the call environment (arity was checked by the
caller; a missing argument would be the JS `undefined`). -/
def defineParams (st : St) (envId : Nat) : List Token → List Val → St
  | [], _ => st
  | p :: ps, args =>
    defineParams (defineIn st envId p.lexeme (args.headD .vundef)) envId ps (args.tailD [])

mutual

/-- The expression visitors of `Interpreter.ts`, fuel-indexed.  `Variable`,
`This`, `Assign` use the spec-modelled depth rule (`lookUpVariable` /
`assignVariable`); `Get` / `Set` / `Super` are modelled from the spec's §4.4
bullets (the classes-era `Interpreter.ts` is absent from `src/`), with
`Instance.get` itself translated from `Class.ts` under `src/`; everything
else is translated from `Interpreter.ts` lines 85-190. -/
def evalExpr : Nat → St → Expr → Outcome Val × St
  | 0, st, _ => (.err .outOfFuel, st)
  | n + 1, st, e =>
    match e with
    | .literal l => (.ok (litToVal l), st)
    | .grouping e1 => evalExpr n st e1
    | .variableE id name => (lookUpVariable st id name, st)
    | .thisE id kw => (lookUpVariable st id kw, st)
    | .assign id name value =>
      match evalExpr n st value with
      | (.ok v, st1) =>
        match assignVariable st1 id name v with
        | (.ok _, st2) => (.ok v, st2)
        | (.err e2, st2) => (.err e2, st2)
        | (.ret r, st2) => (.ret r, st2)
      | other => other
    | .unary op e1 =>
      match evalExpr n st e1 with
      | (.ok v, st1) =>
        match op.type with
        | .BANG => (.ok (.vbool (!isTruthy v)), st1)
        | .MINUS =>
          match v with
          | .vnum q => (.ok (.vnum (-q)), st1)
          | _ => (.err (.operandMustBeANumber op), st1)
        | _ => (.ok .vnil, st1)
      | other => other
    | .binary l op r =>
      match evalExpr n st l with
      | (.ok lv, st1) =>
        match evalExpr n st1 r with
        | (.ok rv, st2) => (binaryOp op lv rv, st2)
        | other => other
      | other => other
    | .logical l op r =>
      match evalExpr n st l with
      | (.ok lv, st1) =>
        if isTruthy lv = (op.type = TokenType.OR) then (.ok lv, st1)
        else evalExpr n st1 r
      | other => other
    | .call callee paren args =>
      match evalExpr n st callee with
      | (.ok cv, st1) =>
        match evalArgs n st1 args with
        | (.ok avs, st2) =>
          if ¬isCallable cv then (.err (.canOnlyCallFunctionsAndClasses paren), st2)
          else if avs.length ≠ valArity cv then
            (.err (.arityMismatch paren (valArity cv) avs.length), st2)
          else callVal n st2 cv avs
        | (.err e2, st2) => (.err e2, st2)
        | (.ret r, st2) => (.ret r, st2)
      | other => other
    | .get obj name =>
      match evalExpr n st obj with
      | (.ok ov, st1) =>
        match ov with
        | .vinst i => instanceGet st1 i name
        | _ => (.err (.onlyInstancesHaveProperties name), st1)
      | other => other
    | .set obj name value =>
      match evalExpr n st obj with
      | (.ok ov, st1) =>
        match ov with
        | .vinst i =>
          match evalExpr n st1 value with
          | (.ok v, st2) => (.ok v, instanceSet st2 i name v)
          | other => other
        | _ => (.err (.onlyInstancesHaveFields name), st1)
      | other => other
    | .superE id kw method =>
      match lookUpVariable st id kw with
      | .ok sv =>
        match sv with
        | .vclass sc =>
          let thisV :=
            match numGet st.locals id with
            | some d => (getAt st.frames st.curr (d - 1) "this").getD .vundef
            | none => .vundef
          match findMethod sc method.lexeme with
          | some m =>
            let (bf, st') := bindFun st m thisV
            (.ok (.vfun bf), st')
          | none => (.err (.undefinedProperty method), st)
        | _ => (.ok .vundef, st)
      | .err e2 => (.err e2, st)
      | .ret r => (.ret r, st)

/-- Source-order evaluation of call arguments. -/
def evalArgs : Nat → St → List Expr → Outcome (List Val) × St
  | 0, st, _ => (.err .outOfFuel, st)
  | n + 1, st, es =>
    match es with
    | [] => (.ok [], st)
    | e :: rest =>
      match evalExpr n st e with
      | (.ok v, st1) =>
        match evalArgs n st1 rest with
        | (.ok vs, st2) => (.ok (v :: vs), st2)
        | (.err e2, st2) => (.err e2, st2)
        | (.ret r, st2) => (.ret r, st2)
      | (.err e2, st1) => (.err e2, st1)
      | (.ret r, st1) => (.ret r, st1)

/-- Invocation of any `Callable` (`fn.call(this, args)`): the native clock
(host time abstracted as 0), user functions, classes. -/
def callVal : Nat → St → Val → List Val → Outcome Val × St
  | 0, st, _, _ => (.err .outOfFuel, st)
  | n + 1, st, cv, args =>
    match cv with
    | .vclock => (.ok (.vnum 0), st)
    | .vfun f => callFunction n st f args
    | .vclass c => classCall n st c args
    | _ => (.ok .vnil, st)

/-- `Function.call` (`Function.ts` lines 20-35 under `src/`, plus the
initializer behaviour modelled from the spec: "An `init` method, regardless
of early return or fall-through, returns the bound `this`", read with
`closure.getAt(0, "this")`): run the body in a fresh environment enclosing
the closure, catch a propagated `Return`. -/
def callFunction : Nat → St → FunVal → List Val → Outcome Val × St
  | 0, st, _, _ => (.err .outOfFuel, st)
  | n + 1, st, f, args =>
    let envId := st.frames.length
    let st1 := { st with frames := st.frames ++ [⟨[], some f.closure⟩] }
    let st2 := defineParams st1 envId f.decl.params args
    match executeBlock n st2 f.decl.body envId with
    | (.ret v, st3) =>
      if f.isInit then (.ok ((getAt st3.frames f.closure 0 "this").getD .vundef), st3)
      else (.ok v, st3)
    | (.ok _, st3) =>
      if f.isInit then (.ok ((getAt st3.frames f.closure 0 "this").getD .vundef), st3)
      else (.ok .vnil, st3)
    | (.err e2, st3) => (.err e2, st3)

/-- `Class.call` (`Class.ts` lines 22-27): construct the instance, invoke a
bound `init` when present (its value discarded, its exceptions propagated),
and return the instance. -/
def classCall : Nat → St → ClassVal → List Val → Outcome Val × St
  | 0, st, _, _ => (.err .outOfFuel, st)
  | n + 1, st, c, args =>
    let instId := st.insts.length
    let st1 := { st with insts := st.insts ++ [⟨c, []⟩] }
    match findMethod c "init" with
    | some m =>
      let (bf, st2) := bindFun st1 m (.vinst instId)
      match callFunction n st2 bf args with
      | (.ok _, st3) => (.ok (.vinst instId), st3)
      | (.err e2, st3) => (.err e2, st3)
      | (.ret r, st3) => (.ret r, st3)
    | none => (.ok (.vinst instId), st1)

/-- The statement visitors of `Interpreter.ts` (lines 43-83), fuel-indexed;
the class statement is modelled from the spec's §4.4 Class bullet. -/
def execStmt : Nat → St → Stmt → Outcome Unit × St
  | 0, st, _ => (.err .outOfFuel, st)
  | n + 1, st, s =>
    match s with
    | .expression e =>
      match evalExpr n st e with
      | (.ok _, st1) => (.ok (), st1)
      | (.err e2, st1) => (.err e2, st1)
      | (.ret r, st1) => (.ret r, st1)
    | .print e =>
      match evalExpr n st e with
      | (.ok v, st1) => (.ok (), { st1 with output := st1.output ++ [stringifyVal st1 v] })
      | (.err e2, st1) => (.err e2, st1)
      | (.ret r, st1) => (.ret r, st1)
    | .varStmt name init =>
      match init with
      | some e =>
        match evalExpr n st e with
        | (.ok v, st1) => (.ok (), defineIn st1 st1.curr name.lexeme v)
        | (.err e2, st1) => (.err e2, st1)
        | (.ret r, st1) => (.ret r, st1)
      | none => (.ok (), defineIn st st.curr name.lexeme .vnil)
    | .functionStmt f =>
      (.ok (), defineIn st st.curr f.name.lexeme (.vfun ⟨f, st.curr, false⟩))
    | .returnStmt _ value =>
      match evalExpr n st value with
      | (.ok v, st1) => (.ret v, st1)
      | (.err e2, st1) => (.err e2, st1)
      | (.ret r, st1) => (.ret r, st1)
    | .block stmts =>
      let envId := st.frames.length
      executeBlock n { st with frames := st.frames ++ [⟨[], some st.curr⟩] } stmts envId
    | .ifStmt c t e =>
      match evalExpr n st c with
      | (.ok cv, st1) =>
        if isTruthy cv then execStmt n st1 t
        else
          match e with
          | some s2 => execStmt n st1 s2
          | none => (.ok (), st1)
      | (.err e2, st1) => (.err e2, st1)
      | (.ret r, st1) => (.ret r, st1)
    | .whileStmt c b =>
      match evalExpr n st c with
      | (.ok cv, st1) =>
        if isTruthy cv then
          match execStmt n st1 b with
          | (.ok _, st2) => execStmt n st2 (.whileStmt c b)
          | (.err e2, st2) => (.err e2, st2)
          | (.ret r, st2) => (.ret r, st2)
        else (.ok (), st1)
      | (.err e2, st1) => (.err e2, st1)
      | (.ret r, st1) => (.ret r, st1)
    | .classStmt name methods superclass =>
      let st0 := defineIn st st.curr name.lexeme .vnil
      match superclass with
      | some supE =>
        match evalExpr n st0 supE with
        | (.ok sv, st1) =>
          match sv with
          | .vclass sc =>
            let superEnv := st1.frames.length
            let st2 := { st1 with frames :=
              st1.frames ++ [⟨[("super", .vclass sc)], some st1.curr⟩] }
            let ms := methods.map fun m =>
              (m.name.lexeme, FunVal.mk m superEnv (m.name.lexeme = "init"))
            let klass := ClassVal.mk name.lexeme (some sc) ms
            match envAssign st2 st2.curr name (.vclass klass) with
            | (.ok _, st3) => (.ok (), st3)
            | (.err e2, st3) => (.err e2, st3)
            | (.ret r, st3) => (.ret r, st3)
          | _ =>
            (.err (.superclassMustBeAClass
              (match supE with | .variableE _ t => t | _ => name)), st1)
        | (.err e2, st1) => (.err e2, st1)
        | (.ret r, st1) => (.ret r, st1)
      | none =>
        let ms := methods.map fun m =>
          (m.name.lexeme, FunVal.mk m st0.curr (m.name.lexeme = "init"))
        let klass := ClassVal.mk name.lexeme none ms
        match envAssign st0 st0.curr name (.vclass klass) with
        | (.ok _, st3) => (.ok (), st3)
        | (.err e2, st3) => (.err e2, st3)
        | (.ret r, st3) => (.ret r, st3)

/-- Sequential statement execution; a `Return` or `RuntimeError` aborts. -/
def execList : Nat → St → List Stmt → Outcome Unit × St
  | 0, st, _ => (.err .outOfFuel, st)
  | n + 1, st, ss =>
    match ss with
    | [] => (.ok (), st)
    | s :: rest =>
      match execStmt n st s with
      | (.ok _, st1) => execList n st1 rest
      | (.err e2, st1) => (.err e2, st1)
      | (.ret r, st1) => (.ret r, st1)

/-- `Interpreter.executeBlock` (`Interpreter.ts` lines 196-206): save the
current environment pointer, run the statements in the given environment,
and restore the pointer on every exit path (the `finally`). -/
def executeBlock : Nat → St → List Stmt → Nat → Outcome Unit × St
  | 0, st, _, _ => (.err .outOfFuel, st)
  | n + 1, st, stmts, envId =>
    let prev := st.curr
    let (r, st1) := execList n { st with curr := envId } stmts
    (r, { st1 with curr := prev })

end

/-- `define` never moves the current-environment pointer. -/
@[simp] theorem defineIn_curr (st : St) (i : Nat) (k : String) (v : Val) :
    (defineIn st i k v).curr = st.curr := rfl

/-- `Instance.set` never moves the current-environment pointer. -/
@[simp] theorem instanceSet_curr (st : St) (i : Nat) (name : Token) (v : Val) :
    (instanceSet st i name v).curr = st.curr := rfl

/-- `bind` allocates a frame but never moves the pointer. -/
@[simp] theorem bindFun_curr (st : St) (f : FunVal) (tv : Val) :
    ((bindFun st f tv).2).curr = st.curr := rfl

/-- The `Environment.assign` walk never moves the pointer. -/
theorem envAssignAux_curr (f : Nat) : ∀ (st : St) (i : Nat) (name : Token) (v : Val),
    ((envAssignAux f st i name v).2).curr = st.curr := by
  induction f with
  | zero => intro st i name v; rfl
  | succ f ih =>
    intro st i name v
    simp only [envAssignAux]
    split
    · rfl
    · split
      · apply ih
      · rfl

/-- `Environment.assign` never moves the pointer. -/
@[simp] theorem envAssign_curr (st : St) (i : Nat) (name : Token) (v : Val) :
    ((envAssign st i name v).2).curr = st.curr := envAssignAux_curr _ st i name v

/-- The depth-rule assignment never moves the pointer. -/
@[simp] theorem assignVariable_curr (st : St) (id : Nat) (name : Token) (v : Val) :
    ((assignVariable st id name v).2).curr = st.curr := by
  unfold assignVariable
  split
  · rfl
  · exact envAssign_curr st 0 name v

/-- `Instance.get` never moves the pointer. -/
@[simp] theorem instanceGet_curr (st : St) (i : Nat) (name : Token) :
    ((instanceGet st i name).2).curr = st.curr := by
  unfold instanceGet
  split
  · rfl
  · split
    · rfl
    · rfl

/-- Parameter binding never moves the pointer. -/
@[simp] theorem defineParams_curr (ps : List Token) : ∀ (args : List Val) (st : St) (envId : Nat),
    (defineParams st envId ps args).curr = st.curr := by
  induction ps with
  | nil => intro args st envId; rfl
  | cons p rest ih =>
    intro args st envId
    simp only [defineParams]
    rw [ih]
    rfl

mutual

/-- Expression evaluation restores the current-environment pointer on every
exit path. -/
theorem evalExpr_curr (n : Nat) (st : St) (e : Expr) :
    ((evalExpr n st e).2).curr = st.curr := by
  cases n with
  | zero => rfl
  | succ n =>
    cases e with
    | literal l => rfl
    | grouping e1 => exact evalExpr_curr n st e1
    | variableE id name => rfl
    | thisE id kw => rfl
    | assign id name value =>
      simp only [evalExpr]
      split
      · rename_i v st1 heq
        have h1 : st1.curr = st.curr := by
          have := evalExpr_curr n st value
          rw [heq] at this
          exact this
        split
        · rename_i u st2 heq2
          have h2 : st2.curr = st1.curr := by
            have := assignVariable_curr st1 id name v
            rw [heq2] at this
            exact this
          exact h2.trans h1
        · rename_i e2 st2 heq2
          have h2 : st2.curr = st1.curr := by
            have := assignVariable_curr st1 id name v
            rw [heq2] at this
            exact this
          exact h2.trans h1
        · rename_i r st2 heq2
          have h2 : st2.curr = st1.curr := by
            have := assignVariable_curr st1 id name v
            rw [heq2] at this
            exact this
          exact h2.trans h1
      · rename_i hne
        exact evalExpr_curr n st value
    | unary op e1 =>
      simp only [evalExpr]
      split
      · rename_i v st1 heq
        have h1 : st1.curr = st.curr := by
          have := evalExpr_curr n st e1
          rw [heq] at this
          exact this
        split
        · exact h1
        · split <;> exact h1
        · exact h1
      · rename_i hne
        exact evalExpr_curr n st e1
    | binary l op r =>
      simp only [evalExpr]
      split
      · rename_i lv st1 heq
        have h1 : st1.curr = st.curr := by
          have := evalExpr_curr n st l
          rw [heq] at this
          exact this
        split
        · rename_i rv st2 heq2
          have h2 : st2.curr = st1.curr := by
            have := evalExpr_curr n st1 r
            rw [heq2] at this
            exact this
          exact h2.trans h1
        · rename_i hne2
          exact (evalExpr_curr n st1 r).trans h1
      · rename_i hne
        exact evalExpr_curr n st l
    | logical l op r =>
      simp only [evalExpr]
      split
      · rename_i lv st1 heq
        have h1 : st1.curr = st.curr := by
          have := evalExpr_curr n st l
          rw [heq] at this
          exact this
        split
        · exact h1
        · exact (evalExpr_curr n st1 r).trans h1
      · rename_i hne
        exact evalExpr_curr n st l
    | call callee paren args =>
      simp only [evalExpr]
      split
      · rename_i cv st1 heq
        have h1 : st1.curr = st.curr := by
          have := evalExpr_curr n st callee
          rw [heq] at this
          exact this
        split
        · rename_i avs st2 heq2
          have h2 : st2.curr = st1.curr := by
            have := evalArgs_curr n st1 args
            rw [heq2] at this
            exact this
          split
          · exact h2.trans h1
          · split
            · exact h2.trans h1
            · exact (callVal_curr n st2 cv avs).trans (h2.trans h1)
        · rename_i e2 st2 heq2
          have h2 : st2.curr = st1.curr := by
            have := evalArgs_curr n st1 args
            rw [heq2] at this
            exact this
          exact h2.trans h1
        · rename_i r2 st2 heq2
          have h2 : st2.curr = st1.curr := by
            have := evalArgs_curr n st1 args
            rw [heq2] at this
            exact this
          exact h2.trans h1
      · rename_i hne
        exact evalExpr_curr n st callee
    | get obj name =>
      simp only [evalExpr]
      split
      · rename_i ov st1 heq
        have h1 : st1.curr = st.curr := by
          have := evalExpr_curr n st obj
          rw [heq] at this
          exact this
        split
        · rename_i i
          exact (instanceGet_curr st1 i name).trans h1
        · exact h1
      · rename_i hne
        exact evalExpr_curr n st obj
    | set obj name value =>
      simp only [evalExpr]
      split
      · rename_i ov st1 heq
        have h1 : st1.curr = st.curr := by
          have := evalExpr_curr n st obj
          rw [heq] at this
          exact this
        split
        · rename_i i
          split
          · rename_i v st2 heq2
            have h2 : st2.curr = st1.curr := by
              have := evalExpr_curr n st1 value
              rw [heq2] at this
              exact this
            exact h2.trans h1
          · rename_i hne2
            exact (evalExpr_curr n st1 value).trans h1
        · exact h1
      · rename_i hne
        exact evalExpr_curr n st obj
    | superE id kw method =>
      simp only [evalExpr]
      split
      · split
        · split
          · rfl
          · rfl
        · rfl
      · rfl
      · rfl

/-- Argument evaluation restores the pointer. -/
theorem evalArgs_curr (n : Nat) (st : St) (es : List Expr) :
    ((evalArgs n st es).2).curr = st.curr := by
  cases n with
  | zero => rfl
  | succ n =>
    cases es with
    | nil => rfl
    | cons e rest =>
      simp only [evalArgs]
      split
      · rename_i v st1 heq
        have h1 : st1.curr = st.curr := by
          have := evalExpr_curr n st e
          rw [heq] at this
          exact this
        split
        · rename_i vs st2 heq2
          have h2 : st2.curr = st1.curr := by
            have := evalArgs_curr n st1 rest
            rw [heq2] at this
            exact this
          exact h2.trans h1
        · rename_i e2 st2 heq2
          have h2 : st2.curr = st1.curr := by
            have := evalArgs_curr n st1 rest
            rw [heq2] at this
            exact this
          exact h2.trans h1
        · rename_i r2 st2 heq2
          have h2 : st2.curr = st1.curr := by
            have := evalArgs_curr n st1 rest
            rw [heq2] at this
            exact this
          exact h2.trans h1
      · rename_i e2 st1 heq
        have h1 : st1.curr = st.curr := by
          have := evalExpr_curr n st e
          rw [heq] at this
          exact this
        exact h1
      · rename_i r2 st1 heq
        have h1 : st1.curr = st.curr := by
          have := evalExpr_curr n st e
          rw [heq] at this
          exact this
        exact h1

/-- Callable dispatch restores the pointer. -/
theorem callVal_curr (n : Nat) (st : St) (cv : Val) (args : List Val) :
    ((callVal n st cv args).2).curr = st.curr := by
  cases n with
  | zero => rfl
  | succ n =>
    cases cv with
    | vclock => rfl
    | vfun f => exact callFunction_curr n st f args
    | vclass c => exact classCall_curr n st c args
    | vnil => rfl
    | vbool b => rfl
    | vnum q => rfl
    | vstr s => rfl
    | vinst i => rfl
    | vundef => rfl

/-- `Function.call` restores the pointer (the block discipline of
`executeBlock` covers the body; the surrounding bookkeeping never moves it). -/
theorem callFunction_curr (n : Nat) (st : St) (f : FunVal) (args : List Val) :
    ((callFunction n st f args).2).curr = st.curr := by
  cases n with
  | zero => rfl
  | succ n =>
    simp only [callFunction]
    have hbase :
        ((executeBlock n
          (defineParams { st with frames := st.frames ++ [⟨[], some f.closure⟩] }
            st.frames.length f.decl.params args) f.decl.body st.frames.length).2).curr
          = st.curr := by
      rw [executeBlock_curr]
      rw [defineParams_curr]
    split
    · rename_i v st3 heq
      rw [heq] at hbase
      split <;> exact hbase
    · rename_i u st3 heq
      rw [heq] at hbase
      split <;> exact hbase
    · rename_i e2 st3 heq
      rw [heq] at hbase
      exact hbase

/-- `Class.call` restores the pointer. -/
theorem classCall_curr (n : Nat) (st : St) (c : ClassVal) (args : List Val) :
    ((classCall n st c args).2).curr = st.curr := by
  cases n with
  | zero => rfl
  | succ n =>
    simp only [classCall]
    split
    · rename_i m heq
      have hbase :
          ((callFunction n
            (bindFun { st with insts := st.insts ++ [⟨c, []⟩] } m (.vinst st.insts.length)).2
            ((bindFun { st with insts := st.insts ++ [⟨c, []⟩] } m (.vinst st.insts.length)).1)
            args).2).curr = st.curr := by
        rw [callFunction_curr]
        rfl
      split
      · rename_i u st3 heq2
        rw [heq2] at hbase
        exact hbase
      · rename_i e2 st3 heq2
        rw [heq2] at hbase
        exact hbase
      · rename_i r2 st3 heq2
        rw [heq2] at hbase
        exact hbase
    · rfl

/-- C7: for every statement executed by the interpreter, the
current-environment pointer after execution equals its value before, on every
exit path — normal completion, a propagated `Return`, and a raised
`RuntimeError` (and the out-of-fuel artifact of the embedding): the equation
holds for the final state regardless of the outcome component. -/
theorem c7_execStmt_restores_environment (n : Nat) (st : St) (s : Stmt) :
    ((execStmt n st s).2).curr = st.curr := by
  cases n with
  | zero => rfl
  | succ n =>
    cases s with
    | expression e =>
      simp only [execStmt]
      split
      · rename_i v st1 heq
        have := evalExpr_curr n st e
        rw [heq] at this
        exact this
      · rename_i e2 st1 heq
        have := evalExpr_curr n st e
        rw [heq] at this
        exact this
      · rename_i r2 st1 heq
        have := evalExpr_curr n st e
        rw [heq] at this
        exact this
    | print e =>
      simp only [execStmt]
      split
      · rename_i v st1 heq
        have := evalExpr_curr n st e
        rw [heq] at this
        exact this
      · rename_i e2 st1 heq
        have := evalExpr_curr n st e
        rw [heq] at this
        exact this
      · rename_i r2 st1 heq
        have := evalExpr_curr n st e
        rw [heq] at this
        exact this
    | varStmt name init =>
      simp only [execStmt]
      split
      · rename_i e
        split
        · rename_i v st1 heq
          have := evalExpr_curr n st e
          rw [heq] at this
          exact this
        · rename_i e2 st1 heq
          have := evalExpr_curr n st e
          rw [heq] at this
          exact this
        · rename_i r2 st1 heq
          have := evalExpr_curr n st e
          rw [heq] at this
          exact this
      · rfl
    | functionStmt f => rfl
    | returnStmt kw value =>
      simp only [execStmt]
      split
      · rename_i v st1 heq
        have := evalExpr_curr n st value
        rw [heq] at this
        exact this
      · rename_i e2 st1 heq
        have := evalExpr_curr n st value
        rw [heq] at this
        exact this
      · rename_i r2 st1 heq
        have := evalExpr_curr n st value
        rw [heq] at this
        exact this
    | block stmts =>
      simp only [execStmt]
      rw [executeBlock_curr]
    | ifStmt c t e =>
      simp only [execStmt]
      split
      · rename_i cv st1 heq
        have h1 : st1.curr = st.curr := by
          have := evalExpr_curr n st c
          rw [heq] at this
          exact this
        split
        · exact (c7_execStmt_restores_environment n st1 t).trans h1
        · split
          · rename_i s2
            exact (c7_execStmt_restores_environment n st1 s2).trans h1
          · exact h1
      · rename_i e2 st1 heq
        have := evalExpr_curr n st c
        rw [heq] at this
        exact this
      · rename_i r2 st1 heq
        have := evalExpr_curr n st c
        rw [heq] at this
        exact this
    | whileStmt c b =>
      simp only [execStmt]
      split
      · rename_i cv st1 heq
        have h1 : st1.curr = st.curr := by
          have := evalExpr_curr n st c
          rw [heq] at this
          exact this
        split
        · split
          · rename_i u st2 heq2
            have h2 : st2.curr = st1.curr := by
              have := c7_execStmt_restores_environment n st1 b
              rw [heq2] at this
              exact this
            exact ((c7_execStmt_restores_environment n st2 (.whileStmt c b)).trans h2).trans h1
          · rename_i e2 st2 heq2
            have h2 : st2.curr = st1.curr := by
              have := c7_execStmt_restores_environment n st1 b
              rw [heq2] at this
              exact this
            exact h2.trans h1
          · rename_i r2 st2 heq2
            have h2 : st2.curr = st1.curr := by
              have := c7_execStmt_restores_environment n st1 b
              rw [heq2] at this
              exact this
            exact h2.trans h1
        · exact h1
      · rename_i e2 st1 heq
        have := evalExpr_curr n st c
        rw [heq] at this
        exact this
      · rename_i r2 st1 heq
        have := evalExpr_curr n st c
        rw [heq] at this
        exact this
    | classStmt name methods superclass =>
      simp only [execStmt]
      split
      · rename_i supE
        split
        · rename_i sv st1 heq
          have h1 : st1.curr = st.curr := by
            have := evalExpr_curr n (defineIn st st.curr name.lexeme .vnil) supE
            rw [heq] at this
            exact this
          split
          · rename_i sc
            split
            · rename_i u st3 heq2
              have h2 := congrArg (fun p => (Prod.snd p).curr) heq2
              beta_reduce at h2
              rw [envAssign_curr] at h2
              exact h2.symm.trans h1
            · rename_i e2 st3 heq2
              have h2 := congrArg (fun p => (Prod.snd p).curr) heq2
              beta_reduce at h2
              rw [envAssign_curr] at h2
              exact h2.symm.trans h1
            · rename_i r2 st3 heq2
              have h2 := congrArg (fun p => (Prod.snd p).curr) heq2
              beta_reduce at h2
              rw [envAssign_curr] at h2
              exact h2.symm.trans h1
          · exact h1
        · rename_i e2 st1 heq
          have := evalExpr_curr n (defineIn st st.curr name.lexeme .vnil) supE
          rw [heq] at this
          exact this
        · rename_i r2 st1 heq
          have := evalExpr_curr n (defineIn st st.curr name.lexeme .vnil) supE
          rw [heq] at this
          exact this
      · split
        · rename_i u st3 heq2
          have h2 := congrArg (fun p => (Prod.snd p).curr) heq2
          beta_reduce at h2
          rw [envAssign_curr] at h2
          exact h2.symm
        · rename_i e2 st3 heq2
          have h2 := congrArg (fun p => (Prod.snd p).curr) heq2
          beta_reduce at h2
          rw [envAssign_curr] at h2
          exact h2.symm
        · rename_i r2 st3 heq2
          have h2 := congrArg (fun p => (Prod.snd p).curr) heq2
          beta_reduce at h2
          rw [envAssign_curr] at h2
          exact h2.symm

/-- Statement lists restore the pointer. -/
theorem execList_curr (n : Nat) (st : St) (ss : List Stmt) :
    ((execList n st ss).2).curr = st.curr := by
  cases n with
  | zero => rfl
  | succ n =>
    cases ss with
    | nil => rfl
    | cons s rest =>
      simp only [execList]
      split
      · rename_i u st1 heq
        have h1 : st1.curr = st.curr := by
          have := c7_execStmt_restores_environment n st s
          rw [heq] at this
          exact this
        exact (execList_curr n st1 rest).trans h1
      · rename_i e2 st1 heq
        have := c7_execStmt_restores_environment n st s
        rw [heq] at this
        exact this
      · rename_i r2 st1 heq
        have := c7_execStmt_restores_environment n st s
        rw [heq] at this
        exact this

/-- `executeBlock` restores the previous pointer on every exit path — this is
the `finally` of `Interpreter.executeBlock`. -/
theorem executeBlock_curr (n : Nat) (st : St) (stmts : List Stmt) (envId : Nat) :
    ((executeBlock n st stmts envId).2).curr = st.curr := by
  cases n with
  | zero => rfl
  | succ n =>
    simp only [executeBlock]

end

/-- Acyclicity of the environment heap: every enclosing link points to an
earlier frame.  Every state the interpreter reaches satisfies this, because
frames are only ever appended with an existing frame as `enclosing`. -/
def WfFrames (h : List Frame) : Prop :=
  ∀ i j, (frameAt h i).enclosing = some j → j < i

/-- Length of the enclosing chain starting at frame `i`, fuel-indexed. -/
def chainLenAux : Nat → List Frame → Nat → Nat
  | 0, _, _ => 0
  | f + 1, h, i =>
    match (frameAt h i).enclosing with
    | none => 0
    | some j => chainLenAux f h j + 1

/-- Length of the enclosing chain of frame `i` (on an acyclic heap, `i + 1`
fuel always suffices). -/
def chainLen (h : List Frame) (i : Nat) : Nat := chainLenAux (i + 1) h i

/-- On an acyclic heap, any fuel above the frame id computes the same chain
length. -/
theorem chainLenAux_stable (h : List Frame) (hwf : WfFrames h) :
    ∀ (i f : Nat), i < f → chainLenAux f h i = chainLen h i := by
  intro i
  induction i using Nat.strong_induction_on with
  | _ i ih =>
    intro f hif
    match f with
    | f' + 1 =>
      unfold chainLen
      cases henc : (frameAt h i).enclosing with
      | none => simp [chainLenAux, henc]
      | some j =>
        have hji : j < i := hwf i j henc
        have e1 : chainLenAux (f' + 1) h i = chainLenAux f' h j + 1 := by
          simp [chainLenAux, henc]
        have e2 : chainLenAux (i + 1) h i = chainLenAux i h j + 1 := by
          simp [chainLenAux, henc]
        rw [e1, e2, ih j hji f' (by omega), ih j hji i hji]

/-- On an acyclic heap, walking strictly more hops than the chain has links
yields nothing. -/
theorem ancestor_none (h : List Frame) (hwf : WfFrames h) :
    ∀ (d i : Nat), chainLen h i < d → ancestor h i d = none := by
  intro d
  induction d with
  | zero => intro i hd; omega
  | succ d ih =>
    intro i hd
    unfold ancestor
    cases henc : (frameAt h i).enclosing with
    | none => simp
    | some j =>
      have hji : j < i := hwf i j henc
      have hch : chainLen h i = chainLen h j + 1 := by
        have e2 : chainLenAux (i + 1) h i = chainLenAux i h j + 1 := by
          simp [chainLenAux, henc]
        unfold chainLen
        rw [e2, chainLenAux_stable h hwf j i hji]
        rfl
      simp only [henc]
      exact ih j (by omega)

/-- C9: `Environment.getAt` and `Environment.assignAt` are total for every
depth — both are plain functions here, mirroring that the source never
throws on the depth walk — and when the depth exceeds the length of the
enclosing chain the `#ancestor` walk yields nothing, `getAt` returns the JS
`undefined` (`none`) and `assignAt` leaves every environment in the chain
unchanged. -/
theorem c9_getAt_assignAt_total (h : List Frame) (i d : Nat) (name : String) (v : Val)
    (hwf : WfFrames h) (hd : chainLen h i < d) :
    ancestor h i d = none ∧ getAt h i d name = none ∧ assignAt h i d name v = h := by
  have ha := ancestor_none h hwf d i hd
  refine ⟨ha, ?_, ?_⟩
  · unfold getAt
    rw [ha]
  · unfold assignAt
    rw [ha]

/-- A two-frame heap: frame 1 encloses the root frame 0. -/
def c9heap : List Frame := [⟨[("a", .vnum 1)], none⟩, ⟨[], some 0⟩]

/-- Concrete run of the C9 theorem: depth 2 from frame 1 over-runs its
one-link chain. -/
theorem c9_getAt_assignAt_total_witness :
    ancestor c9heap 1 2 = none ∧ getAt c9heap 1 2 "a" = none ∧
      assignAt c9heap 1 2 "a" (.vnum 7) = c9heap := by
  refine c9_getAt_assignAt_total c9heap 1 2 "a" (.vnum 7) ?_ (by decide)
  intro i j hj
  match i with
  | 0 => simp [c9heap, frameAt, List.getD] at hj
  | 1 =>
    simp [c9heap, frameAt, List.getD] at hj
    omega
  | k + 2 => simp [c9heap, frameAt, List.getD] at hj

/-- One enclosing hop, as a function on optional environment ids. -/
def hop (h : List Frame) (o : Option Nat) : Option Nat :=
  o.bind fun k => (frameAt h k).enclosing

/-- A failed walk stays failed. -/
theorem hop_iterate_none (h : List Frame) (d : Nat) : (hop h)^[d] none = none := by
  induction d with
  | zero => rfl
  | succ d ih =>
    rw [Function.iterate_succ_apply]
    exact ih

/-- `Environment.#ancestor(d)` is exactly `d` applications of the enclosing
hop. -/
theorem ancestor_iterate (h : List Frame) :
    ∀ (d i : Nat), ancestor h i d = (hop h)^[d] (some i) := by
  intro d
  induction d with
  | zero => intro i; rfl
  | succ d ih =>
    intro i
    unfold ancestor
    rw [Function.iterate_succ_apply]
    cases henc : (frameAt h i).enclosing with
    | none =>
      rw [show hop h (some i) = none from by simp [hop, henc]]
      exact (hop_iterate_none h d).symm
    | some j =>
      rw [show hop h (some i) = some j from by simp [hop, henc]]
      exact ih j

/-- C1: evaluating a `Variable` (or `This`) expression reads through
`lookUpVariable`, and the spec-modelled `Super` evaluation reads its `super`
binding the same way (conjuncts 4-6); when the resolver recorded a depth for
the node, the value is the binding found in the ancestor environment exactly
that many enclosing hops from the current environment (JS `undefined` when
the walk or the map lookup misses) (conjunct 1); when no depth was recorded,
the value is read from the globals frame, and an undefined name there raises
the "Undefined variable" runtime error (conjuncts 2-3). -/
theorem c1_variable_lookup_depth_rule :
    (∀ (st : St) (id : Nat) (name : Token) (d : Nat),
      numGet st.locals id = some d →
      lookUpVariable st id name =
        (match ((hop st.frames)^[d] (some st.curr)).bind
            (fun j => alGet (frameAt st.frames j).values name.lexeme) with
          | some v => .ok v
          | none => .ok .vundef)) ∧
    (∀ (st : St) (id : Nat) (name : Token),
      numGet st.locals id = none →
      (frameAt st.frames 0).enclosing = none →
      lookUpVariable st id name =
        (match alGet (frameAt st.frames 0).values name.lexeme with
          | some v => .ok v
          | none => .err (.undefinedVariable name))) ∧
    (∀ (st : St) (id : Nat) (name : Token),
      numGet st.locals id = none →
      (frameAt st.frames 0).enclosing = none →
      alGet (frameAt st.frames 0).values name.lexeme = none →
      lookUpVariable st id name = .err (.undefinedVariable name)) ∧
    (∀ (n : Nat) (st : St) (id : Nat) (name : Token),
      evalExpr (n + 1) st (.variableE id name) = (lookUpVariable st id name, st)) ∧
    (∀ (n : Nat) (st : St) (id : Nat) (kw : Token),
      evalExpr (n + 1) st (.thisE id kw) = (lookUpVariable st id kw, st)) ∧
    (∀ (n : Nat) (st : St) (id : Nat) (kw method : Token) (e : RErr),
      lookUpVariable st id kw = .err e →
      evalExpr (n + 1) st (.superE id kw method) = (.err e, st)) := by
  have hchar : ∀ (st : St) (id : Nat) (name : Token) (d : Nat),
      numGet st.locals id = some d →
      lookUpVariable st id name =
        (match ((hop st.frames)^[d] (some st.curr)).bind
            (fun j => alGet (frameAt st.frames j).values name.lexeme) with
          | some v => .ok v
          | none => .ok .vundef) := by
    intro st id name d hd
    unfold lookUpVariable
    split
    · rename_i d' hd'
      rw [hd'] at hd
      injection hd with hdd
      subst hdd
      unfold getAt
      rw [ancestor_iterate]
      cases hit : (hop st.frames)^[d'] (some st.curr) with
      | none => rfl
      | some j => rfl
    · rename_i hd'
      rw [hd'] at hd
      cases hd
  have hglob : ∀ (st : St) (id : Nat) (name : Token),
      numGet st.locals id = none →
      (frameAt st.frames 0).enclosing = none →
      lookUpVariable st id name =
        (match alGet (frameAt st.frames 0).values name.lexeme with
          | some v => .ok v
          | none => .err (.undefinedVariable name)) := by
    intro st id name hd h0
    unfold lookUpVariable
    split
    · rename_i d' hd'
      rw [hd'] at hd
      cases hd
    · unfold envGet envGetAux
      cases hv : alGet (frameAt st.frames 0).values name.lexeme with
      | some v => rfl
      | none => rw [h0]
  refine ⟨hchar, hglob, ?_, ?_, ?_, ?_⟩
  · intro st id name hd h0 hv
    rw [hglob st id name hd h0, hv]
  · intro n st id name
    rfl
  · intro n st id kw
    rfl
  · intro n st id kw method e he
    simp only [evalExpr]
    rw [he]

/-- State for the C1 witness: globals (frame 0) bind `x`; frame 1 encloses
it; the current environment is frame 1; node 5 resolved at depth 1. -/
def c1st : St :=
  { frames := [⟨[("x", .vnum 1)], none⟩, ⟨[("y", .vnum 2)], some 0⟩],
    curr := 1, locals := [(5, 1)] }

/-- Concrete runs of the C1 theorem: a depth-1 local read, a globals read,
an undefined-globals error, and the three dispatch equations. -/
theorem c1_variable_lookup_depth_rule_witness :
    lookUpVariable c1st 5 (tokW .IDENTIFIER "x") =
      (match ((hop c1st.frames)^[1] (some c1st.curr)).bind
          (fun j => alGet (frameAt c1st.frames j).values "x") with
        | some v => .ok v
        | none => .ok .vundef) ∧
    lookUpVariable c1st 9 (tokW .IDENTIFIER "x") =
      (match alGet (frameAt c1st.frames 0).values "x" with
        | some v => .ok v
        | none => .err (.undefinedVariable (tokW .IDENTIFIER "x"))) ∧
    lookUpVariable c1st 9 (tokW .IDENTIFIER "zz") =
      .err (.undefinedVariable (tokW .IDENTIFIER "zz")) ∧
    evalExpr 3 c1st (.variableE 5 (tokW .IDENTIFIER "x")) =
      (lookUpVariable c1st 5 (tokW .IDENTIFIER "x"), c1st) ∧
    evalExpr 3 c1st (.thisE 5 (tokW .THIS "this")) =
      (lookUpVariable c1st 5 (tokW .THIS "this"), c1st) ∧
    evalExpr 3 c1st (.superE 9 (tokW .SUPER "super") (tokW .IDENTIFIER "m")) =
      (.err (.undefinedVariable (tokW .SUPER "super")), c1st) :=
  ⟨c1_variable_lookup_depth_rule.1 c1st 5 (tokW .IDENTIFIER "x") 1 rfl,
   c1_variable_lookup_depth_rule.2.1 c1st 9 (tokW .IDENTIFIER "x") rfl rfl,
   c1_variable_lookup_depth_rule.2.2.1 c1st 9 (tokW .IDENTIFIER "zz") rfl rfl rfl,
   c1_variable_lookup_depth_rule.2.2.2.1 2 c1st 5 (tokW .IDENTIFIER "x"),
   c1_variable_lookup_depth_rule.2.2.2.2.1 2 c1st 5 (tokW .THIS "this"),
   c1_variable_lookup_depth_rule.2.2.2.2.2 2 c1st 9 (tokW .SUPER "super")
     (tokW .IDENTIFIER "m") (.undefinedVariable (tokW .SUPER "super")) rfl⟩

/-- `Function.call` never lets the `Return` unwind escape: every invocation
yields a normal value or a runtime error. -/
theorem callFunction_no_ret (n : Nat) (st : St) (f : FunVal) (args : List Val) :
    ∀ v, (callFunction n st f args).1 ≠ .ret v := by
  intro v
  cases n with
  | zero => simp [callFunction]
  | succ n =>
    simp only [callFunction]
    split
    · split <;> simp
    · split <;> simp
    · simp

/-- C3: (1) `bind` produces a function whose fresh closure frame binds `this`
to the given receiver and preserves `isInitializer`; (2) an invocation of an
`init` method (`isInit = true`) whose closure binds `this` to instance `i` in
the final state returns that instance — both on the early-`return` path and
on fall-through — unless a runtime error escaped the body; (3) `Class.call`
returns the newly constructed instance (the next instance id) whenever the
optional `init` invocation does not raise, so evaluating `C()` yields the new
instance. -/
theorem c3_init_returns_this :
    (∀ (st : St) (m : FunVal) (tv : Val),
      alGet (frameAt ((bindFun st m tv).2).frames ((bindFun st m tv).1).closure).values "this"
          = some tv ∧
      ((bindFun st m tv).1).isInit = m.isInit ∧
      (frameAt ((bindFun st m tv).2).frames ((bindFun st m tv).1).closure).enclosing
          = some m.closure) ∧
    (∀ (n : Nat) (st : St) (f : FunVal) (args : List Val) (i : Nat) (r : Outcome Unit) (st3 : St),
      f.isInit = true →
      executeBlock n
          (defineParams { st with frames := st.frames ++ [⟨[], some f.closure⟩] }
            st.frames.length f.decl.params args)
          f.decl.body st.frames.length = (r, st3) →
      alGet (frameAt st3.frames f.closure).values "this" = some (.vinst i) →
      (callFunction (n + 1) st f args).1 = .ok (.vinst i) ∨
        ∃ e, (callFunction (n + 1) st f args).1 = .err e) ∧
    (∀ (n : Nat) (st : St) (c : ClassVal) (args : List Val),
      (classCall (n + 1) st c args).1 = .ok (.vinst st.insts.length) ∨
        ∃ e, (classCall (n + 1) st c args).1 = .err e) := by
  refine ⟨?_, ?_, ?_⟩
  · intro st m tv
    refine ⟨?_, rfl, ?_⟩
    · simp [bindFun, frameAt, alGet, FunVal.closure, List.getElem?_concat_length]
    · simp [bindFun, frameAt, FunVal.closure, List.getElem?_concat_length]
  · intro n st f args i r st3 hinit hEB hthis
    simp only [callFunction]
    rw [hEB]
    cases r with
    | ok u =>
      left
      rw [hinit]
      simp [getAt, ancestor, hthis]
    | ret v =>
      left
      rw [hinit]
      simp [getAt, ancestor, hthis]
    | err e2 =>
      exact Or.inr ⟨e2, rfl⟩
  · intro n st c args
    simp only [classCall]
    split
    · rename_i m heq
      split
      · rename_i u st3 heq2
        exact Or.inl rfl
      · rename_i e2 st3 heq2
        exact Or.inr ⟨e2, rfl⟩
      · rename_i r2 st3 heq2
        exact absurd (congrArg Prod.fst heq2) (by
          intro hx
          exact callFunction_no_ret n _ _ args r2 (by rw [hx]))
    · exact Or.inl rfl

/-- The `init` method `init() { return; }` of the witness class. -/
def c3initFun : FunVal :=
  ⟨⟨tokW .IDENTIFIER "init", [],
    [.returnStmt (tokW .RETURN "return") (.literal .lnil)]⟩, 0, true⟩

/-- The witness class `class C { init() { return; } }`. -/
def c3class : ClassVal := ⟨"C", none, [("init", c3initFun)]⟩

/-- Initial state for the C3 witness: just the globals frame. -/
def c3st : St := { frames := [⟨[], none⟩] }

/-- Concrete runs of the C3 theorem: binding preserves the flag and binds
`this`; the early-returning `init`, bound to instance 0, returns instance 0;
and `C()` yields the newly constructed instance. -/
theorem c3_init_returns_this_witness :
    (alGet (frameAt ((bindFun c3st c3initFun (.vinst 0)).2).frames
        ((bindFun c3st c3initFun (.vinst 0)).1).closure).values "this"
        = some (.vinst 0) ∧
      ((bindFun c3st c3initFun (.vinst 0)).1).isInit = c3initFun.isInit ∧
      (frameAt ((bindFun c3st c3initFun (.vinst 0)).2).frames
        ((bindFun c3st c3initFun (.vinst 0)).1).closure).enclosing
        = some c3initFun.closure) ∧
    (let bf := (bindFun c3st c3initFun (.vinst 0)).1
     let stB := (bindFun c3st c3initFun (.vinst 0)).2
     (callFunction 9 stB bf []).1 = .ok (.vinst 0) ∨
       ∃ e, (callFunction 9 stB bf []).1 = .err e) ∧
    ((classCall 9 c3st c3class []).1 = .ok (.vinst c3st.insts.length) ∨
      ∃ e, (classCall 9 c3st c3class []).1 = .err e) :=
  ⟨c3_init_returns_this.1 c3st c3initFun (.vinst 0),
   c3_init_returns_this.2.1 8 (bindFun c3st c3initFun (.vinst 0)).2
     (bindFun c3st c3initFun (.vinst 0)).1 [] 0 _ _ rfl rfl rfl,
   c3_init_returns_this.2.2 8 c3st c3class []⟩

/-- Transposition of two environment ids.  Renaming along it expresses that
the choice of a fresh frame id is observationally irrelevant (the "two
distinct bound methods behave alike" argument). -/
def swp (p q i : Nat) : Nat := if i = p then q else if i = q then p else i

/-- `swp` is an involution. -/
theorem swp_swp (p q i : Nat) : swp p q (swp p q i) = i := by
  unfold swp
  by_cases hip : i = p <;> by_cases hiq : i = q <;> simp [hip, hiq]

/-- `swp` fixes ids different from both transposed points. -/
theorem swp_id (p q i : Nat) (hp : i ≠ p) (hq : i ≠ q) : swp p q i = i := by
  simp [swp, hp, hq]

/-- `swp` fixes everything at or above both points. -/
theorem swp_id_of_le (p q i : Nat) (hp : p < i) (hq : q < i) : swp p q i = i :=
  swp_id p q i (by omega) (by omega)

/-- Renaming of a function value. -/
def renameFun (p q : Nat) (f : FunVal) : FunVal := ⟨f.decl, swp p q f.closure, f.isInit⟩

/-- Renaming of a class value (the method closures and the superclass chain). -/
def renameClass (p q : Nat) : ClassVal → ClassVal
  | .mk nm sup ms =>
    .mk nm
      (match sup with
      | some s => some (renameClass p q s)
      | none => none)
      (ms.map fun kv => (kv.1, renameFun p q kv.2))

/-- Renaming of a runtime value (instance ids are a separate namespace and
stay fixed). -/
def renameVal (p q : Nat) : Val → Val
  | .vfun f => .vfun (renameFun p q f)
  | .vclass c => .vclass (renameClass p q c)
  | v => v

/-- Renaming of a name-to-value map. -/
def renameVals (p q : Nat) (m : List (String × Val)) : List (String × Val) :=
  m.map fun kv => (kv.1, renameVal p q kv.2)

/-- Renaming of one frame's contents. -/
def renameFrame (p q : Nat) (fr : Frame) : Frame :=
  ⟨renameVals p q fr.values, fr.enclosing.map (swp p q)⟩

/-- Renaming of one instance's contents. -/
def renameInst (p q : Nat) (d : InstData) : InstData :=
  ⟨renameClass p q d.klass, renameVals p q d.fields⟩

/-- Transposition of two heap positions. -/
def permSwap (p q : Nat) (h : List Frame) : List Frame :=
  (h.set p (frameAt h q)).set q (frameAt h p)

/-- The whole frame-heap renaming: transpose positions `p`, `q`, then rename
every stored id. -/
def renameFrames (p q : Nat) (h : List Frame) : List Frame :=
  (permSwap p q h).map (renameFrame p q)

/-- The whole state renaming. -/
def renameSt (p q : Nat) (st : St) : St :=
  { frames := renameFrames p q st.frames,
    insts := st.insts.map (renameInst p q),
    curr := swp p q st.curr,
    locals := st.locals,
    output := st.output }

/-- Renaming of a value outcome. -/
def renameOut (p q : Nat) : Outcome Val → Outcome Val
  | .ok v => .ok (renameVal p q v)
  | .ret v => .ret (renameVal p q v)
  | .err e => .err e

/-- Renaming of a unit outcome (a thrown `Return` still carries a value). -/
def renameOutU (p q : Nat) : Outcome Unit → Outcome Unit
  | .ok u => .ok u
  | .ret v => .ret (renameVal p q v)
  | .err e => .err e

/-- Renaming of a value-list outcome. -/
def renameOutL (p q : Nat) : Outcome (List Val) → Outcome (List Val)
  | .ok vs => .ok (vs.map (renameVal p q))
  | .ret v => .ret (renameVal p q v)
  | .err e => .err e

/-- Renaming preserves heap size. -/
@[simp] theorem renameFrames_length (p q : Nat) (h : List Frame) :
    (renameFrames p q h).length = h.length := by
  simp [renameFrames, permSwap]

/-- `swp` keeps ids below a bound (that is above both transposed points)
below that bound. -/
theorem swp_lt (p q i k : Nat) (hp : p < k) (hq : q < k) (hi : i < k) : swp p q i < k := by
  unfold swp
  split
  · omega
  · split <;> omega

/-- `getElem?` characterization of the renamed heap: position `t` of the
renamed heap holds the renamed original frame from position `swp p q t`. -/
theorem renameFrames_getElem (p q : Nat) (h : List Frame) (hp : p < h.length)
    (hq : q < h.length) (t : Nat) :
    (renameFrames p q h)[t]? = (h[swp p q t]?).map (renameFrame p q) := by
  unfold renameFrames permSwap
  rw [List.getElem?_map]
  congr 1
  unfold frameAt
  by_cases htq : t = q
  · rw [htq]
    rw [List.getElem?_set_eq_of_lt _ (by simpa using hq)]
    have hswp : swp p q q = p := by
      unfold swp
      by_cases hqp : q = p <;> simp [hqp]
    rw [hswp, List.getElem?_eq_getElem hp]
    rw [List.getD_eq_getElem?_getD, List.getElem?_eq_getElem hp]
    rfl
  · rw [List.getElem?_set_ne (fun e => htq e.symm)]
    by_cases htp : t = p
    · rw [htp]
      rw [List.getElem?_set_eq_of_lt _ hp]
      have hswp : swp p q p = q := by unfold swp; simp
      rw [hswp, List.getElem?_eq_getElem hq]
      rw [List.getD_eq_getElem?_getD, List.getElem?_eq_getElem hq]
      rfl
    · rw [List.getElem?_set_ne (fun e => htp e.symm)]
      rw [swp_id p q t htp htq]

/-- Reading the renamed heap at a transposed position gives the renamed
original frame (positions at or beyond the heap read the default frame,
which renames to itself). -/
theorem frameAt_rename (p q : Nat) (h : List Frame) (hp : p < h.length) (hq : q < h.length)
    (i : Nat) :
    frameAt (renameFrames p q h) (swp p q i) = renameFrame p q (frameAt h i) := by
  have hkey := renameFrames_getElem p q h hp hq (swp p q i)
  rw [swp_swp] at hkey
  unfold frameAt
  rw [List.getD_eq_getElem?_getD, hkey, List.getD_eq_getElem?_getD]
  cases hv : h[i]? with
  | none => rfl
  | some fr => rfl

/-- Renaming commutes with writing one frame. -/
theorem renameFrames_set (p q : Nat) (h : List Frame) (hp : p < h.length) (hq : q < h.length)
    (i : Nat) (fr : Frame) :
    renameFrames p q (h.set i fr)
      = (renameFrames p q h).set (swp p q i) (renameFrame p q fr) := by
  by_cases hil : i < h.length
  · apply List.ext_getElem?
    intro t
    have hp2 : p < (h.set i fr).length := by simpa using hp
    have hq2 : q < (h.set i fr).length := by simpa using hq
    rw [renameFrames_getElem p q _ hp2 hq2 t]
    by_cases hts : swp p q t = i
    · have ht : t = swp p q i := by rw [← hts, swp_swp]
      have hsw : swp p q i < h.length := swp_lt p q i h.length hp hq hil
      rw [hts, List.getElem?_set_eq_of_lt _ hil]
      rw [ht, List.getElem?_set_eq_of_lt _ (by simpa using hsw)]
      rfl
    · have htne : t ≠ swp p q i := fun e => hts (by rw [e, swp_swp])
      rw [List.getElem?_set_ne (fun e => hts e.symm), List.getElem?_set_ne (Ne.symm htne)]
      rw [renameFrames_getElem p q h hp hq t]
  · have hi1 : h.set i fr = h := List.set_eq_of_length_le (by omega)
    have hswp : swp p q i = i := swp_id p q i (by omega) (by omega)
    have hi2 : (renameFrames p q h).set (swp p q i) (renameFrame p q fr)
        = renameFrames p q h := by
      rw [hswp]
      exact List.set_eq_of_length_le (by rw [renameFrames_length]; omega)
    rw [hi1, hi2]

/-- Renaming commutes with allocating one frame at the top of the heap. -/
theorem renameFrames_append (p q : Nat) (h : List Frame) (hp : p < h.length)
    (hq : q < h.length) (fr : Frame) :
    renameFrames p q (h ++ [fr]) = renameFrames p q h ++ [renameFrame p q fr] := by
  apply List.ext_getElem?
  intro t
  have hlen : (h ++ [fr]).length = h.length + 1 := by
    simp only [List.length_append, List.length_cons, List.length_nil]
  have hp2 : p < (h ++ [fr]).length := by omega
  have hq2 : q < (h ++ [fr]).length := by omega
  rw [renameFrames_getElem p q _ hp2 hq2 t]
  by_cases htl : t < h.length
  · have hsw : swp p q t < h.length := swp_lt p q t h.length hp hq htl
    rw [List.getElem?_append_left hsw,
      List.getElem?_append_left (by rw [renameFrames_length]; omega)]
    rw [renameFrames_getElem p q h hp hq t]
  · have hswt : swp p q t = t := swp_id p q t (by omega) (by omega)
    rw [hswt]
    rw [List.getElem?_append_right (by omega : h.length ≤ t)]
    rw [List.getElem?_append_right (by rw [renameFrames_length]; omega)]
    rw [renameFrames_length]
    cases hd : t - h.length with
    | zero => rfl
    | succ k => rfl

/-- Projection: renaming a state renames the frame heap. -/
@[simp] theorem renameSt_frames (p q : Nat) (st : St) :
    (renameSt p q st).frames = renameFrames p q st.frames := rfl

/-- Projection: renaming a state renames every instance. -/
@[simp] theorem renameSt_insts (p q : Nat) (st : St) :
    (renameSt p q st).insts = st.insts.map (renameInst p q) := rfl

/-- Projection: renaming a state transposes the current pointer. -/
@[simp] theorem renameSt_curr (p q : Nat) (st : St) :
    (renameSt p q st).curr = swp p q st.curr := rfl

/-- Projection: renaming a state keeps the resolver side-table. -/
@[simp] theorem renameSt_locals (p q : Nat) (st : St) :
    (renameSt p q st).locals = st.locals := rfl

/-- Projection: renaming a state keeps the output stream. -/
@[simp] theorem renameSt_output (p q : Nat) (st : St) :
    (renameSt p q st).output = st.output := rfl

/-- Projection: renaming a frame renames its values map. -/
@[simp] theorem renameFrame_values (p q : Nat) (fr : Frame) :
    (renameFrame p q fr).values = renameVals p q fr.values := rfl

/-- Projection: renaming a frame transposes its enclosing link. -/
@[simp] theorem renameFrame_enclosing (p q : Nat) (fr : Frame) :
    (renameFrame p q fr).enclosing = fr.enclosing.map (swp p q) := rfl

/-- Projection: renaming a function value keeps the declaration. -/
@[simp] theorem renameFun_decl (p q : Nat) (f : FunVal) :
    (renameFun p q f).decl = f.decl := rfl

/-- Projection: renaming a function value transposes the closure id. -/
@[simp] theorem renameFun_closure (p q : Nat) (f : FunVal) :
    (renameFun p q f).closure = swp p q f.closure := rfl

/-- Projection: renaming a function value keeps the initializer flag. -/
@[simp] theorem renameFun_isInit (p q : Nat) (f : FunVal) :
    (renameFun p q f).isInit = f.isInit := rfl

/-- Projection: renaming a class value keeps its name. -/
@[simp] theorem renameClass_name (p q : Nat) (c : ClassVal) :
    (renameClass p q c).name = c.name := by
  cases c
  rw [renameClass.eq_def]
  rfl

/-- Projection: renaming an instance renames its class. -/
@[simp] theorem renameInst_klass (p q : Nat) (d : InstData) :
    (renameInst p q d).klass = renameClass p q d.klass := rfl

/-- Projection: renaming an instance renames its fields map. -/
@[simp] theorem renameInst_fields (p q : Nat) (d : InstData) :
    (renameInst p q d).fields = renameVals p q d.fields := rfl

/-- `Map.get` over a value-mapped association list. -/
theorem alGet_map {β γ : Type} (f : β → γ) (m : List (String × β)) (k : String) :
    alGet (m.map fun kv => (kv.1, f kv.2)) k = (alGet m k).map f := by
  induction m with
  | nil => rfl
  | cons kv rest ih =>
    obtain ⟨k1, v1⟩ := kv
    simp only [List.map_cons, alGet]
    by_cases hk : k1 = k
    · rw [if_pos hk, if_pos hk]
      rfl
    · rw [if_neg hk, if_neg hk]
      exact ih

/-- `Map.set` over a value-mapped association list. -/
theorem alSet_map {β γ : Type} (f : β → γ) (m : List (String × β)) (k : String) (v : β) :
    alSet (m.map fun kv => (kv.1, f kv.2)) k (f v)
      = (alSet m k v).map fun kv => (kv.1, f kv.2) := by
  induction m with
  | nil => rfl
  | cons kv rest ih =>
    obtain ⟨k1, v1⟩ := kv
    simp only [List.map_cons, alSet]
    by_cases hk : k1 = k
    · rw [if_pos hk, if_pos hk, List.map_cons]
    · rw [if_neg hk, if_neg hk, List.map_cons, ih]

/-- Reads through a renamed values map are renamed reads. -/
theorem alGet_renameVals (p q : Nat) (m : List (String × Val)) (k : String) :
    alGet (renameVals p q m) k = (alGet m k).map (renameVal p q) :=
  alGet_map (renameVal p q) m k

/-- Writes commute with renaming the values map. -/
theorem alSet_renameVals (p q : Nat) (m : List (String × Val)) (k : String) (v : Val) :
    alSet (renameVals p q m) k (renameVal p q v) = renameVals p q (alSet m k v) :=
  alSet_map (renameVal p q) m k v

/-- Reads through a renamed instance heap are renamed reads. -/
theorem instAt_rename (p q : Nat) (st : St) (i : Nat) :
    instAt (renameSt p q st) i = renameInst p q (instAt st i) := by
  unfold instAt
  show (st.insts.map (renameInst p q)).getD i ⟨⟨"", none, []⟩, []⟩
    = renameInst p q (st.insts.getD i ⟨⟨"", none, []⟩, []⟩)
  rw [List.getD_eq_getElem?_getD, List.getElem?_map, List.getD_eq_getElem?_getD]
  cases hv : st.insts[i]? with
  | none => rfl
  | some d => rfl

/-- One-step unfolding of `renameClass` on a constructor. -/
theorem renameClass_mk (p q : Nat) (nm : String) (sup : Option ClassVal)
    (ms : List (String × FunVal)) :
    renameClass p q (.mk nm sup ms)
      = .mk nm (sup.map (renameClass p q)) (ms.map fun kv => (kv.1, renameFun p q kv.2)) := by
  rw [renameClass.eq_def]
  cases sup <;> rfl

/-- `findMethod` on a renamed class finds the renamed method. -/
theorem findMethod_rename (p q : Nat) (c : ClassVal) (name : String) :
    findMethod (renameClass p q c) name = (findMethod c name).map (renameFun p q) := by
  induction c, name using findMethod.induct with
  | case1 =>
    rename_i nm sup ms name m hget
    have hmap0 := alGet_map (renameFun p q) ms name
    rw [hget] at hmap0
    have hmap : alGet (ms.map fun kv => (kv.1, renameFun p q kv.2)) name
        = some (renameFun p q m) := hmap0.trans rfl
    rw [renameClass_mk, findMethod.eq_1 _ _ _ _ _ hmap, findMethod.eq_1 _ _ _ _ _ hget]
    rfl
  | case2 =>
    rename_i nm ms name s hget ih
    have hmap0 := alGet_map (renameFun p q) ms name
    rw [hget] at hmap0
    have hmap : alGet (ms.map fun kv => (kv.1, renameFun p q kv.2)) name = none :=
      hmap0.trans rfl
    rw [renameClass_mk, Option.map_some', findMethod.eq_2 _ _ _ _ hmap,
      findMethod.eq_2 _ _ _ _ hget]
    exact ih
  | case3 =>
    rename_i nm ms name hget
    have hmap0 := alGet_map (renameFun p q) ms name
    rw [hget] at hmap0
    have hmap : alGet (ms.map fun kv => (kv.1, renameFun p q kv.2)) name = none :=
      hmap0.trans rfl
    rw [renameClass_mk, Option.map_none', findMethod.eq_3 _ _ _ hmap,
      findMethod.eq_3 _ _ _ hget]
    rfl

/-- Arity is invariant under renaming (user functions). -/
theorem funArity_rename (p q : Nat) (f : FunVal) : funArity (renameFun p q f) = funArity f :=
  rfl

/-- Arity is invariant under renaming (classes). -/
theorem classArity_rename (p q : Nat) (c : ClassVal) :
    classArity (renameClass p q c) = classArity c := by
  unfold classArity
  rw [findMethod_rename]
  cases findMethod c "init" <;> rfl

/-- Arity is invariant under renaming (any value). -/
theorem valArity_rename (p q : Nat) (v : Val) : valArity (renameVal p q v) = valArity v := by
  cases v with
  | vnil => rfl
  | vbool b => rfl
  | vnum x => rfl
  | vstr s => rfl
  | vfun f => rfl
  | vclass c => exact classArity_rename p q c
  | vinst i => rfl
  | vclock => rfl
  | vundef => rfl

/-- Truthiness ignores environment ids. -/
theorem isTruthy_rename (p q : Nat) (v : Val) : isTruthy (renameVal p q v) = isTruthy v := by
  cases v <;> rfl

/-- Callability ignores environment ids. -/
theorem isCallable_rename (p q : Nat) (v : Val) :
    isCallable (renameVal p q v) = isCallable v := by
  cases v <;> rfl

/-- `===` ignores environment ids (callables compare to `false` either way). -/
theorem valEq_rename (p q : Nat) (a b : Val) :
    valEq (renameVal p q a) (renameVal p q b) = valEq a b := by
  cases a <;> cases b <;> rfl

/-- Literal values carry no environment ids. -/
theorem litToVal_rename (p q : Nat) (l : LoxLit) : renameVal p q (litToVal l) = litToVal l := by
  cases l <;> rfl

/-- The `undefined`-defaulted read of an optional value commutes with
renaming. -/
theorem getD_rename (p q : Nat) (o : Option Val) :
    (o.map (renameVal p q)).getD .vundef = renameVal p q (o.getD .vundef) := by
  cases o <;> rfl

/-- `stringify` is invariant under renaming. -/
theorem stringifyVal_rename (p q : Nat) (st : St) (v : Val) :
    stringifyVal (renameSt p q st) (renameVal p q v) = stringifyVal st v := by
  cases v with
  | vnil => rfl
  | vbool b => rfl
  | vnum x => rfl
  | vstr s => rfl
  | vfun f => rfl
  | vclass c =>
    show (renameClass p q c).name = c.name
    exact renameClass_name p q c
  | vinst i =>
    show (instAt (renameSt p q st) i).klass.name ++ " instance"
      = (instAt st i).klass.name ++ " instance"
    rw [instAt_rename, renameInst_klass, renameClass_name]
  | vclock => rfl
  | vundef => rfl

/-- The binary-operator dispatch commutes with renaming (its results carry no
environment ids). -/
theorem binaryOp_rename (p q : Nat) (op : Token) (l r : Val) :
    binaryOp op (renameVal p q l) (renameVal p q r) = renameOut p q (binaryOp op l r) := by
  unfold binaryOp
  cases hop : op.type <;> cases l <;> cases r <;> rfl

/-- `define` keeps the heap size. -/
@[simp] theorem defineIn_frames_length (st : St) (i : Nat) (k : String) (v : Val) :
    (defineIn st i k v).frames.length = st.frames.length := by
  unfold defineIn
  exact List.length_set st.frames i _

/-- `Environment.define` commutes with renaming. -/
theorem defineIn_rename (p q : Nat) (st : St) (hp : p < st.frames.length)
    (hq : q < st.frames.length) (i : Nat) (k : String) (v : Val) :
    defineIn (renameSt p q st) (swp p q i) k (renameVal p q v)
      = renameSt p q (defineIn st i k v) := by
  unfold defineIn
  congr 1
  rw [renameSt_frames, renameFrames_set p q st.frames hp hq]
  congr 1
  rw [frameAt_rename p q st.frames hp hq i]
  show Frame.mk
      (alSet (renameVals p q (frameAt st.frames i).values) k (renameVal p q v))
      ((frameAt st.frames i).enclosing.map (swp p q))
    = Frame.mk
      (renameVals p q (alSet (frameAt st.frames i).values k v))
      ((frameAt st.frames i).enclosing.map (swp p q))
  rw [alSet_renameVals]

/-- The `Environment.get` chain walk commutes with renaming. -/
theorem envGetAux_rename (p q : Nat) (fuel : Nat) (h : List Frame) (hp : p < h.length)
    (hq : q < h.length) (i : Nat) (name : Token) :
    envGetAux fuel (renameFrames p q h) (swp p q i) name
      = renameOut p q (envGetAux fuel h i name) := by
  induction fuel generalizing i with
  | zero => rfl
  | succ fuel ih =>
    rw [envGetAux, envGetAux]
    rw [frameAt_rename p q h hp hq i, renameFrame_values, alGet_renameVals]
    cases hg : alGet (frameAt h i).values name.lexeme with
    | some v => rfl
    | none =>
      rw [renameFrame_enclosing]
      cases he : (frameAt h i).enclosing with
      | some j => exact ih j
      | none => rfl

/-- `Environment.get` commutes with renaming. -/
theorem envGet_rename (p q : Nat) (st : St) (hp : p < st.frames.length)
    (hq : q < st.frames.length) (i : Nat) (name : Token) :
    envGet (renameSt p q st) (swp p q i) name = renameOut p q (envGet st i name) := by
  unfold envGet
  rw [renameSt_frames, renameFrames_length]
  exact envGetAux_rename p q (st.frames.length + 1) st.frames hp hq i name

/-- The `Environment.assign` chain walk commutes with renaming. -/
theorem envAssignAux_rename (p q : Nat) (fuel : Nat) (st : St) (hp : p < st.frames.length)
    (hq : q < st.frames.length) (i : Nat) (name : Token) (v : Val) :
    envAssignAux fuel (renameSt p q st) (swp p q i) name (renameVal p q v)
      = (renameOutU p q (envAssignAux fuel st i name v).1,
         renameSt p q (envAssignAux fuel st i name v).2) := by
  induction fuel generalizing i with
  | zero => rfl
  | succ fuel ih =>
    rw [envAssignAux, envAssignAux, renameSt_frames, frameAt_rename p q st.frames hp hq i,
      renameFrame_values]
    cases hg : alGet (frameAt st.frames i).values name.lexeme with
    | some w =>
      have hc1 : (alGet (renameVals p q (frameAt st.frames i).values) name.lexeme).isSome
          = true := by
        rw [alGet_renameVals, hg]
        rfl
      rw [if_pos hc1, if_pos (show (some w).isSome = true from rfl),
        defineIn_rename p q st hp hq i name.lexeme v]
      rfl
    | none =>
      have hc1 : ¬(alGet (renameVals p q (frameAt st.frames i).values) name.lexeme).isSome
          = true := by
        rw [alGet_renameVals, hg]
        exact Bool.false_ne_true
      rw [if_neg hc1, if_neg (show ¬(none : Option Val).isSome = true from Bool.false_ne_true),
        renameFrame_enclosing]
      cases he : (frameAt st.frames i).enclosing with
      | some j => exact ih j
      | none => rfl

/-- `Environment.assign` commutes with renaming. -/
theorem envAssign_rename (p q : Nat) (st : St) (hp : p < st.frames.length)
    (hq : q < st.frames.length) (i : Nat) (name : Token) (v : Val) :
    envAssign (renameSt p q st) (swp p q i) name (renameVal p q v)
      = (renameOutU p q (envAssign st i name v).1,
         renameSt p q (envAssign st i name v).2) := by
  unfold envAssign
  rw [renameSt_frames, renameFrames_length]
  exact envAssignAux_rename p q (st.frames.length + 1) st hp hq i name v

/-- `Environment.#ancestor` commutes with renaming of the heap. -/
theorem ancestor_rename (p q : Nat) (h : List Frame) (hp : p < h.length)
    (hq : q < h.length) (i d : Nat) :
    ancestor (renameFrames p q h) (swp p q i) d = (ancestor h i d).map (swp p q) := by
  induction d generalizing i with
  | zero => rfl
  | succ d ih =>
    rw [ancestor, ancestor]
    rw [frameAt_rename p q h hp hq i, renameFrame_enclosing]
    cases he : (frameAt h i).enclosing with
    | none => rfl
    | some j => exact ih j

/-- `Environment.getAt` commutes with renaming. -/
theorem getAt_rename (p q : Nat) (h : List Frame) (hp : p < h.length)
    (hq : q < h.length) (i d : Nat) (name : String) :
    getAt (renameFrames p q h) (swp p q i) d name
      = (getAt h i d name).map (renameVal p q) := by
  unfold getAt
  rw [ancestor_rename p q h hp hq i d]
  cases ha : ancestor h i d with
  | none => rfl
  | some j =>
    show alGet (frameAt (renameFrames p q h) (swp p q j)).values name
      = (alGet (frameAt h j).values name).map (renameVal p q)
    rw [frameAt_rename p q h hp hq j, renameFrame_values, alGet_renameVals]

/-- `Environment.assignAt` commutes with renaming. -/
theorem assignAt_rename (p q : Nat) (h : List Frame) (hp : p < h.length)
    (hq : q < h.length) (i d : Nat) (name : String) (v : Val) :
    assignAt (renameFrames p q h) (swp p q i) d name (renameVal p q v)
      = renameFrames p q (assignAt h i d name v) := by
  unfold assignAt
  rw [ancestor_rename p q h hp hq i d]
  cases ha : ancestor h i d with
  | none => rfl
  | some j =>
    show (renameFrames p q h).set (swp p q j)
        { frameAt (renameFrames p q h) (swp p q j) with
          values := alSet (frameAt (renameFrames p q h) (swp p q j)).values name
            (renameVal p q v) }
      = renameFrames p q
          (h.set j { frameAt h j with values := alSet (frameAt h j).values name v })
    rw [renameFrames_set p q h hp hq j, frameAt_rename p q h hp hq j]
    congr 1
    show Frame.mk
        (alSet (renameVals p q (frameAt h j).values) name (renameVal p q v))
        ((frameAt h j).enclosing.map (swp p q))
      = Frame.mk
        (renameVals p q (alSet (frameAt h j).values name v))
        ((frameAt h j).enclosing.map (swp p q))
    rw [alSet_renameVals]

/-- The depth-rule variable read commutes with renaming (the globals frame 0
is fixed because both transposed ids are positive). -/
theorem lookUpVariable_rename (p q : Nat) (st : St) (hp0 : 0 < p) (hq0 : 0 < q)
    (hp : p < st.frames.length) (hq : q < st.frames.length) (id : Nat) (name : Token) :
    lookUpVariable (renameSt p q st) id name = renameOut p q (lookUpVariable st id name) := by
  unfold lookUpVariable
  rw [renameSt_locals]
  cases hn : numGet st.locals id with
  | some d =>
    show (match getAt (renameFrames p q st.frames) (swp p q st.curr) d name.lexeme with
          | some v => Outcome.ok v
          | none => Outcome.ok Val.vundef)
        = renameOut p q (match getAt st.frames st.curr d name.lexeme with
          | some v => Outcome.ok v
          | none => Outcome.ok Val.vundef)
    rw [getAt_rename p q st.frames hp hq st.curr d name.lexeme]
    cases getAt st.frames st.curr d name.lexeme with
    | some v => rfl
    | none => rfl
  | none =>
    show envGet (renameSt p q st) 0 name = renameOut p q (envGet st 0 name)
    have h0 : (0 : Nat) = swp p q 0 := (swp_id p q 0 (by omega) (by omega)).symm
    conv_lhs => rw [h0]
    exact envGet_rename p q st hp hq 0 name

/-- The depth-rule assignment commutes with renaming. -/
theorem assignVariable_rename (p q : Nat) (st : St) (hp0 : 0 < p) (hq0 : 0 < q)
    (hp : p < st.frames.length) (hq : q < st.frames.length) (id : Nat) (name : Token)
    (v : Val) :
    assignVariable (renameSt p q st) id name (renameVal p q v)
      = (renameOutU p q (assignVariable st id name v).1,
         renameSt p q (assignVariable st id name v).2) := by
  unfold assignVariable
  rw [renameSt_locals]
  cases hn : numGet st.locals id with
  | some d =>
    show ((Outcome.ok ()),
        ({ renameSt p q st with
           frames := assignAt (renameFrames p q st.frames) (swp p q st.curr) d name.lexeme
             (renameVal p q v) } : St))
      = ((Outcome.ok ()),
        renameSt p q { st with frames := assignAt st.frames st.curr d name.lexeme v })
    rw [assignAt_rename p q st.frames hp hq st.curr d name.lexeme v]
    rfl
  | none =>
    show envAssign (renameSt p q st) 0 name (renameVal p q v)
      = (renameOutU p q (envAssign st 0 name v).1, renameSt p q (envAssign st 0 name v).2)
    have h0 : (0 : Nat) = swp p q 0 := (swp_id p q 0 (by omega) (by omega)).symm
    conv_lhs => rw [h0]
    exact envAssign_rename p q st hp hq 0 name v

/-- `Function.bind` commutes with renaming: the fresh frame id (the current
heap size) is fixed by the transposition. -/
theorem bindFun_rename (p q : Nat) (st : St) (hp : p < st.frames.length)
    (hq : q < st.frames.length) (f : FunVal) (tv : Val) :
    bindFun (renameSt p q st) (renameFun p q f) (renameVal p q tv)
      = (renameFun p q (bindFun st f tv).1, renameSt p q (bindFun st f tv).2) := by
  have hL : swp p q st.frames.length = st.frames.length :=
    swp_id_of_le p q st.frames.length hp hq
  have hFr : renameFrames p q (st.frames ++ [⟨[("this", tv)], some f.closure⟩])
      = renameFrames p q st.frames
        ++ [⟨[("this", renameVal p q tv)], some (swp p q f.closure)⟩] := by
    rw [renameFrames_append p q st.frames hp hq]
    rfl
  show (FunVal.mk f.decl (renameFrames p q st.frames).length f.isInit,
      St.mk
        (renameFrames p q st.frames
          ++ [⟨[("this", renameVal p q tv)], some (swp p q f.closure)⟩])
        (st.insts.map (renameInst p q)) (swp p q st.curr) st.locals st.output)
    = (FunVal.mk f.decl (swp p q st.frames.length) f.isInit,
      St.mk (renameFrames p q (st.frames ++ [⟨[("this", tv)], some f.closure⟩]))
        (st.insts.map (renameInst p q)) (swp p q st.curr) st.locals st.output)
  rw [renameFrames_length, hL, hFr]

/-- `Instance.get` commutes with renaming. -/
theorem instanceGet_rename (p q : Nat) (st : St) (hp : p < st.frames.length)
    (hq : q < st.frames.length) (i : Nat) (name : Token) :
    instanceGet (renameSt p q st) i name
      = (renameOut p q (instanceGet st i name).1, renameSt p q (instanceGet st i name).2) := by
  unfold instanceGet
  rw [instAt_rename, renameInst_fields, alGet_renameVals]
  cases hf : alGet (instAt st i).fields name.lexeme with
  | some v => rfl
  | none =>
    rw [renameInst_klass, findMethod_rename]
    cases hm : findMethod (instAt st i).klass name.lexeme with
    | none => rfl
    | some m =>
      have hb : bindFun (renameSt p q st) (renameFun p q m) (.vinst i)
          = (renameFun p q (bindFun st m (.vinst i)).1,
             renameSt p q (bindFun st m (.vinst i)).2) :=
        bindFun_rename p q st hp hq m (.vinst i)
      show (match bindFun (renameSt p q st) (renameFun p q m) (.vinst i) with
            | (bf, stB) => (Outcome.ok (Val.vfun bf), stB))
        = (renameOut p q (Outcome.ok (Val.vfun (bindFun st m (.vinst i)).1)),
           renameSt p q (bindFun st m (.vinst i)).2)
      rw [hb]
      rfl

/-- `Instance.set` commutes with renaming. -/
theorem instanceSet_rename (p q : Nat) (st : St) (i : Nat) (name : Token) (v : Val) :
    instanceSet (renameSt p q st) i name (renameVal p q v)
      = renameSt p q (instanceSet st i name v) := by
  unfold instanceSet
  congr 1
  have hX : ({ instAt (renameSt p q st) i with
      fields := alSet (instAt (renameSt p q st) i).fields name.lexeme (renameVal p q v) }
        : InstData)
      = renameInst p q { instAt st i with
          fields := alSet (instAt st i).fields name.lexeme v } := by
    rw [instAt_rename]
    show InstData.mk (renameClass p q (instAt st i).klass)
        (alSet (renameVals p q (instAt st i).fields) name.lexeme (renameVal p q v))
      = InstData.mk (renameClass p q (instAt st i).klass)
        (renameVals p q (alSet (instAt st i).fields name.lexeme v))
    rw [alSet_renameVals]
  rw [renameSt_insts, hX]
  exact List.set_map

/-- Parameter binding commutes with renaming. -/
theorem defineParams_rename (p q : Nat) (envId : Nat) (ps : List Token) :
    ∀ (st : St), p < st.frames.length → q < st.frames.length → ∀ (args : List Val),
      defineParams (renameSt p q st) (swp p q envId) ps (args.map (renameVal p q))
        = renameSt p q (defineParams st envId ps args) := by
  induction ps with
  | nil =>
    intro st hp hq args
    rfl
  | cons pt ps ih =>
    intro st hp hq args
    rw [defineParams, defineParams]
    have hhead : (args.map (renameVal p q)).headD .vundef
        = renameVal p q (args.headD .vundef) := by
      cases args <;> rfl
    have htail : (args.map (renameVal p q)).tailD [] = (args.tailD []).map (renameVal p q) := by
      cases args <;> rfl
    rw [hhead, htail, defineIn_rename p q st hp hq envId pt.lexeme (args.headD .vundef)]
    exact ih (defineIn st envId pt.lexeme (args.headD .vundef))
      (by rw [defineIn_frames_length]; exact hp) (by rw [defineIn_frames_length]; exact hq)
      (args.tailD [])

/-- `assignAt` keeps the heap size. -/
theorem assignAt_length (h : List Frame) (i d : Nat) (name : String) (v : Val) :
    (assignAt h i d name v).length = h.length := by
  unfold assignAt
  cases ha : ancestor h i d with
  | none => rfl
  | some j => exact List.length_set h j _

/-- The `Environment.assign` walk keeps the heap size. -/
theorem envAssignAux_frames_length (fuel : Nat) (st : St) (i : Nat) (name : Token) (v : Val) :
    ((envAssignAux fuel st i name v).2).frames.length = st.frames.length := by
  induction fuel generalizing i with
  | zero => rfl
  | succ fuel ih =>
    rw [envAssignAux]
    by_cases hc : (alGet (frameAt st.frames i).values name.lexeme).isSome = true
    · rw [if_pos hc]
      exact defineIn_frames_length st i name.lexeme v
    · rw [if_neg hc]
      cases he : (frameAt st.frames i).enclosing with
      | some j => exact ih j
      | none => rfl

/-- `Environment.assign` keeps the heap size. -/
theorem envAssign_frames_length (st : St) (i : Nat) (name : Token) (v : Val) :
    ((envAssign st i name v).2).frames.length = st.frames.length :=
  envAssignAux_frames_length _ st i name v

/-- The depth-rule assignment keeps the heap size. -/
theorem assignVariable_frames_length (st : St) (id : Nat) (name : Token) (v : Val) :
    ((assignVariable st id name v).2).frames.length = st.frames.length := by
  unfold assignVariable
  cases hn : numGet st.locals id with
  | some d => exact assignAt_length st.frames st.curr d name.lexeme v
  | none => exact envAssign_frames_length st 0 name v

/-- `bind` allocates exactly one frame. -/
theorem bindFun_frames_length (st : St) (f : FunVal) (tv : Val) :
    ((bindFun st f tv).2).frames.length = st.frames.length + 1 := by
  show (st.frames ++ [(⟨[("this", tv)], some f.closure⟩ : Frame)]).length
    = st.frames.length + 1
  simp

/-- `Instance.get` never shrinks the heap. -/
theorem instanceGet_flen (st : St) (i : Nat) (name : Token) :
    st.frames.length ≤ ((instanceGet st i name).2).frames.length := by
  unfold instanceGet
  cases hf : alGet (instAt st i).fields name.lexeme with
  | some v => exact Nat.le_refl _
  | none =>
    cases hm : findMethod (instAt st i).klass name.lexeme with
    | some m =>
      have hb := bindFun_frames_length st m (.vinst i)
      show st.frames.length ≤ ((bindFun st m (.vinst i)).2).frames.length
      omega
    | none => exact Nat.le_refl _

/-- `Instance.set` keeps the frame heap. -/
theorem instanceSet_frames (st : St) (i : Nat) (name : Token) (v : Val) :
    (instanceSet st i name v).frames = st.frames := rfl

/-- Parameter binding keeps the heap size. -/
theorem defineParams_frames_length (envId : Nat) (ps : List Token) :
    ∀ (st : St) (args : List Val),
      (defineParams st envId ps args).frames.length = st.frames.length := by
  induction ps with
  | nil =>
    intro st args
    rfl
  | cons pt ps ih =>
    intro st args
    rw [defineParams]
    exact (ih (defineIn st envId pt.lexeme (args.headD .vundef)) (args.tailD [])).trans
      (defineIn_frames_length st envId pt.lexeme (args.headD .vundef))

set_option maxHeartbeats 1600000

mutual

/-- Expression evaluation never shrinks the frame heap. -/
theorem evalExpr_flen (n : Nat) (st : St) (e : Expr) :
    st.frames.length ≤ ((evalExpr n st e).2).frames.length := by
  cases n with
  | zero => exact Nat.le_refl _
  | succ n =>
    cases e with
    | literal l => exact Nat.le_refl _
    | grouping e1 => exact evalExpr_flen n st e1
    | variableE id name => exact Nat.le_refl _
    | thisE id kw => exact Nat.le_refl _
    | assign id name value =>
      simp only [evalExpr]
      split
      · rename_i v st1 heq
        have h1 : st.frames.length ≤ st1.frames.length := by
          have := evalExpr_flen n st value
          rw [heq] at this
          exact this
        split
        · rename_i u st2 heq2
          have h2 : st2.frames.length = st1.frames.length := by
            have := assignVariable_frames_length st1 id name v
            rw [heq2] at this
            exact this
          exact h1.trans (Nat.le_of_eq h2.symm)
        · rename_i e2 st2 heq2
          have h2 : st2.frames.length = st1.frames.length := by
            have := assignVariable_frames_length st1 id name v
            rw [heq2] at this
            exact this
          exact h1.trans (Nat.le_of_eq h2.symm)
        · rename_i r2 st2 heq2
          have h2 : st2.frames.length = st1.frames.length := by
            have := assignVariable_frames_length st1 id name v
            rw [heq2] at this
            exact this
          exact h1.trans (Nat.le_of_eq h2.symm)
      · rename_i hne
        exact evalExpr_flen n st value
    | unary op e1 =>
      simp only [evalExpr]
      split
      · rename_i v st1 heq
        have h1 : st.frames.length ≤ st1.frames.length := by
          have := evalExpr_flen n st e1
          rw [heq] at this
          exact this
        split
        · exact h1
        · split <;> exact h1
        · exact h1
      · rename_i hne
        exact evalExpr_flen n st e1
    | binary l op r =>
      simp only [evalExpr]
      split
      · rename_i lv st1 heq
        have h1 : st.frames.length ≤ st1.frames.length := by
          have := evalExpr_flen n st l
          rw [heq] at this
          exact this
        split
        · rename_i rv st2 heq2
          have h2 : st1.frames.length ≤ st2.frames.length := by
            have := evalExpr_flen n st1 r
            rw [heq2] at this
            exact this
          exact h1.trans h2
        · rename_i hne2
          exact h1.trans (evalExpr_flen n st1 r)
      · rename_i hne
        exact evalExpr_flen n st l
    | logical l op r =>
      simp only [evalExpr]
      split
      · rename_i lv st1 heq
        have h1 : st.frames.length ≤ st1.frames.length := by
          have := evalExpr_flen n st l
          rw [heq] at this
          exact this
        split
        · exact h1
        · exact h1.trans (evalExpr_flen n st1 r)
      · rename_i hne
        exact evalExpr_flen n st l
    | call callee paren args =>
      simp only [evalExpr]
      split
      · rename_i cv st1 heq
        have h1 : st.frames.length ≤ st1.frames.length := by
          have := evalExpr_flen n st callee
          rw [heq] at this
          exact this
        split
        · rename_i avs st2 heq2
          have h2 : st1.frames.length ≤ st2.frames.length := by
            have := evalArgs_flen n st1 args
            rw [heq2] at this
            exact this
          split
          · exact h1.trans h2
          · split
            · exact h1.trans h2
            · exact (h1.trans h2).trans (callVal_flen n st2 cv avs)
        · rename_i e2 st2 heq2
          have h2 : st1.frames.length ≤ st2.frames.length := by
            have := evalArgs_flen n st1 args
            rw [heq2] at this
            exact this
          exact h1.trans h2
        · rename_i r2 st2 heq2
          have h2 : st1.frames.length ≤ st2.frames.length := by
            have := evalArgs_flen n st1 args
            rw [heq2] at this
            exact this
          exact h1.trans h2
      · rename_i hne
        exact evalExpr_flen n st callee
    | get obj name =>
      simp only [evalExpr]
      split
      · rename_i ov st1 heq
        have h1 : st.frames.length ≤ st1.frames.length := by
          have := evalExpr_flen n st obj
          rw [heq] at this
          exact this
        split
        · rename_i i
          exact h1.trans (instanceGet_flen st1 i name)
        · exact h1
      · rename_i hne
        exact evalExpr_flen n st obj
    | set obj name value =>
      simp only [evalExpr]
      split
      · rename_i ov st1 heq
        have h1 : st.frames.length ≤ st1.frames.length := by
          have := evalExpr_flen n st obj
          rw [heq] at this
          exact this
        split
        · rename_i i
          split
          · rename_i v st2 heq2
            have h2 : st1.frames.length ≤ st2.frames.length := by
              have := evalExpr_flen n st1 value
              rw [heq2] at this
              exact this
            exact h1.trans h2
          · rename_i hne2
            exact h1.trans (evalExpr_flen n st1 value)
        · exact h1
      · rename_i hne
        exact evalExpr_flen n st obj
    | superE id kw method =>
      simp only [evalExpr]
      split
      · split
        · split
          · rename_i m hm
            have hb := bindFun_frames_length st m
              (match numGet st.locals id with
               | some d => (getAt st.frames st.curr (d - 1) "this").getD .vundef
               | none => .vundef)
            show st.frames.length ≤ ((bindFun st m
              (match numGet st.locals id with
               | some d => (getAt st.frames st.curr (d - 1) "this").getD .vundef
               | none => .vundef)).2).frames.length
            omega
          · exact Nat.le_refl _
        · exact Nat.le_refl _
      · exact Nat.le_refl _
      · exact Nat.le_refl _

/-- Argument evaluation never shrinks the frame heap. -/
theorem evalArgs_flen (n : Nat) (st : St) (es : List Expr) :
    st.frames.length ≤ ((evalArgs n st es).2).frames.length := by
  cases n with
  | zero => exact Nat.le_refl _
  | succ n =>
    cases es with
    | nil => exact Nat.le_refl _
    | cons e rest =>
      simp only [evalArgs]
      split
      · rename_i v st1 heq
        have h1 : st.frames.length ≤ st1.frames.length := by
          have := evalExpr_flen n st e
          rw [heq] at this
          exact this
        split
        · rename_i vs st2 heq2
          have h2 : st1.frames.length ≤ st2.frames.length := by
            have := evalArgs_flen n st1 rest
            rw [heq2] at this
            exact this
          exact h1.trans h2
        · rename_i e2 st2 heq2
          have h2 : st1.frames.length ≤ st2.frames.length := by
            have := evalArgs_flen n st1 rest
            rw [heq2] at this
            exact this
          exact h1.trans h2
        · rename_i r2 st2 heq2
          have h2 : st1.frames.length ≤ st2.frames.length := by
            have := evalArgs_flen n st1 rest
            rw [heq2] at this
            exact this
          exact h1.trans h2
      · rename_i e2 st1 heq
        have h1 : st.frames.length ≤ st1.frames.length := by
          have := evalExpr_flen n st e
          rw [heq] at this
          exact this
        exact h1
      · rename_i r2 st1 heq
        have h1 : st.frames.length ≤ st1.frames.length := by
          have := evalExpr_flen n st e
          rw [heq] at this
          exact this
        exact h1

/-- Callable dispatch never shrinks the frame heap. -/
theorem callVal_flen (n : Nat) (st : St) (cv : Val) (args : List Val) :
    st.frames.length ≤ ((callVal n st cv args).2).frames.length := by
  cases n with
  | zero => exact Nat.le_refl _
  | succ n =>
    cases cv with
    | vclock => exact Nat.le_refl _
    | vfun f => exact callFunction_flen n st f args
    | vclass c => exact classCall_flen n st c args
    | vnil => exact Nat.le_refl _
    | vbool b => exact Nat.le_refl _
    | vnum x => exact Nat.le_refl _
    | vstr s => exact Nat.le_refl _
    | vinst i => exact Nat.le_refl _
    | vundef => exact Nat.le_refl _

/-- `Function.call` never shrinks the frame heap. -/
theorem callFunction_flen (n : Nat) (st : St) (f : FunVal) (args : List Val) :
    st.frames.length ≤ ((callFunction n st f args).2).frames.length := by
  cases n with
  | zero => exact Nat.le_refl _
  | succ n =>
    simp only [callFunction]
    have hbase :
        st.frames.length ≤ ((executeBlock n
          (defineParams { st with frames := st.frames ++ [⟨[], some f.closure⟩] }
            st.frames.length f.decl.params args) f.decl.body st.frames.length).2).frames.length := by
      have h1 := executeBlock_flen n
        (defineParams { st with frames := st.frames ++ [⟨[], some f.closure⟩] }
          st.frames.length f.decl.params args) f.decl.body st.frames.length
      have h2 := defineParams_frames_length st.frames.length f.decl.params
        { st with frames := st.frames ++ [⟨[], some f.closure⟩] } args
      have h3 : ({ st with frames := st.frames ++ [⟨[], some f.closure⟩] } : St).frames.length
          = st.frames.length + 1 := by
        show (st.frames ++ [(⟨[], some f.closure⟩ : Frame)]).length = st.frames.length + 1
        simp
      omega
    split
    · rename_i v st3 heq
      rw [heq] at hbase
      split <;> exact hbase
    · rename_i u st3 heq
      rw [heq] at hbase
      split <;> exact hbase
    · rename_i e2 st3 heq
      rw [heq] at hbase
      exact hbase

/-- `Class.call` never shrinks the frame heap. -/
theorem classCall_flen (n : Nat) (st : St) (c : ClassVal) (args : List Val) :
    st.frames.length ≤ ((classCall n st c args).2).frames.length := by
  cases n with
  | zero => exact Nat.le_refl _
  | succ n =>
    simp only [classCall]
    split
    · rename_i m heq
      have hbase :
          st.frames.length ≤ ((callFunction n
            (bindFun { st with insts := st.insts ++ [⟨c, []⟩] } m (.vinst st.insts.length)).2
            ((bindFun { st with insts := st.insts ++ [⟨c, []⟩] } m (.vinst st.insts.length)).1)
            args).2).frames.length := by
        have h1 := callFunction_flen n
          (bindFun { st with insts := st.insts ++ [⟨c, []⟩] } m (.vinst st.insts.length)).2
          ((bindFun { st with insts := st.insts ++ [⟨c, []⟩] } m (.vinst st.insts.length)).1)
          args
        have h2 := bindFun_frames_length { st with insts := st.insts ++ [⟨c, []⟩] } m
          (.vinst st.insts.length)
        have h3 : ({ st with insts := st.insts ++ [⟨c, []⟩] } : St).frames.length
            = st.frames.length := rfl
        omega
      split
      · rename_i u st3 heq2
        rw [heq2] at hbase
        exact hbase
      · rename_i e2 st3 heq2
        rw [heq2] at hbase
        exact hbase
      · rename_i r2 st3 heq2
        rw [heq2] at hbase
        exact hbase
    · exact Nat.le_refl _

/-- Statement execution never shrinks the frame heap. -/
theorem execStmt_flen (n : Nat) (st : St) (s : Stmt) :
    st.frames.length ≤ ((execStmt n st s).2).frames.length := by
  cases n with
  | zero => exact Nat.le_refl _
  | succ n =>
    cases s with
    | expression e =>
      simp only [execStmt]
      split
      · rename_i v st1 heq
        have := evalExpr_flen n st e
        rw [heq] at this
        exact this
      · rename_i e2 st1 heq
        have := evalExpr_flen n st e
        rw [heq] at this
        exact this
      · rename_i r2 st1 heq
        have := evalExpr_flen n st e
        rw [heq] at this
        exact this
    | print e =>
      simp only [execStmt]
      split
      · rename_i v st1 heq
        have := evalExpr_flen n st e
        rw [heq] at this
        exact this
      · rename_i e2 st1 heq
        have := evalExpr_flen n st e
        rw [heq] at this
        exact this
      · rename_i r2 st1 heq
        have := evalExpr_flen n st e
        rw [heq] at this
        exact this
    | varStmt name init =>
      simp only [execStmt]
      split
      · rename_i e
        split
        · rename_i v st1 heq
          have h1 : st.frames.length ≤ st1.frames.length := by
            have := evalExpr_flen n st e
            rw [heq] at this
            exact this
          exact h1.trans (Nat.le_of_eq (defineIn_frames_length st1 st1.curr name.lexeme v).symm)
        · rename_i e2 st1 heq
          have := evalExpr_flen n st e
          rw [heq] at this
          exact this
        · rename_i r2 st1 heq
          have := evalExpr_flen n st e
          rw [heq] at this
          exact this
      · exact Nat.le_of_eq (defineIn_frames_length st st.curr name.lexeme .vnil).symm
    | functionStmt f =>
      exact Nat.le_of_eq (defineIn_frames_length st st.curr f.name.lexeme _).symm
    | returnStmt kw value =>
      simp only [execStmt]
      split
      · rename_i v st1 heq
        have := evalExpr_flen n st value
        rw [heq] at this
        exact this
      · rename_i e2 st1 heq
        have := evalExpr_flen n st value
        rw [heq] at this
        exact this
      · rename_i r2 st1 heq
        have := evalExpr_flen n st value
        rw [heq] at this
        exact this
    | block stmts =>
      simp only [execStmt]
      have h1 := executeBlock_flen n { st with frames := st.frames ++ [⟨[], some st.curr⟩] }
        stmts st.frames.length
      have h2 : ({ st with frames := st.frames ++ [⟨[], some st.curr⟩] } : St).frames.length
          = st.frames.length + 1 := by
        show (st.frames ++ [(⟨[], some st.curr⟩ : Frame)]).length = st.frames.length + 1
        simp
      omega
    | ifStmt c t e =>
      simp only [execStmt]
      split
      · rename_i cv st1 heq
        have h1 : st.frames.length ≤ st1.frames.length := by
          have := evalExpr_flen n st c
          rw [heq] at this
          exact this
        split
        · exact h1.trans (execStmt_flen n st1 t)
        · split
          · rename_i s2
            exact h1.trans (execStmt_flen n st1 s2)
          · exact h1
      · rename_i e2 st1 heq
        have := evalExpr_flen n st c
        rw [heq] at this
        exact this
      · rename_i r2 st1 heq
        have := evalExpr_flen n st c
        rw [heq] at this
        exact this
    | whileStmt c b =>
      simp only [execStmt]
      split
      · rename_i cv st1 heq
        have h1 : st.frames.length ≤ st1.frames.length := by
          have := evalExpr_flen n st c
          rw [heq] at this
          exact this
        split
        · split
          · rename_i u st2 heq2
            have h2 : st1.frames.length ≤ st2.frames.length := by
              have := execStmt_flen n st1 b
              rw [heq2] at this
              exact this
            exact (h1.trans h2).trans (execStmt_flen n st2 (.whileStmt c b))
          · rename_i e2 st2 heq2
            have h2 : st1.frames.length ≤ st2.frames.length := by
              have := execStmt_flen n st1 b
              rw [heq2] at this
              exact this
            exact h1.trans h2
          · rename_i r2 st2 heq2
            have h2 : st1.frames.length ≤ st2.frames.length := by
              have := execStmt_flen n st1 b
              rw [heq2] at this
              exact this
            exact h1.trans h2
        · exact h1
      · rename_i e2 st1 heq
        have := evalExpr_flen n st c
        rw [heq] at this
        exact this
      · rename_i r2 st1 heq
        have := evalExpr_flen n st c
        rw [heq] at this
        exact this
    | classStmt name methods superclass =>
      simp only [execStmt]
      split
      · rename_i supE
        split
        · rename_i sv st1 heq
          have h1 : st.frames.length ≤ st1.frames.length := by
            have := evalExpr_flen n (defineIn st st.curr name.lexeme .vnil) supE
            rw [heq] at this
            exact (Nat.le_of_eq
              (defineIn_frames_length st st.curr name.lexeme .vnil).symm).trans this
          split
          · rename_i sc
            split
            · rename_i u st3 heq2
              have h2 := congrArg (fun r => ((Prod.snd r).frames.length : Nat)) heq2
              beta_reduce at h2
              rw [envAssign_frames_length] at h2
              have h3 : ({ st1 with frames :=
                  st1.frames ++ [(⟨[("super", Val.vclass sc)], some st1.curr⟩ : Frame)] }
                    : St).frames.length = st1.frames.length + 1 := by
                show (st1.frames
                    ++ [(⟨[("super", Val.vclass sc)], some st1.curr⟩ : Frame)]).length
                  = st1.frames.length + 1
                simp
              exact h1.trans ((Nat.le_succ _).trans (Nat.le_of_eq (h3.symm.trans h2)))
            · rename_i e2 st3 heq2
              have h2 := congrArg (fun r => ((Prod.snd r).frames.length : Nat)) heq2
              beta_reduce at h2
              rw [envAssign_frames_length] at h2
              have h3 : ({ st1 with frames :=
                  st1.frames ++ [(⟨[("super", Val.vclass sc)], some st1.curr⟩ : Frame)] }
                    : St).frames.length = st1.frames.length + 1 := by
                show (st1.frames
                    ++ [(⟨[("super", Val.vclass sc)], some st1.curr⟩ : Frame)]).length
                  = st1.frames.length + 1
                simp
              exact h1.trans ((Nat.le_succ _).trans (Nat.le_of_eq (h3.symm.trans h2)))
            · rename_i r2 st3 heq2
              have h2 := congrArg (fun r => ((Prod.snd r).frames.length : Nat)) heq2
              beta_reduce at h2
              rw [envAssign_frames_length] at h2
              have h3 : ({ st1 with frames :=
                  st1.frames ++ [(⟨[("super", Val.vclass sc)], some st1.curr⟩ : Frame)] }
                    : St).frames.length = st1.frames.length + 1 := by
                show (st1.frames
                    ++ [(⟨[("super", Val.vclass sc)], some st1.curr⟩ : Frame)]).length
                  = st1.frames.length + 1
                simp
              exact h1.trans ((Nat.le_succ _).trans (Nat.le_of_eq (h3.symm.trans h2)))
          · exact h1
        · rename_i e2 st1 heq
          have := evalExpr_flen n (defineIn st st.curr name.lexeme .vnil) supE
          rw [heq] at this
          exact (Nat.le_of_eq
            (defineIn_frames_length st st.curr name.lexeme .vnil).symm).trans this
        · rename_i r2 st1 heq
          have := evalExpr_flen n (defineIn st st.curr name.lexeme .vnil) supE
          rw [heq] at this
          exact (Nat.le_of_eq
            (defineIn_frames_length st st.curr name.lexeme .vnil).symm).trans this
      · split
        · rename_i u st3 heq2
          have h2 := congrArg (fun r => ((Prod.snd r).frames.length : Nat)) heq2
          beta_reduce at h2
          rw [envAssign_frames_length] at h2
          rw [defineIn_frames_length] at h2
          exact Nat.le_of_eq h2
        · rename_i e2 st3 heq2
          have h2 := congrArg (fun r => ((Prod.snd r).frames.length : Nat)) heq2
          beta_reduce at h2
          rw [envAssign_frames_length] at h2
          rw [defineIn_frames_length] at h2
          exact Nat.le_of_eq h2
        · rename_i r2 st3 heq2
          have h2 := congrArg (fun r => ((Prod.snd r).frames.length : Nat)) heq2
          beta_reduce at h2
          rw [envAssign_frames_length] at h2
          rw [defineIn_frames_length] at h2
          exact Nat.le_of_eq h2

/-- Statement-list execution never shrinks the frame heap. -/
theorem execList_flen (n : Nat) (st : St) (ss : List Stmt) :
    st.frames.length ≤ ((execList n st ss).2).frames.length := by
  cases n with
  | zero => exact Nat.le_refl _
  | succ n =>
    cases ss with
    | nil => exact Nat.le_refl _
    | cons s rest =>
      simp only [execList]
      split
      · rename_i u st1 heq
        have h1 : st.frames.length ≤ st1.frames.length := by
          have := execStmt_flen n st s
          rw [heq] at this
          exact this
        exact h1.trans (execList_flen n st1 rest)
      · rename_i e2 st1 heq
        have := execStmt_flen n st s
        rw [heq] at this
        exact this
      · rename_i r2 st1 heq
        have := execStmt_flen n st s
        rw [heq] at this
        exact this

/-- Block execution never shrinks the frame heap. -/
theorem executeBlock_flen (n : Nat) (st : St) (stmts : List Stmt) (envId : Nat) :
    st.frames.length ≤ ((executeBlock n st stmts envId).2).frames.length := by
  cases n with
  | zero => exact Nat.le_refl _
  | succ n =>
    simp only [executeBlock]
    exact execList_flen n { st with curr := envId } stmts

end

/-- Transport an id bound through an expression evaluation. -/
theorem lt_of_eval {n : Nat} {st : St} {e : Expr} {out : Outcome Val} {st1 : St}
    (hE : evalExpr n st e = (out, st1)) {k : Nat} (hk : k < st.frames.length) :
    k < st1.frames.length := by
  have := evalExpr_flen n st e
  rw [hE] at this
  exact Nat.lt_of_lt_of_le hk this

/-- Transport an id bound through argument evaluation. -/
theorem lt_of_args {n : Nat} {st : St} {es : List Expr} {out : Outcome (List Val)} {st1 : St}
    (hE : evalArgs n st es = (out, st1)) {k : Nat} (hk : k < st.frames.length) :
    k < st1.frames.length := by
  have := evalArgs_flen n st es
  rw [hE] at this
  exact Nat.lt_of_lt_of_le hk this

/-- Transport an id bound through statement execution. -/
theorem lt_of_stmt {n : Nat} {st : St} {s : Stmt} {out : Outcome Unit} {st1 : St}
    (hE : execStmt n st s = (out, st1)) {k : Nat} (hk : k < st.frames.length) :
    k < st1.frames.length := by
  have := execStmt_flen n st s
  rw [hE] at this
  exact Nat.lt_of_lt_of_le hk this

/-- Transport an id bound through statement-list execution. -/
theorem lt_of_list {n : Nat} {st : St} {ss : List Stmt} {out : Outcome Unit} {st1 : St}
    (hE : execList n st ss = (out, st1)) {k : Nat} (hk : k < st.frames.length) :
    k < st1.frames.length := by
  have := execList_flen n st ss
  rw [hE] at this
  exact Nat.lt_of_lt_of_le hk this

/-- Transport an id bound through block execution. -/
theorem lt_of_block {n : Nat} {st : St} {ss : List Stmt} {envId : Nat} {out : Outcome Unit}
    {st1 : St} (hE : executeBlock n st ss envId = (out, st1)) {k : Nat}
    (hk : k < st.frames.length) : k < st1.frames.length := by
  have := executeBlock_flen n st ss envId
  rw [hE] at this
  exact Nat.lt_of_lt_of_le hk this

/-- Renaming the method table built by a class statement is the identity when
the shared closure id is fixed by the transposition. -/
theorem methodsMap_rename (p q : Nat) (methods : List FunDecl) (env : Nat)
    (henv : swp p q env = env) :
    (methods.map fun m => (m.name.lexeme, FunVal.mk m env (m.name.lexeme = "init"))).map
        (fun kv => (kv.1, renameFun p q kv.2))
      = methods.map fun m => (m.name.lexeme, FunVal.mk m env (m.name.lexeme = "init")) := by
  induction methods with
  | nil => rfl
  | cons m ms ih =>
    simp only [List.map_cons]
    rw [ih]
    show (m.name.lexeme, FunVal.mk m (swp p q env) (decide (m.name.lexeme = "init")))
        :: (ms.map fun m => (m.name.lexeme, FunVal.mk m env (m.name.lexeme = "init")))
      = (m.name.lexeme, FunVal.mk m env (decide (m.name.lexeme = "init")))
        :: (ms.map fun m => (m.name.lexeme, FunVal.mk m env (m.name.lexeme = "init")))
    rw [henv]

mutual

/-- Expression evaluation is equivariant under a transposition of two
positive environment ids below the heap size: running on the renamed state
yields the renamed outcome and the renamed final state. -/
theorem evalExpr_rename (n : Nat) (p q : Nat) (st : St) (e : Expr) (hp0 : 0 < p)
    (hq0 : 0 < q) (hp : p < st.frames.length) (hq : q < st.frames.length) :
    evalExpr n (renameSt p q st) e
      = (renameOut p q (evalExpr n st e).1, renameSt p q (evalExpr n st e).2) := by
  cases n with
  | zero => rfl
  | succ n =>
    cases e with
    | literal l =>
      simp only [evalExpr, renameOut]
      rw [litToVal_rename]
    | grouping e1 =>
      simp only [evalExpr]
      exact evalExpr_rename n p q st e1 hp0 hq0 hp hq
    | variableE id name =>
      simp only [evalExpr]
      rw [lookUpVariable_rename p q st hp0 hq0 hp hq id name]
    | thisE id kw =>
      simp only [evalExpr]
      rw [lookUpVariable_rename p q st hp0 hq0 hp hq id kw]
    | assign id name value =>
      simp only [evalExpr]
      have ih := evalExpr_rename n p q st value hp0 hq0 hp hq
      cases hE : evalExpr n st value with
      | mk out1 st1 =>
        rw [hE] at ih
        cases out1 with
        | ok v =>
          simp only [renameOut] at ih
          rw [ih]
          dsimp only []
          have hA := assignVariable_rename p q st1 hp0 hq0 (lt_of_eval hE hp)
            (lt_of_eval hE hq) id name v
          cases hA2 : assignVariable st1 id name v with
          | mk out2 st2 =>
            rw [hA2] at hA
            cases out2 with
            | ok u =>
              simp only [renameOutU] at hA
              rw [hA]
              rfl
            | err e2 =>
              simp only [renameOutU] at hA
              rw [hA]
              rfl
            | ret r =>
              simp only [renameOutU] at hA
              rw [hA]
              rfl
        | err e2 =>
          simp only [renameOut] at ih
          rw [ih]
          rfl
        | ret r =>
          simp only [renameOut] at ih
          rw [ih]
          rfl
    | unary op e1 =>
      simp only [evalExpr]
      have ih := evalExpr_rename n p q st e1 hp0 hq0 hp hq
      cases hE : evalExpr n st e1 with
      | mk out1 st1 =>
        rw [hE] at ih
        cases out1 with
        | ok v =>
          simp only [renameOut] at ih
          rw [ih]
          dsimp only []
          split
          · rw [isTruthy_rename]
            rfl
          · cases v <;> rfl
          · rfl
        | err e2 =>
          simp only [renameOut] at ih
          rw [ih]
          rfl
        | ret r =>
          simp only [renameOut] at ih
          rw [ih]
          rfl
    | binary l op r =>
      simp only [evalExpr]
      have ih := evalExpr_rename n p q st l hp0 hq0 hp hq
      cases hE : evalExpr n st l with
      | mk out1 st1 =>
        rw [hE] at ih
        cases out1 with
        | ok lv =>
          simp only [renameOut] at ih
          rw [ih]
          dsimp only []
          have ih2 := evalExpr_rename n p q st1 r hp0 hq0 (lt_of_eval hE hp) (lt_of_eval hE hq)
          cases hE2 : evalExpr n st1 r with
          | mk out2 st2 =>
            rw [hE2] at ih2
            cases out2 with
            | ok rv =>
              simp only [renameOut] at ih2
              rw [ih2]
              dsimp only []
              rw [binaryOp_rename]
            | err e2 =>
              simp only [renameOut] at ih2
              rw [ih2]
              rfl
            | ret r2 =>
              simp only [renameOut] at ih2
              rw [ih2]
              rfl
        | err e2 =>
          simp only [renameOut] at ih
          rw [ih]
          rfl
        | ret r2 =>
          simp only [renameOut] at ih
          rw [ih]
          rfl
    | logical l op r =>
      simp only [evalExpr]
      have ih := evalExpr_rename n p q st l hp0 hq0 hp hq
      cases hE : evalExpr n st l with
      | mk out1 st1 =>
        rw [hE] at ih
        cases out1 with
        | ok lv =>
          simp only [renameOut] at ih
          rw [ih]
          dsimp only []
          rw [isTruthy_rename]
          split
          · rfl
          · exact evalExpr_rename n p q st1 r hp0 hq0 (lt_of_eval hE hp) (lt_of_eval hE hq)
        | err e2 =>
          simp only [renameOut] at ih
          rw [ih]
          rfl
        | ret r2 =>
          simp only [renameOut] at ih
          rw [ih]
          rfl
    | call callee paren args =>
      simp only [evalExpr]
      have ih := evalExpr_rename n p q st callee hp0 hq0 hp hq
      cases hE : evalExpr n st callee with
      | mk out1 st1 =>
        rw [hE] at ih
        cases out1 with
        | ok cv =>
          simp only [renameOut] at ih
          rw [ih]
          dsimp only []
          have ih2 := evalArgs_rename n p q st1 args hp0 hq0 (lt_of_eval hE hp)
            (lt_of_eval hE hq)
          cases hE2 : evalArgs n st1 args with
          | mk out2 st2 =>
            rw [hE2] at ih2
            cases out2 with
            | ok avs =>
              simp only [renameOutL] at ih2
              rw [ih2]
              dsimp only []
              rw [isCallable_rename, valArity_rename, List.length_map]
              split
              · rfl
              · split
                · rfl
                · exact callVal_rename n p q st2 cv avs hp0 hq0
                    (lt_of_args hE2 (lt_of_eval hE hp)) (lt_of_args hE2 (lt_of_eval hE hq))
            | err e2 =>
              simp only [renameOutL] at ih2
              rw [ih2]
              rfl
            | ret r2 =>
              simp only [renameOutL] at ih2
              rw [ih2]
              rfl
        | err e2 =>
          simp only [renameOut] at ih
          rw [ih]
          rfl
        | ret r2 =>
          simp only [renameOut] at ih
          rw [ih]
          rfl
    | get obj name =>
      simp only [evalExpr]
      have ih := evalExpr_rename n p q st obj hp0 hq0 hp hq
      cases hE : evalExpr n st obj with
      | mk out1 st1 =>
        rw [hE] at ih
        cases out1 with
        | ok ov =>
          cases ov with
          | vinst i =>
            simp only [renameOut, renameVal] at ih
            rw [ih]
            dsimp only []
            exact instanceGet_rename p q st1 (lt_of_eval hE hp) (lt_of_eval hE hq) i name
          | vnil =>
            simp only [renameOut, renameVal] at ih
            rw [ih]
            rfl
          | vbool b =>
            simp only [renameOut, renameVal] at ih
            rw [ih]
            rfl
          | vnum x =>
            simp only [renameOut, renameVal] at ih
            rw [ih]
            rfl
          | vstr s2 =>
            simp only [renameOut, renameVal] at ih
            rw [ih]
            rfl
          | vfun f =>
            simp only [renameOut, renameVal] at ih
            rw [ih]
            rfl
          | vclass c =>
            simp only [renameOut, renameVal] at ih
            rw [ih]
            rfl
          | vclock =>
            simp only [renameOut, renameVal] at ih
            rw [ih]
            rfl
          | vundef =>
            simp only [renameOut, renameVal] at ih
            rw [ih]
            rfl
        | err e2 =>
          simp only [renameOut] at ih
          rw [ih]
          rfl
        | ret r2 =>
          simp only [renameOut] at ih
          rw [ih]
          rfl
    | set obj name value =>
      simp only [evalExpr]
      have ih := evalExpr_rename n p q st obj hp0 hq0 hp hq
      cases hE : evalExpr n st obj with
      | mk out1 st1 =>
        rw [hE] at ih
        cases out1 with
        | ok ov =>
          cases ov with
          | vinst i =>
            simp only [renameOut, renameVal] at ih
            rw [ih]
            dsimp only []
            have ih2 := evalExpr_rename n p q st1 value hp0 hq0 (lt_of_eval hE hp)
              (lt_of_eval hE hq)
            cases hE2 : evalExpr n st1 value with
            | mk out2 st2 =>
              rw [hE2] at ih2
              cases out2 with
              | ok v2 =>
                simp only [renameOut] at ih2
                rw [ih2]
                dsimp only []
                rw [instanceSet_rename p q st2 i name v2]
                rfl
              | err e2 =>
                simp only [renameOut] at ih2
                rw [ih2]
                rfl
              | ret r2 =>
                simp only [renameOut] at ih2
                rw [ih2]
                rfl
          | vnil =>
            simp only [renameOut, renameVal] at ih
            rw [ih]
            rfl
          | vbool b =>
            simp only [renameOut, renameVal] at ih
            rw [ih]
            rfl
          | vnum x =>
            simp only [renameOut, renameVal] at ih
            rw [ih]
            rfl
          | vstr s2 =>
            simp only [renameOut, renameVal] at ih
            rw [ih]
            rfl
          | vfun f =>
            simp only [renameOut, renameVal] at ih
            rw [ih]
            rfl
          | vclass c =>
            simp only [renameOut, renameVal] at ih
            rw [ih]
            rfl
          | vclock =>
            simp only [renameOut, renameVal] at ih
            rw [ih]
            rfl
          | vundef =>
            simp only [renameOut, renameVal] at ih
            rw [ih]
            rfl
        | err e2 =>
          simp only [renameOut] at ih
          rw [ih]
          rfl
        | ret r2 =>
          simp only [renameOut] at ih
          rw [ih]
          rfl
    | superE id kw method =>
      simp only [evalExpr]
      rw [lookUpVariable_rename p q st hp0 hq0 hp hq id kw]
      cases hLU : lookUpVariable st id kw with
      | ok sv =>
        cases sv with
        | vclass sc =>
          simp only [renameOut, renameVal]
          rw [renameSt_locals]
          cases hN : numGet st.locals id with
          | some d =>
            dsimp only []
            rw [renameSt_frames, renameSt_curr,
              getAt_rename p q st.frames hp hq st.curr (d - 1) "this", getD_rename]
            rw [findMethod_rename p q sc method.lexeme]
            cases hm : findMethod sc method.lexeme with
            | some m =>
              simp only [Option.map_some']
              have hb : bindFun (renameSt p q st) (renameFun p q m)
                  (renameVal p q ((getAt st.frames st.curr (d - 1) "this").getD .vundef))
                  = (renameFun p q
                      (bindFun st m ((getAt st.frames st.curr (d - 1) "this").getD .vundef)).1,
                     renameSt p q
                      (bindFun st m ((getAt st.frames st.curr (d - 1) "this").getD .vundef)).2) :=
                bindFun_rename p q st hp hq m _
              rw [hb]
            | none =>
              simp only [Option.map_none']
          | none =>
            dsimp only []
            rw [findMethod_rename p q sc method.lexeme]
            cases hm : findMethod sc method.lexeme with
            | some m =>
              simp only [Option.map_some']
              have hb : bindFun (renameSt p q st) (renameFun p q m) .vundef
                  = (renameFun p q (bindFun st m .vundef).1,
                     renameSt p q (bindFun st m .vundef).2) :=
                bindFun_rename p q st hp hq m .vundef
              rw [hb]
            | none =>
              simp only [Option.map_none']
        | vnil => rfl
        | vbool b => rfl
        | vnum x => rfl
        | vstr s2 => rfl
        | vfun f => rfl
        | vinst i => rfl
        | vclock => rfl
        | vundef => rfl
      | err e2 => rfl
      | ret r2 => rfl

/-- Argument evaluation is equivariant under renaming. -/
theorem evalArgs_rename (n : Nat) (p q : Nat) (st : St) (es : List Expr) (hp0 : 0 < p)
    (hq0 : 0 < q) (hp : p < st.frames.length) (hq : q < st.frames.length) :
    evalArgs n (renameSt p q st) es
      = (renameOutL p q (evalArgs n st es).1, renameSt p q (evalArgs n st es).2) := by
  cases n with
  | zero => rfl
  | succ n =>
    cases es with
    | nil => rfl
    | cons e rest =>
      simp only [evalArgs]
      have ih := evalExpr_rename n p q st e hp0 hq0 hp hq
      cases hE : evalExpr n st e with
      | mk out1 st1 =>
        rw [hE] at ih
        cases out1 with
        | ok v =>
          simp only [renameOut] at ih
          rw [ih]
          dsimp only []
          have ih2 := evalArgs_rename n p q st1 rest hp0 hq0 (lt_of_eval hE hp)
            (lt_of_eval hE hq)
          cases hE2 : evalArgs n st1 rest with
          | mk out2 st2 =>
            rw [hE2] at ih2
            cases out2 with
            | ok vs =>
              simp only [renameOutL] at ih2
              rw [ih2]
              rfl
            | err e2 =>
              simp only [renameOutL] at ih2
              rw [ih2]
              rfl
            | ret r2 =>
              simp only [renameOutL] at ih2
              rw [ih2]
              rfl
        | err e2 =>
          simp only [renameOut] at ih
          rw [ih]
          rfl
        | ret r2 =>
          simp only [renameOut] at ih
          rw [ih]
          rfl

/-- Callable dispatch is equivariant under renaming. -/
theorem callVal_rename (n : Nat) (p q : Nat) (st : St) (cv : Val) (args : List Val)
    (hp0 : 0 < p) (hq0 : 0 < q) (hp : p < st.frames.length) (hq : q < st.frames.length) :
    callVal n (renameSt p q st) (renameVal p q cv) (args.map (renameVal p q))
      = (renameOut p q (callVal n st cv args).1, renameSt p q (callVal n st cv args).2) := by
  cases n with
  | zero => rfl
  | succ n =>
    cases cv with
    | vclock => rfl
    | vfun f =>
      show callFunction n (renameSt p q st) (renameFun p q f) (args.map (renameVal p q))
        = (renameOut p q (callFunction n st f args).1, renameSt p q (callFunction n st f args).2)
      exact callFunction_rename n p q st f args hp0 hq0 hp hq
    | vclass c =>
      show classCall n (renameSt p q st) (renameClass p q c) (args.map (renameVal p q))
        = (renameOut p q (classCall n st c args).1, renameSt p q (classCall n st c args).2)
      exact classCall_rename n p q st c args hp0 hq0 hp hq
    | vnil => rfl
    | vbool b => rfl
    | vnum x => rfl
    | vstr s => rfl
    | vinst i => rfl
    | vundef => rfl

/-- `Function.call` is equivariant under renaming. -/
theorem callFunction_rename (n : Nat) (p q : Nat) (st : St) (f : FunVal) (args : List Val)
    (hp0 : 0 < p) (hq0 : 0 < q) (hp : p < st.frames.length) (hq : q < st.frames.length) :
    callFunction n (renameSt p q st) (renameFun p q f) (args.map (renameVal p q))
      = (renameOut p q (callFunction n st f args).1,
         renameSt p q (callFunction n st f args).2) := by
  cases n with
  | zero => rfl
  | succ n =>
    simp only [callFunction, renameFun_closure, renameFun_decl, renameFun_isInit,
      renameSt_frames, renameSt_curr, renameFrames_length]
    have hswL : swp p q st.frames.length = st.frames.length :=
      swp_id_of_le p q st.frames.length hp hq
    have hstX : St.mk (renameFrames p q st.frames
          ++ [(⟨[], some (swp p q f.closure)⟩ : Frame)])
        (renameSt p q st).insts (swp p q st.curr)
        (renameSt p q st).locals (renameSt p q st).output
        = renameSt p q { st with frames := st.frames ++ [(⟨[], some f.closure⟩ : Frame)] } := by
      show St.mk (renameFrames p q st.frames ++ [(⟨[], some (swp p q f.closure)⟩ : Frame)])
          (st.insts.map (renameInst p q)) (swp p q st.curr) st.locals st.output
        = St.mk (renameFrames p q (st.frames ++ [(⟨[], some f.closure⟩ : Frame)]))
          (st.insts.map (renameInst p q)) (swp p q st.curr) st.locals st.output
      rw [renameFrames_append p q st.frames hp hq]
      rfl
    rw [hstX]
    have hl1 : ({ st with frames := st.frames ++ [(⟨[], some f.closure⟩ : Frame)] }
        : St).frames.length = st.frames.length + 1 := by
      show (st.frames ++ [(⟨[], some f.closure⟩ : Frame)]).length = st.frames.length + 1
      simp
    have hdp : defineParams
        (renameSt p q { st with frames := st.frames ++ [(⟨[], some f.closure⟩ : Frame)] })
        (swp p q st.frames.length) f.decl.params (args.map (renameVal p q))
        = renameSt p q (defineParams
            { st with frames := st.frames ++ [(⟨[], some f.closure⟩ : Frame)] }
            st.frames.length f.decl.params args) :=
      defineParams_rename p q st.frames.length f.decl.params
        { st with frames := st.frames ++ [(⟨[], some f.closure⟩ : Frame)] }
        (by omega) (by omega) args
    rw [hswL] at hdp
    rw [hdp]
    have hl2 : (defineParams { st with frames := st.frames ++ [(⟨[], some f.closure⟩ : Frame)] }
        st.frames.length f.decl.params args).frames.length = st.frames.length + 1 :=
      (defineParams_frames_length st.frames.length f.decl.params _ args).trans hl1
    have heb := executeBlock_rename n p q
      (defineParams { st with frames := st.frames ++ [(⟨[], some f.closure⟩ : Frame)] }
        st.frames.length f.decl.params args) f.decl.body st.frames.length hp0 hq0
      (by omega) (by omega)
    rw [hswL] at heb
    cases hE : executeBlock n
        (defineParams { st with frames := st.frames ++ [(⟨[], some f.closure⟩ : Frame)] }
          st.frames.length f.decl.params args) f.decl.body st.frames.length with
    | mk r st3 =>
      rw [hE] at heb
      have hp3 : p < st3.frames.length := lt_of_block hE (by omega)
      have hq3 : q < st3.frames.length := lt_of_block hE (by omega)
      cases r with
      | ret v =>
        simp only [renameOutU] at heb
        rw [heb]
        dsimp only []
        by_cases hinit : f.isInit = true
        · rw [if_pos hinit, if_pos hinit, renameSt_frames,
            getAt_rename p q st3.frames hp3 hq3 f.closure 0 "this", getD_rename]
          rfl
        · rw [if_neg hinit, if_neg hinit]
          rfl
      | ok u =>
        simp only [renameOutU] at heb
        rw [heb]
        dsimp only []
        by_cases hinit : f.isInit = true
        · rw [if_pos hinit, if_pos hinit, renameSt_frames,
            getAt_rename p q st3.frames hp3 hq3 f.closure 0 "this", getD_rename]
          rfl
        · rw [if_neg hinit, if_neg hinit]
          rfl
      | err e2 =>
        simp only [renameOutU] at heb
        rw [heb]
        rfl

/-- `Class.call` is equivariant under renaming. -/
theorem classCall_rename (n : Nat) (p q : Nat) (st : St) (c : ClassVal) (args : List Val)
    (hp0 : 0 < p) (hq0 : 0 < q) (hp : p < st.frames.length) (hq : q < st.frames.length) :
    classCall n (renameSt p q st) (renameClass p q c) (args.map (renameVal p q))
      = (renameOut p q (classCall n st c args).1, renameSt p q (classCall n st c args).2) := by
  cases n with
  | zero => rfl
  | succ n =>
    simp only [classCall, renameSt_insts, renameSt_frames, renameSt_curr, List.length_map]
    have hins : st.insts.map (renameInst p q) ++ [(⟨renameClass p q c, []⟩ : InstData)]
        = (st.insts ++ [(⟨c, []⟩ : InstData)]).map (renameInst p q) := by
      rw [List.map_append]
      rfl
    rw [hins, findMethod_rename p q c "init"]
    cases hm : findMethod c "init" with
    | some m =>
      simp only [Option.map_some']
      have hb : bindFun (St.mk (renameFrames p q st.frames)
            ((st.insts ++ [(⟨c, []⟩ : InstData)]).map (renameInst p q))
            (swp p q st.curr) (renameSt p q st).locals (renameSt p q st).output)
          (renameFun p q m) (.vinst st.insts.length)
          = (renameFun p q
              (bindFun { st with insts := st.insts ++ [(⟨c, []⟩ : InstData)] } m
                (.vinst st.insts.length)).1,
             renameSt p q
              (bindFun { st with insts := st.insts ++ [(⟨c, []⟩ : InstData)] } m
                (.vinst st.insts.length)).2) :=
        bindFun_rename p q { st with insts := st.insts ++ [(⟨c, []⟩ : InstData)] } hp hq m
          (.vinst st.insts.length)
      rw [hb]
      dsimp only []
      have hbl := bindFun_frames_length { st with insts := st.insts ++ [(⟨c, []⟩ : InstData)] }
        m (.vinst st.insts.length)
      have hfl : ({ st with insts := st.insts ++ [(⟨c, []⟩ : InstData)] } : St).frames.length
          = st.frames.length := rfl
      have hcf := callFunction_rename n p q
        (bindFun { st with insts := st.insts ++ [(⟨c, []⟩ : InstData)] } m
          (.vinst st.insts.length)).2
        ((bindFun { st with insts := st.insts ++ [(⟨c, []⟩ : InstData)] } m
          (.vinst st.insts.length)).1)
        args hp0 hq0 (by omega) (by omega)
      cases hE : callFunction n
          (bindFun { st with insts := st.insts ++ [(⟨c, []⟩ : InstData)] } m
            (.vinst st.insts.length)).2
          ((bindFun { st with insts := st.insts ++ [(⟨c, []⟩ : InstData)] } m
            (.vinst st.insts.length)).1)
          args with
      | mk r st3 =>
        rw [hE] at hcf
        cases r with
        | ok v =>
          simp only [renameOut] at hcf
          rw [hcf]
          rfl
        | err e2 =>
          simp only [renameOut] at hcf
          rw [hcf]
          rfl
        | ret r2 =>
          simp only [renameOut] at hcf
          rw [hcf]
          rfl
    | none =>
      simp only [Option.map_none']
      rfl

/-- Statement execution is equivariant under renaming. -/
theorem execStmt_rename (n : Nat) (p q : Nat) (st : St) (s : Stmt) (hp0 : 0 < p)
    (hq0 : 0 < q) (hp : p < st.frames.length) (hq : q < st.frames.length) :
    execStmt n (renameSt p q st) s
      = (renameOutU p q (execStmt n st s).1, renameSt p q (execStmt n st s).2) := by
  cases n with
  | zero => rfl
  | succ n =>
    cases s with
    | expression e =>
      simp only [execStmt]
      have ih := evalExpr_rename n p q st e hp0 hq0 hp hq
      cases hE : evalExpr n st e with
      | mk out1 st1 =>
        rw [hE] at ih
        cases out1 with
        | ok v =>
          simp only [renameOut] at ih
          rw [ih]
          rfl
        | err e2 =>
          simp only [renameOut] at ih
          rw [ih]
          rfl
        | ret r =>
          simp only [renameOut] at ih
          rw [ih]
          rfl
    | print e =>
      simp only [execStmt]
      have ih := evalExpr_rename n p q st e hp0 hq0 hp hq
      cases hE : evalExpr n st e with
      | mk out1 st1 =>
        rw [hE] at ih
        cases out1 with
        | ok v =>
          simp only [renameOut] at ih
          rw [ih]
          dsimp only []
          rw [renameSt_output, stringifyVal_rename]
          rfl
        | err e2 =>
          simp only [renameOut] at ih
          rw [ih]
          rfl
        | ret r =>
          simp only [renameOut] at ih
          rw [ih]
          rfl
    | varStmt name init =>
      simp only [execStmt]
      cases init with
      | some e =>
        dsimp only []
        have ih := evalExpr_rename n p q st e hp0 hq0 hp hq
        cases hE : evalExpr n st e with
        | mk out1 st1 =>
          rw [hE] at ih
          cases out1 with
          | ok v =>
            simp only [renameOut] at ih
            rw [ih]
            dsimp only []
            rw [renameSt_curr, defineIn_rename p q st1 (lt_of_eval hE hp) (lt_of_eval hE hq)
              st1.curr name.lexeme v]
            rfl
          | err e2 =>
            simp only [renameOut] at ih
            rw [ih]
            rfl
          | ret r =>
            simp only [renameOut] at ih
            rw [ih]
            rfl
      | none =>
        dsimp only []
        rw [renameSt_curr]
        have hd : defineIn (renameSt p q st) (swp p q st.curr) name.lexeme .vnil
            = renameSt p q (defineIn st st.curr name.lexeme .vnil) :=
          defineIn_rename p q st hp hq st.curr name.lexeme .vnil
        rw [hd]
        rfl
    | functionStmt f =>
      simp only [execStmt]
      rw [renameSt_curr]
      have hd : defineIn (renameSt p q st) (swp p q st.curr) f.name.lexeme
          (.vfun (FunVal.mk f (swp p q st.curr) false))
          = renameSt p q (defineIn st st.curr f.name.lexeme
              (.vfun (FunVal.mk f st.curr false))) :=
        defineIn_rename p q st hp hq st.curr f.name.lexeme (.vfun (FunVal.mk f st.curr false))
      rw [hd]
      rfl
    | returnStmt kw value =>
      simp only [execStmt]
      have ih := evalExpr_rename n p q st value hp0 hq0 hp hq
      cases hE : evalExpr n st value with
      | mk out1 st1 =>
        rw [hE] at ih
        cases out1 with
        | ok v =>
          simp only [renameOut] at ih
          rw [ih]
          rfl
        | err e2 =>
          simp only [renameOut] at ih
          rw [ih]
          rfl
        | ret r =>
          simp only [renameOut] at ih
          rw [ih]
          rfl
    | block stmts =>
      simp only [execStmt, renameSt_frames, renameSt_curr, renameFrames_length]
      have hswL : swp p q st.frames.length = st.frames.length :=
        swp_id_of_le p q st.frames.length hp hq
      have hstX : St.mk (renameFrames p q st.frames
            ++ [(⟨[], some (swp p q st.curr)⟩ : Frame)])
          (renameSt p q st).insts (swp p q st.curr)
          (renameSt p q st).locals (renameSt p q st).output
          = renameSt p q { st with frames := st.frames ++ [(⟨[], some st.curr⟩ : Frame)] } := by
        show St.mk (renameFrames p q st.frames ++ [(⟨[], some (swp p q st.curr)⟩ : Frame)])
            (st.insts.map (renameInst p q)) (swp p q st.curr) st.locals st.output
          = St.mk (renameFrames p q (st.frames ++ [(⟨[], some st.curr⟩ : Frame)]))
            (st.insts.map (renameInst p q)) (swp p q st.curr) st.locals st.output
        rw [renameFrames_append p q st.frames hp hq]
        rfl
      rw [hstX]
      have hl1 : ({ st with frames := st.frames ++ [(⟨[], some st.curr⟩ : Frame)] }
          : St).frames.length = st.frames.length + 1 := by
        show (st.frames ++ [(⟨[], some st.curr⟩ : Frame)]).length = st.frames.length + 1
        simp
      have heb := executeBlock_rename n p q
        { st with frames := st.frames ++ [(⟨[], some st.curr⟩ : Frame)] } stmts
        st.frames.length hp0 hq0 (by omega) (by omega)
      rw [hswL] at heb
      exact heb
    | ifStmt c t e =>
      simp only [execStmt]
      have ih := evalExpr_rename n p q st c hp0 hq0 hp hq
      cases hE : evalExpr n st c with
      | mk out1 st1 =>
        rw [hE] at ih
        cases out1 with
        | ok cv =>
          simp only [renameOut] at ih
          rw [ih]
          dsimp only []
          rw [isTruthy_rename]
          split
          · exact execStmt_rename n p q st1 t hp0 hq0 (lt_of_eval hE hp) (lt_of_eval hE hq)
          · cases e with
            | some s2 =>
              exact execStmt_rename n p q st1 s2 hp0 hq0 (lt_of_eval hE hp) (lt_of_eval hE hq)
            | none => rfl
        | err e2 =>
          simp only [renameOut] at ih
          rw [ih]
          rfl
        | ret r =>
          simp only [renameOut] at ih
          rw [ih]
          rfl
    | whileStmt c b =>
      simp only [execStmt]
      have ih := evalExpr_rename n p q st c hp0 hq0 hp hq
      cases hE : evalExpr n st c with
      | mk out1 st1 =>
        rw [hE] at ih
        cases out1 with
        | ok cv =>
          simp only [renameOut] at ih
          rw [ih]
          dsimp only []
          rw [isTruthy_rename]
          split
          · have ihb := execStmt_rename n p q st1 b hp0 hq0 (lt_of_eval hE hp)
              (lt_of_eval hE hq)
            cases hE2 : execStmt n st1 b with
            | mk out2 st2 =>
              rw [hE2] at ihb
              cases out2 with
              | ok u =>
                simp only [renameOutU] at ihb
                rw [ihb]
                dsimp only []
                exact execStmt_rename n p q st2 (.whileStmt c b) hp0 hq0
                  (lt_of_stmt hE2 (lt_of_eval hE hp)) (lt_of_stmt hE2 (lt_of_eval hE hq))
              | err e2 =>
                simp only [renameOutU] at ihb
                rw [ihb]
                rfl
              | ret r =>
                simp only [renameOutU] at ihb
                rw [ihb]
                rfl
          · rfl
        | err e2 =>
          simp only [renameOut] at ih
          rw [ih]
          rfl
        | ret r =>
          simp only [renameOut] at ih
          rw [ih]
          rfl
    | classStmt name methods superclass =>
      simp only [execStmt, defineIn_curr, renameSt_curr]
      have hd : defineIn (renameSt p q st) (swp p q st.curr) name.lexeme .vnil
          = renameSt p q (defineIn st st.curr name.lexeme .vnil) :=
        defineIn_rename p q st hp hq st.curr name.lexeme .vnil
      rw [hd]
      have hpd : p < (defineIn st st.curr name.lexeme .vnil).frames.length := by
        rw [defineIn_frames_length]
        exact hp
      have hqd : q < (defineIn st st.curr name.lexeme .vnil).frames.length := by
        rw [defineIn_frames_length]
        exact hq
      cases superclass with
      | none =>
        dsimp only []
        have hkl : ClassVal.mk name.lexeme none
            (methods.map fun m => (m.name.lexeme, FunVal.mk m (swp p q st.curr)
              (m.name.lexeme = "init")))
            = renameClass p q (ClassVal.mk name.lexeme none
                (methods.map fun m => (m.name.lexeme, FunVal.mk m st.curr
                  (m.name.lexeme = "init")))) := by
          rw [renameClass_mk, List.map_map]
          rfl
        rw [hkl]
        have hv : (Val.vclass (renameClass p q (ClassVal.mk name.lexeme none
            (methods.map fun m => (m.name.lexeme, FunVal.mk m st.curr
              (m.name.lexeme = "init"))))))
            = renameVal p q (Val.vclass (ClassVal.mk name.lexeme none
              (methods.map fun m => (m.name.lexeme, FunVal.mk m st.curr
                (m.name.lexeme = "init"))))) := rfl
        rw [hv]
        have hA := envAssign_rename p q (defineIn st st.curr name.lexeme .vnil) hpd hqd
          st.curr name
          (Val.vclass (ClassVal.mk name.lexeme none
            (methods.map fun m => (m.name.lexeme, FunVal.mk m st.curr
              (m.name.lexeme = "init")))))
        cases hE : envAssign (defineIn st st.curr name.lexeme .vnil) st.curr name
            (.vclass (ClassVal.mk name.lexeme none
              (methods.map fun m => (m.name.lexeme, FunVal.mk m st.curr
                (m.name.lexeme = "init"))))) with
        | mk out2 st3 =>
          rw [hE] at hA
          cases out2 with
          | ok u =>
            simp only [renameOutU] at hA
            rw [hA]
            rfl
          | err e2 =>
            simp only [renameOutU] at hA
            rw [hA]
            rfl
          | ret r =>
            simp only [renameOutU] at hA
            rw [hA]
            rfl
      | some supE =>
        dsimp only []
        have ih := evalExpr_rename n p q (defineIn st st.curr name.lexeme .vnil) supE
          hp0 hq0 hpd hqd
        cases hE : evalExpr n (defineIn st st.curr name.lexeme .vnil) supE with
        | mk out1 st1 =>
          rw [hE] at ih
          cases out1 with
          | ok sv =>
            cases sv with
            | vclass sc =>
              simp only [renameOut, renameVal] at ih
              rw [ih]
              dsimp only []
              rw [renameSt_frames, renameFrames_length, renameSt_curr]
              have hp1 : p < st1.frames.length := lt_of_eval hE hpd
              have hq1 : q < st1.frames.length := lt_of_eval hE hqd
              have hsw1 : swp p q st1.frames.length = st1.frames.length :=
                swp_id_of_le p q st1.frames.length hp1 hq1
              have hstX : St.mk (renameFrames p q st1.frames
                    ++ [(⟨[("super", Val.vclass (renameClass p q sc))],
                          some (swp p q st1.curr)⟩ : Frame)])
                  (renameSt p q st1).insts (swp p q st1.curr)
                  (renameSt p q st1).locals (renameSt p q st1).output
                  = renameSt p q { st1 with frames := st1.frames
                      ++ [(⟨[("super", Val.vclass sc)], some st1.curr⟩ : Frame)] } := by
                show St.mk (renameFrames p q st1.frames
                      ++ [(⟨[("super", Val.vclass (renameClass p q sc))],
                            some (swp p q st1.curr)⟩ : Frame)])
                    (st1.insts.map (renameInst p q)) (swp p q st1.curr) st1.locals st1.output
                  = St.mk (renameFrames p q (st1.frames
                      ++ [(⟨[("super", Val.vclass sc)], some st1.curr⟩ : Frame)]))
                    (st1.insts.map (renameInst p q)) (swp p q st1.curr) st1.locals st1.output
                rw [renameFrames_append p q st1.frames hp1 hq1]
                rfl
              rw [hstX]
              have hkl : ClassVal.mk name.lexeme (some (renameClass p q sc))
                  (methods.map fun m => (m.name.lexeme,
                    FunVal.mk m st1.frames.length (m.name.lexeme = "init")))
                  = renameClass p q (ClassVal.mk name.lexeme (some sc)
                      (methods.map fun m => (m.name.lexeme,
                        FunVal.mk m st1.frames.length (m.name.lexeme = "init")))) := by
                rw [renameClass_mk, methodsMap_rename p q methods st1.frames.length hsw1]
                rfl
              rw [hkl]
              have hl2 : ({ st1 with frames := st1.frames
                  ++ [(⟨[("super", Val.vclass sc)], some st1.curr⟩ : Frame)] }
                    : St).frames.length = st1.frames.length + 1 := by
                show (st1.frames
                    ++ [(⟨[("super", Val.vclass sc)], some st1.curr⟩ : Frame)]).length
                  = st1.frames.length + 1
                simp
              have hv : (Val.vclass (renameClass p q (ClassVal.mk name.lexeme (some sc)
                  (methods.map fun m => (m.name.lexeme,
                    FunVal.mk m st1.frames.length (m.name.lexeme = "init"))))))
                  = renameVal p q (Val.vclass (ClassVal.mk name.lexeme (some sc)
                    (methods.map fun m => (m.name.lexeme,
                      FunVal.mk m st1.frames.length (m.name.lexeme = "init"))))) := rfl
              rw [hv]
              have hA := envAssign_rename p q
                { st1 with frames := st1.frames
                  ++ [(⟨[("super", Val.vclass sc)], some st1.curr⟩ : Frame)] }
                (by omega) (by omega) st1.curr name
                (Val.vclass (ClassVal.mk name.lexeme (some sc)
                  (methods.map fun m => (m.name.lexeme,
                    FunVal.mk m st1.frames.length (m.name.lexeme = "init")))))
              cases hE2 : envAssign { st1 with frames := st1.frames
                  ++ [(⟨[("super", Val.vclass sc)], some st1.curr⟩ : Frame)] }
                  st1.curr name
                  (.vclass (ClassVal.mk name.lexeme (some sc)
                    (methods.map fun m => (m.name.lexeme,
                      FunVal.mk m st1.frames.length (m.name.lexeme = "init"))))) with
              | mk out2 st3 =>
                rw [hE2] at hA
                cases out2 with
                | ok u =>
                  simp only [renameOutU] at hA
                  rw [hA]
                  rfl
                | err e2 =>
                  simp only [renameOutU] at hA
                  rw [hA]
                  rfl
                | ret r =>
                  simp only [renameOutU] at hA
                  rw [hA]
                  rfl
            | vnil =>
              simp only [renameOut, renameVal] at ih
              rw [ih]
              rfl
            | vbool b =>
              simp only [renameOut, renameVal] at ih
              rw [ih]
              rfl
            | vnum x =>
              simp only [renameOut, renameVal] at ih
              rw [ih]
              rfl
            | vstr s2 =>
              simp only [renameOut, renameVal] at ih
              rw [ih]
              rfl
            | vfun f =>
              simp only [renameOut, renameVal] at ih
              rw [ih]
              rfl
            | vinst i =>
              simp only [renameOut, renameVal] at ih
              rw [ih]
              rfl
            | vclock =>
              simp only [renameOut, renameVal] at ih
              rw [ih]
              rfl
            | vundef =>
              simp only [renameOut, renameVal] at ih
              rw [ih]
              rfl
          | err e2 =>
            simp only [renameOut] at ih
            rw [ih]
            rfl
          | ret r =>
            simp only [renameOut] at ih
            rw [ih]
            rfl

/-- Statement-list execution is equivariant under renaming. -/
theorem execList_rename (n : Nat) (p q : Nat) (st : St) (ss : List Stmt) (hp0 : 0 < p)
    (hq0 : 0 < q) (hp : p < st.frames.length) (hq : q < st.frames.length) :
    execList n (renameSt p q st) ss
      = (renameOutU p q (execList n st ss).1, renameSt p q (execList n st ss).2) := by
  cases n with
  | zero => rfl
  | succ n =>
    cases ss with
    | nil => rfl
    | cons s rest =>
      simp only [execList]
      have ih := execStmt_rename n p q st s hp0 hq0 hp hq
      cases hE : execStmt n st s with
      | mk out1 st1 =>
        rw [hE] at ih
        cases out1 with
        | ok u =>
          simp only [renameOutU] at ih
          rw [ih]
          dsimp only []
          exact execList_rename n p q st1 rest hp0 hq0 (lt_of_stmt hE hp) (lt_of_stmt hE hq)
        | err e2 =>
          simp only [renameOutU] at ih
          rw [ih]
          rfl
        | ret r =>
          simp only [renameOutU] at ih
          rw [ih]
          rfl

/-- Block execution is equivariant under renaming. -/
theorem executeBlock_rename (n : Nat) (p q : Nat) (st : St) (stmts : List Stmt) (envId : Nat)
    (hp0 : 0 < p) (hq0 : 0 < q) (hp : p < st.frames.length) (hq : q < st.frames.length) :
    executeBlock n (renameSt p q st) stmts (swp p q envId)
      = (renameOutU p q (executeBlock n st stmts envId).1,
         renameSt p q (executeBlock n st stmts envId).2) := by
  cases n with
  | zero => rfl
  | succ n =>
    simp only [executeBlock]
    have hsc : ({ renameSt p q st with curr := swp p q envId } : St)
        = renameSt p q { st with curr := envId } := rfl
    rw [hsc]
    have heL := execList_rename n p q { st with curr := envId } stmts hp0 hq0 hp hq
    cases hE : execList n { st with curr := envId } stmts with
    | mk r st1 =>
      rw [hE] at heL
      rw [heL]
      dsimp only []
      cases r with
      | ok u => rfl
      | err e2 => rfl
      | ret r2 => rfl

end

/-- All closure ids of a class value (methods and superclass chain) lie below
`k`. -/
def idsBelowClass (k : Nat) : ClassVal → Bool
  | .mk _ sup ms =>
    match sup with
    | some s => (ms.all fun kv => kv.2.closure < k) && idsBelowClass k s
    | none => ms.all fun kv => kv.2.closure < k

/-- All environment ids stored in a value lie below `k`. -/
def idsBelowVal (k : Nat) : Val → Bool
  | .vfun f => f.closure < k
  | .vclass c => idsBelowClass k c
  | _ => true

/-- All environment ids stored in a values map lie below `k`. -/
def idsBelowVals (k : Nat) (m : List (String × Val)) : Bool :=
  m.all fun kv => idsBelowVal k kv.2

/-- All environment ids stored in a frame lie below `k`. -/
def idsBelowFrame (k : Nat) (fr : Frame) : Bool :=
  idsBelowVals k fr.values
    && (match fr.enclosing with
        | some j => j < k
        | none => true)

/-- All environment ids stored in an instance lie below `k`. -/
def idsBelowInst (k : Nat) (d : InstData) : Bool :=
  idsBelowClass k d.klass && idsBelowVals k d.fields

/-- All environment ids stored anywhere in the state lie below `k`. -/
def stIdsBelow (k : Nat) (st : St) : Bool :=
  st.frames.all (idsBelowFrame k) && st.insts.all (idsBelowInst k) && st.curr < k

/-- Renaming fixes a function value whose closure id is below the
transposition. -/
theorem renameFun_id (p q k : Nat) (hkp : k ≤ p) (hkq : k ≤ q) (f : FunVal)
    (h : f.closure < k) : renameFun p q f = f := by
  cases f with
  | mk d c b =>
    show FunVal.mk d (swp p q c) b = FunVal.mk d c b
    have hc : c < k := h
    rw [swp_id p q c (by omega) (by omega)]

/-- Renaming fixes a methods table whose closure ids are below the
transposition. -/
theorem mapRenameFun_id (p q k : Nat) (hkp : k ≤ p) (hkq : k ≤ q) :
    ∀ (ms : List (String × FunVal)), (ms.all fun kv => kv.2.closure < k) = true →
      ms.map (fun kv => (kv.1, renameFun p q kv.2)) = ms := by
  intro ms
  induction ms with
  | nil => intro _; rfl
  | cons kv rest ih =>
    intro h
    simp only [List.all_cons, Bool.and_eq_true] at h
    simp only [List.map_cons]
    rw [renameFun_id p q k hkp hkq kv.2 (of_decide_eq_true h.1), ih h.2]

/-- Renaming fixes a class value whose ids are below the transposition. -/
theorem renameClass_id (p q k : Nat) (hkp : k ≤ p) (hkq : k ≤ q) :
    ∀ (c : ClassVal), idsBelowClass k c = true → renameClass p q c = c := by
  intro c
  induction c using idsBelowClass.induct k with
  | case1 =>
    rename_i nm ms s ih
    intro h
    rw [idsBelowClass.eq_def] at h
    simp only [Bool.and_eq_true] at h
    rw [renameClass_mk, Option.map_some', ih h.2,
      mapRenameFun_id p q k hkp hkq ms h.1]
  | case2 =>
    rename_i nm ms
    intro h
    rw [idsBelowClass.eq_def] at h
    rw [renameClass_mk, Option.map_none', mapRenameFun_id p q k hkp hkq ms h]

/-- Unfolding of `idsBelowClass` at a constructor with a superclass. -/
theorem idsBelowClass_mk_some (k : Nat) (nm : String) (s : ClassVal)
    (ms : List (String × FunVal)) :
    idsBelowClass k (.mk nm (some s) ms)
      = ((ms.all fun kv => kv.2.closure < k) && idsBelowClass k s) := by
  rw [idsBelowClass.eq_def]

/-- Unfolding of `idsBelowClass` at a constructor without a superclass. -/
theorem idsBelowClass_mk_none (k : Nat) (nm : String)
    (ms : List (String × FunVal)) :
    idsBelowClass k (.mk nm none ms) = (ms.all fun kv => kv.2.closure < k) := by
  rw [idsBelowClass.eq_def]

/-- Renaming fixes a value whose ids are below the transposition. -/
theorem renameVal_id (p q k : Nat) (hkp : k ≤ p) (hkq : k ≤ q) (v : Val)
    (h : idsBelowVal k v = true) : renameVal p q v = v := by
  cases v with
  | vfun f =>
    show Val.vfun (renameFun p q f) = Val.vfun f
    rw [renameFun_id p q k hkp hkq f (of_decide_eq_true h)]
  | vclass c =>
    show Val.vclass (renameClass p q c) = Val.vclass c
    rw [renameClass_id p q k hkp hkq c h]
  | vnil => rfl
  | vbool b => rfl
  | vnum x => rfl
  | vstr s => rfl
  | vinst i => rfl
  | vclock => rfl
  | vundef => rfl

/-- Renaming fixes a values map whose ids are below the transposition. -/
theorem renameVals_id (p q k : Nat) (hkp : k ≤ p) (hkq : k ≤ q) :
    ∀ (m : List (String × Val)), idsBelowVals k m = true → renameVals p q m = m := by
  intro m
  induction m with
  | nil => intro _; rfl
  | cons kv rest ih =>
    intro h
    simp only [idsBelowVals, List.all_cons, Bool.and_eq_true] at h
    show (kv.1, renameVal p q kv.2) :: renameVals p q rest = kv :: rest
    rw [renameVal_id p q k hkp hkq kv.2 h.1, ih h.2]

/-- Renaming fixes a frame whose ids are below the transposition. -/
theorem renameFrame_id (p q k : Nat) (hkp : k ≤ p) (hkq : k ≤ q) (fr : Frame)
    (h : idsBelowFrame k fr = true) : renameFrame p q fr = fr := by
  obtain ⟨vals, enc⟩ := fr
  simp only [idsBelowFrame, Bool.and_eq_true] at h
  show Frame.mk (renameVals p q vals) (enc.map (swp p q)) = Frame.mk vals enc
  rw [renameVals_id p q k hkp hkq vals h.1]
  cases enc with
  | none => rfl
  | some j =>
    have hj : j < k := of_decide_eq_true h.2
    show Frame.mk vals (some (swp p q j)) = Frame.mk vals (some j)
    rw [swp_id p q j (by omega) (by omega)]

/-- Renaming fixes an instance whose ids are below the transposition. -/
theorem renameInst_id (p q k : Nat) (hkp : k ≤ p) (hkq : k ≤ q) (d : InstData)
    (h : idsBelowInst k d = true) : renameInst p q d = d := by
  obtain ⟨c, fs⟩ := d
  simp only [idsBelowInst, Bool.and_eq_true] at h
  show InstData.mk (renameClass p q c) (renameVals p q fs) = InstData.mk c fs
  rw [renameClass_id p q k hkp hkq c h.1, renameVals_id p q k hkp hkq fs h.2]

/-- Renaming fixes an instance heap whose ids are below the transposition. -/
theorem mapRenameInst_id (p q k : Nat) (hkp : k ≤ p) (hkq : k ≤ q) :
    ∀ (insts : List InstData), insts.all (idsBelowInst k) = true →
      insts.map (renameInst p q) = insts := by
  intro insts
  induction insts with
  | nil => intro _; rfl
  | cons d rest ih =>
    intro h
    simp only [List.all_cons, Bool.and_eq_true] at h
    simp only [List.map_cons]
    rw [renameInst_id p q k hkp hkq d h.1, ih h.2]

/-- Renaming fixes an argument list whose ids are below the transposition. -/
theorem mapRenameVal_id (p q k : Nat) (hkp : k ≤ p) (hkq : k ≤ q) :
    ∀ (args : List Val), args.all (idsBelowVal k) = true →
      args.map (renameVal p q) = args := by
  intro args
  induction args with
  | nil => intro _; rfl
  | cons v rest ih =>
    intro h
    simp only [List.all_cons, Bool.and_eq_true] at h
    simp only [List.map_cons]
    rw [renameVal_id p q k hkp hkq v h.1, ih h.2]

/-- A lookup in an association list all of whose values satisfy `P` yields a
value satisfying `P`. -/
theorem alGet_all {β : Type} (P : β → Bool) :
    ∀ (ms : List (String × β)), (ms.all fun kv => P kv.2) = true →
      ∀ (key : String) (v : β), alGet ms key = some v → P v = true := by
  intro ms
  induction ms with
  | nil => intro _ key v hg; exact absurd hg (by simp [alGet])
  | cons kv rest ih =>
    intro h key v hg
    obtain ⟨k1, v1⟩ := kv
    simp only [List.all_cons, Bool.and_eq_true] at h
    simp only [alGet] at hg
    by_cases hk : k1 = key
    · rw [if_pos hk] at hg
      injection hg with he
      rw [← he]
      exact h.1
    · rw [if_neg hk] at hg
      exact ih h.2 key v hg

/-- A method found on a class whose ids are below `k` has its closure id below
`k`. -/
theorem findMethod_below (k : Nat) :
    ∀ (c : ClassVal) (nm : String), idsBelowClass k c = true →
      ∀ (m : FunVal), findMethod c nm = some m → m.closure < k := by
  intro c nm
  induction c, nm using findMethod.induct with
  | case1 =>
    rename_i nm2 sup ms name m2 hget
    intro hb m hf2
    rw [findMethod.eq_1 _ _ _ _ _ hget] at hf2
    injection hf2 with he
    rw [← he]
    cases sup with
    | some s =>
      rw [idsBelowClass_mk_some, Bool.and_eq_true] at hb
      exact of_decide_eq_true
        (alGet_all (fun f => decide (f.closure < k)) ms hb.1 name m2 hget)
    | none =>
      rw [idsBelowClass_mk_none] at hb
      exact of_decide_eq_true
        (alGet_all (fun f => decide (f.closure < k)) ms hb name m2 hget)
  | case2 =>
    rename_i nm2 ms name s hget ih
    intro hb m hf2
    rw [findMethod.eq_2 _ _ _ _ hget] at hf2
    rw [idsBelowClass_mk_some, Bool.and_eq_true] at hb
    exact ih hb.2 m hf2
  | case3 =>
    rename_i nm2 ms name hget
    intro hb m hf2
    rw [findMethod.eq_3 _ _ _ hget] at hf2
    exact absurd hf2 (by simp)

/-- Every instance slot of a below-`k` instance heap is below `k` (the
out-of-range default instance trivially is). -/
theorem instAt_below (k : Nat) (st : St) (i : Nat)
    (h : st.insts.all (idsBelowInst k) = true) :
    idsBelowInst k (instAt st i) = true := by
  unfold instAt
  rw [List.getD_eq_getElem?_getD]
  cases hv : st.insts[i]? with
  | none => rfl
  | some d =>
    have hmem : d ∈ st.insts := List.getElem?_mem hv
    rw [List.all_eq_true] at h
    exact h d hmem

/-- The state reached after binding the same method twice in a row — two equal
fresh frames on top of a heap of smaller ids — is a fixed point of the
transposition of the two fresh ids. -/
theorem renameSt_swap_pair (p : Nat) (h0 : List Frame) (fr : Frame)
    (insts : List InstData) (curr : Nat) (locals : List (Nat × Nat))
    (output : List String)
    (hlen : h0.length = p)
    (hfr0 : h0.all (idsBelowFrame p) = true)
    (hfr : idsBelowFrame p fr = true)
    (hins : insts.all (idsBelowInst p) = true)
    (hc : curr < p) :
    renameSt p (p + 1) (St.mk (h0 ++ [fr, fr]) insts curr locals output)
      = St.mk (h0 ++ [fr, fr]) insts curr locals output := by
  have hlen2 : (h0 ++ [fr, fr]).length = p + 2 := by
    simp only [List.length_append, List.length_cons, List.length_nil]
    omega
  have hp2 : p < (h0 ++ [fr, fr]).length := by omega
  have hq2 : p + 1 < (h0 ++ [fr, fr]).length := by omega
  have hframes : renameFrames p (p + 1) (h0 ++ [fr, fr]) = h0 ++ [fr, fr] := by
    apply List.ext_getElem?
    intro t
    rw [renameFrames_getElem p (p + 1) _ hp2 hq2 t]
    by_cases h1 : t < p
    · rw [swp_id p (p + 1) t (by omega) (by omega)]
      rw [List.getElem?_append_left (show t < h0.length by omega)]
      cases hv : h0[t]? with
      | none => rfl
      | some frt =>
        have hmem : frt ∈ h0 := List.getElem?_mem hv
        rw [List.all_eq_true] at hfr0
        rw [Option.map_some',
          renameFrame_id p (p + 1) p (le_refl p) (by omega) frt (hfr0 frt hmem)]
    · by_cases h2 : t = p
      · rw [h2]
        have hsw : swp p (p + 1) p = p + 1 := by
          unfold swp
          rw [if_pos rfl]
        rw [hsw]
        rw [List.getElem?_append_right (show h0.length ≤ p + 1 by omega)]
        rw [List.getElem?_append_right (show h0.length ≤ p by omega)]
        rw [hlen]
        have e1 : p + 1 - p = 1 := by omega
        have e0 : p - p = 0 := by omega
        rw [e1, e0]
        show (some fr).map (renameFrame p (p + 1)) = some fr
        rw [Option.map_some',
          renameFrame_id p (p + 1) p (le_refl p) (by omega) fr hfr]
      · by_cases h3 : t = p + 1
        · rw [h3]
          have hsw : swp p (p + 1) (p + 1) = p := by
            unfold swp
            rw [if_neg (by omega), if_pos rfl]
          rw [hsw]
          rw [List.getElem?_append_right (show h0.length ≤ p by omega)]
          rw [List.getElem?_append_right (show h0.length ≤ p + 1 by omega)]
          rw [hlen]
          have e1 : p + 1 - p = 1 := by omega
          have e0 : p - p = 0 := by omega
          rw [e1, e0]
          show (some fr).map (renameFrame p (p + 1)) = some fr
          rw [Option.map_some',
            renameFrame_id p (p + 1) p (le_refl p) (by omega) fr hfr]
        · rw [swp_id p (p + 1) t (by omega) (by omega)]
          rw [List.getElem?_eq_none (show (h0 ++ [fr, fr]).length ≤ t by omega)]
          rfl
  have hinsts : insts.map (renameInst p (p + 1)) = insts :=
    mapRenameInst_id p (p + 1) p (le_refl p) (by omega) insts hins
  have hcurr : swp p (p + 1) curr = curr := swp_id p (p + 1) curr (by omega) (by omega)
  show St.mk (renameFrames p (p + 1) (h0 ++ [fr, fr]))
      (insts.map (renameInst p (p + 1))) (swp p (p + 1) curr) locals output
    = St.mk (h0 ++ [fr, fr]) insts curr locals output
  rw [hframes, hinsts, hcurr]

/-- The fresh frame `bindFun` appends: `this` bound to the instance, enclosing
the method's original closure. -/
def thisFrame (i : Nat) (m : FunVal) : Frame :=
  ⟨[("this", Val.vinst i)], some m.closure⟩

/-- C2: evaluating the property access `i.m` — a field miss that finds method
`m` on `i`'s class — returns a new bound function value whose closure is the
fresh environment `st.frames.length` binding `this` to `i` and enclosing the
method's original closure, with `isInit` preserved.  A second evaluation
returns a bound value at the next fresh id: the two bound function values are
distinct.  Invoking the two from the state after both bindings is
observationally equal: the runs agree up to the transposition of the two
fresh environment ids (so outcomes have the same shape and errors are
identical), and the print output is literally equal. -/
theorem c2_bound_method_distinct_equivalent (st : St) (i : Nat) (name : Token)
    (m : FunVal)
    (hfield : alGet (instAt st i).fields name.lexeme = none)
    (hmeth : findMethod (instAt st i).klass name.lexeme = some m) :
    instanceGet st i name
      = (.ok (.vfun (FunVal.mk m.decl st.frames.length m.isInit)),
         St.mk (st.frames ++ [thisFrame i m]) st.insts st.curr st.locals st.output) ∧
    instanceGet (instanceGet st i name).2 i name
      = (.ok (.vfun (FunVal.mk m.decl (st.frames.length + 1) m.isInit)),
         St.mk (st.frames ++ [thisFrame i m, thisFrame i m]) st.insts st.curr
           st.locals st.output) ∧
    FunVal.mk m.decl st.frames.length m.isInit
      ≠ FunVal.mk m.decl (st.frames.length + 1) m.isInit ∧
    (∀ (n : Nat) (args : List Val),
      0 < st.frames.length →
      stIdsBelow st.frames.length st = true →
      args.all (idsBelowVal st.frames.length) = true →
      callFunction n (instanceGet (instanceGet st i name).2 i name).2
          (FunVal.mk m.decl (st.frames.length + 1) m.isInit) args
        = (renameOut st.frames.length (st.frames.length + 1)
            (callFunction n (instanceGet (instanceGet st i name).2 i name).2
              (FunVal.mk m.decl st.frames.length m.isInit) args).1,
           renameSt st.frames.length (st.frames.length + 1)
            (callFunction n (instanceGet (instanceGet st i name).2 i name).2
              (FunVal.mk m.decl st.frames.length m.isInit) args).2) ∧
      ((callFunction n (instanceGet (instanceGet st i name).2 i name).2
          (FunVal.mk m.decl (st.frames.length + 1) m.isInit) args).2).output
        = ((callFunction n (instanceGet (instanceGet st i name).2 i name).2
            (FunVal.mk m.decl st.frames.length m.isInit) args).2).output) := by
  have h1 : instanceGet st i name
      = (.ok (.vfun (FunVal.mk m.decl st.frames.length m.isInit)),
         St.mk (st.frames ++ [thisFrame i m]) st.insts st.curr st.locals st.output) := by
    unfold instanceGet
    rw [hfield, hmeth]
    rfl
  have h2 : instanceGet (instanceGet st i name).2 i name
      = (.ok (.vfun (FunVal.mk m.decl (st.frames.length + 1) m.isInit)),
         St.mk (st.frames ++ [thisFrame i m, thisFrame i m]) st.insts st.curr
           st.locals st.output) := by
    rw [h1]
    show instanceGet
        (St.mk (st.frames ++ [thisFrame i m]) st.insts st.curr st.locals st.output) i name
      = (.ok (.vfun (FunVal.mk m.decl (st.frames.length + 1) m.isInit)),
         St.mk (st.frames ++ [thisFrame i m, thisFrame i m]) st.insts st.curr
           st.locals st.output)
    have hfield2 : alGet (instAt
        (St.mk (st.frames ++ [thisFrame i m]) st.insts st.curr st.locals st.output)
        i).fields name.lexeme = none := hfield
    have hmeth2 : findMethod (instAt
        (St.mk (st.frames ++ [thisFrame i m]) st.insts st.curr st.locals st.output)
        i).klass name.lexeme = some m := hmeth
    unfold instanceGet
    rw [hfield2, hmeth2]
    show (Outcome.ok (Val.vfun
          (FunVal.mk m.decl (st.frames ++ [thisFrame i m]).length m.isInit)),
        St.mk ((st.frames ++ [thisFrame i m]) ++ [thisFrame i m]) st.insts st.curr
          st.locals st.output)
      = (Outcome.ok (Val.vfun (FunVal.mk m.decl (st.frames.length + 1) m.isInit)),
        St.mk (st.frames ++ [thisFrame i m, thisFrame i m]) st.insts st.curr
          st.locals st.output)
    rw [List.length_append, List.append_assoc]
    rfl
  have hstB : (instanceGet (instanceGet st i name).2 i name).2
      = St.mk (st.frames ++ [thisFrame i m, thisFrame i m]) st.insts st.curr
          st.locals st.output := by
    rw [h2]
  refine ⟨h1, h2, ?_, ?_⟩
  · intro hcon
    injection hcon with hd hcl hin
    omega
  · intro n args hpos hbelow hargs
    have hb := hbelow
    simp only [stIdsBelow, Bool.and_eq_true] at hb
    have hcur : st.curr < st.frames.length := of_decide_eq_true hb.2
    have hinstB := instAt_below st.frames.length st i hb.1.2
    simp only [idsBelowInst, Bool.and_eq_true] at hinstB
    have hmcl : m.closure < st.frames.length :=
      findMethod_below st.frames.length (instAt st i).klass name.lexeme hinstB.1 m hmeth
    have hfrB : idsBelowFrame st.frames.length (thisFrame i m) = true := by
      simp [thisFrame, idsBelowFrame, idsBelowVals, idsBelowVal, hmcl]
    have hren : renameSt st.frames.length (st.frames.length + 1)
        (St.mk (st.frames ++ [thisFrame i m, thisFrame i m]) st.insts st.curr
          st.locals st.output)
        = St.mk (st.frames ++ [thisFrame i m, thisFrame i m]) st.insts st.curr
            st.locals st.output :=
      renameSt_swap_pair st.frames.length st.frames (thisFrame i m) st.insts st.curr
        st.locals st.output rfl hb.1.1 hfrB hb.1.2 hcur
    have hf12 : renameFun st.frames.length (st.frames.length + 1)
        (FunVal.mk m.decl st.frames.length m.isInit)
        = FunVal.mk m.decl (st.frames.length + 1) m.isInit := by
      show FunVal.mk m.decl
          (swp st.frames.length (st.frames.length + 1) st.frames.length) m.isInit
        = FunVal.mk m.decl (st.frames.length + 1) m.isInit
      rw [show swp st.frames.length (st.frames.length + 1) st.frames.length
          = st.frames.length + 1 from by unfold swp; rw [if_pos rfl]]
    have hargsId : args.map (renameVal st.frames.length (st.frames.length + 1)) = args :=
      mapRenameVal_id st.frames.length (st.frames.length + 1) st.frames.length
        (le_refl _) (by omega) args hargs
    have hmain := callFunction_rename n st.frames.length (st.frames.length + 1)
        (St.mk (st.frames ++ [thisFrame i m, thisFrame i m]) st.insts st.curr
          st.locals st.output)
        (FunVal.mk m.decl st.frames.length m.isInit) args
        hpos (by omega)
        (by show st.frames.length < (st.frames ++ [thisFrame i m, thisFrame i m]).length
            simp only [List.length_append, List.length_cons, List.length_nil]
            omega)
        (by show st.frames.length + 1
              < (st.frames ++ [thisFrame i m, thisFrame i m]).length
            simp only [List.length_append, List.length_cons, List.length_nil]
            omega)
    rw [hren, hf12, hargsId] at hmain
    rw [hstB]
    constructor
    · exact hmain
    · rw [hmain]
      show (renameSt st.frames.length (st.frames.length + 1)
          (callFunction n
            (St.mk (st.frames ++ [thisFrame i m, thisFrame i m]) st.insts st.curr
              st.locals st.output)
            (FunVal.mk m.decl st.frames.length m.isInit) args).2).output
        = ((callFunction n
            (St.mk (st.frames ++ [thisFrame i m, thisFrame i m]) st.insts st.curr
              st.locals st.output)
            (FunVal.mk m.decl st.frames.length m.isInit) args).2).output
      rw [renameSt_output]

/-- The method `m() {}` of the C2 witness class. -/
def c2mfun : FunVal := ⟨⟨tokW .IDENTIFIER "m", [], []⟩, 0, false⟩

/-- The C2 witness class `class B { m() {} }`. -/
def c2class : ClassVal := ⟨"B", none, [("m", c2mfun)]⟩

/-- C2 witness state: the globals frame plus one instance of `B`. -/
def c2st : St := { frames := [⟨[], none⟩], insts := [⟨c2class, []⟩] }

/-- Concrete run of the C2 theorem: on the witness state the two bound values
are distinct, and invoking them (fuel 9, no arguments) is equal up to the
transposition of the two fresh ids, with literally equal output. -/
theorem c2_bound_method_distinct_equivalent_witness :
    FunVal.mk c2mfun.decl c2st.frames.length c2mfun.isInit
      ≠ FunVal.mk c2mfun.decl (c2st.frames.length + 1) c2mfun.isInit ∧
    callFunction 9
        (instanceGet (instanceGet c2st 0 (tokW .IDENTIFIER "m")).2 0
          (tokW .IDENTIFIER "m")).2
        (FunVal.mk c2mfun.decl (c2st.frames.length + 1) c2mfun.isInit) []
      = (renameOut c2st.frames.length (c2st.frames.length + 1)
          (callFunction 9
            (instanceGet (instanceGet c2st 0 (tokW .IDENTIFIER "m")).2 0
              (tokW .IDENTIFIER "m")).2
            (FunVal.mk c2mfun.decl c2st.frames.length c2mfun.isInit) []).1,
         renameSt c2st.frames.length (c2st.frames.length + 1)
          (callFunction 9
            (instanceGet (instanceGet c2st 0 (tokW .IDENTIFIER "m")).2 0
              (tokW .IDENTIFIER "m")).2
            (FunVal.mk c2mfun.decl c2st.frames.length c2mfun.isInit) []).2) ∧
    ((callFunction 9
        (instanceGet (instanceGet c2st 0 (tokW .IDENTIFIER "m")).2 0
          (tokW .IDENTIFIER "m")).2
        (FunVal.mk c2mfun.decl (c2st.frames.length + 1) c2mfun.isInit) []).2).output
      = ((callFunction 9
          (instanceGet (instanceGet c2st 0 (tokW .IDENTIFIER "m")).2 0
            (tokW .IDENTIFIER "m")).2
          (FunVal.mk c2mfun.decl c2st.frames.length c2mfun.isInit) []).2).output :=
  ⟨(c2_bound_method_distinct_equivalent c2st 0 (tokW .IDENTIFIER "m") c2mfun
      rfl rfl).2.2.1,
   ((c2_bound_method_distinct_equivalent c2st 0 (tokW .IDENTIFIER "m") c2mfun
      rfl rfl).2.2.2 9 [] (by decide) rfl rfl).1,
   ((c2_bound_method_distinct_equivalent c2st 0 (tokW .IDENTIFIER "m") c2mfun
      rfl rfl).2.2.2 9 [] (by decide) rfl rfl).2⟩

end TsLox
